import Mathlib

/-!
ALPSCore HDF5 serialization core: type-adaptation layer, chunk loop, vector writer and
reader, attribute write; logarithmic binning of the accumulators.

A shallow embedding of `src/hdf5.deprecated.hpp` (namespace `alps::hdf5`, here
`ALPS.hdf5`) and of `src/ngs/alea/feature/log_bin.hpp` (namespace
`alps::accumulator`, here `ALPS.accumulator`).

* C++ exceptions become the error side of `Except Err`; undefined behaviour
  (an index outside a vector or buffer) is the distinguished error
  `Err.OutOfBounds`; a `do ... while` loop is run with fuel and reports
  `Err.OutOfFuel` when the fuel does not suffice.
* `hsize_t` / `std::size_t` values are natural numbers; all sizes considered
  are sizes of in-memory vectors, far below `2^64`, so no operation on them
  wraps. The index arithmetic on the result of `find_last_of`, which may be
  `std::string::npos`, is taken modulo `2^64`.
* The template parameter `T` of `std::vector<T>` is tracked by the nesting
  depth `d`: `NVec α d` is `std::vector<...std::vector<α>...>` (`d` levels)
  over a native numeric scalar type `α`, so `is_native<T>::value` is `d = 0`
  for the element type of depth `d`.
* A pointer into a vector is the pair of the storage and a position (`Ptr`);
  `std::equal` with three iterators compares the whole length of its first
  range and reads the second range past its end when that one is shorter
  (`std_equal`).
* Members of `archive_base` that are declared in the header but defined
  outside `src/` are modelled from the specification and marked as such.
* The attribute write keeps the state of the archive at a failure: its result
  is an `Outcome`, the state reached together with the exception thrown, if
  any. Stored attributes, the revision counter and the plain handles that are
  open are part of the state; calls of the container runtime are operations
  on this state and are assumed not to fail.
* The counters of the logarithmic binning are of type `size_type`; their
  arithmetic is taken modulo `2^64`. The addition of values, the division of
  a value by a counter and the value-initialised value are parameters.
-/

namespace ALPS
namespace hdf5

/-- Error kinds: `RangeError` is `std::range_error` (ALPS_HDF5_THROW_RANGE_ERROR),
`RuntimeError` is `std::runtime_error` (ALPS_HDF5_THROW_RUNTIME_ERROR); the other
two are artefacts of the embedding (undefined behaviour, fuel exhausted). -/
inductive Err where
  | RangeError
  | RuntimeError
  | OutOfBounds
  | OutOfFuel
  deriving DecidableEq, Repr

deriving instance DecidableEq for Except

/-- Values of the C++ type `std::vector< ... std::vector<α> ... >` with `d` levels of
`std::vector` over the native scalar type `α` (depth 0 is the scalar itself). -/
def NVec (α : Type) : Nat → Type
  | 0 => α
  | d + 1 => List (NVec α d)

/-- The value-initialised object `T()` of depth `d`: zero for a scalar, the empty vector
for a container. -/
def NVec.dflt {α : Type} (zero : α) : (d : Nat) → NVec α d
  | 0 => zero
  | _ + 1 => ([] : List _)

/-- Trait `is_native<T>` (lines 185-188) for the element type of depth `d`: a scalar that
is not an enum is native, a `std::vector` is not. -/
def is_native (d : Nat) : Bool := d == 0

/-- The call `v.resize(n)` of `std::vector`: keeps the first `n` elements and appends
value-initialised elements up to size `n`. -/
def resize {β : Type} (dflt : β) (n : Nat) (v : List β) : List β :=
  v.take n ++ List.replicate (n - v.length) dflt

/-- The three-iterator `std::equal(t.begin(), t.end(), u.begin())` on `std::vector<hsize_t>`:
every element of `t` is compared with the element of `u` at the same position, over the whole
length of `t`. The second range has to hold at least as many elements as the first; if `u` is
shorter than `t` the comparison reads `u` past its end (`Err.OutOfBounds`), whether or not an
earlier pair of elements already differs. -/
def std_equal : List Nat → List Nat → Except Err Bool
  | [], _ => .ok true
  | _ :: _, [] => .error Err.OutOfBounds
  | a :: t, b :: u =>
    match std_equal t u with
    | .error e => .error e
    | .ok r => .ok (decide (a = b) && r)

/-- The loop of `get_extent` (lines 386-388) over the elements `v[1], v[2], ...`:
`if (!std::equal(t.begin(), t.end(), call_get_extent(v[i]).begin())) throw range_error`. -/
def get_extent_loop {β : Type} (ext : β → Except Err (List Nat)) (t : List Nat) :
    List β → Except Err Unit
  | [] => .ok ()
  | x :: xs =>
    match ext x with
    | .error e => .error e
    | .ok u =>
      match std_equal t u with
      | .error e => .error e
      | .ok false => .error Err.RangeError
      | .ok true => get_extent_loop ext t xs

/-- Function `get_extent`: line 190 for a scalar (`std::vector<hsize_t>(1, 1)`), lines
381-391 for `std::vector<T>`. -/
def get_extent {α : Type} : (d : Nat) → NVec α d → Except Err (List Nat)
  | 0, _ => .ok [1]
  | d + 1, v =>
    let s : List Nat := [List.length (α := NVec α d) v]
    if !is_native d && List.length (α := NVec α d) v != 0 then
      match (v : List (NVec α d)) with
      | [] => .error Err.OutOfBounds
      | v0 :: rest =>
        match get_extent d v0 with
        | .error e => .error e
        | .ok t =>
          match get_extent_loop (get_extent d) t rest with
          | .error e => .error e
          | .ok _ => .ok (s ++ t)
    else .ok s

/-- The loop of `set_extent` (lines 400-401): `call_set_extent(v[i], tail of s)` for every
`i < s[0]`, that is for every element of the resized vector. -/
def set_extent_loop {β : Type} (f : β → Except Err β) : List β → Except Err (List β)
  | [] => .ok []
  | x :: xs =>
    match f x with
    | .error e => .error e
    | .ok y =>
      match set_extent_loop f xs with
      | .error e => .error e
      | .ok ys => .ok (y :: ys)

/-- Function `set_extent`: line 191 for a scalar (does nothing), lines 392-402 for
`std::vector<T>`. The new value of `v` is returned. In the test of line 394 `s[0]` is
evaluated only when `s.size() == 1`; the first unguarded read of `s[0]` is `v.resize(s[0])`
(line 398), which is `Err.OutOfBounds` for an empty `s`. -/
def set_extent {α : Type} (zero : α) : (d : Nat) → NVec α d → List Nat → Except Err (NVec α d)
  | 0, v, _ => .ok v
  | d + 1, v, s =>
    if !(s.length == 1 && s.headD 0 == 0)
        && ((is_native d && s.length != 1) || (!is_native d && decide (s.length < 2))) then
      .error Err.RangeError
    else
      match s with
      | [] => .error Err.OutOfBounds
      | s0 :: rest =>
        let v1 : List (NVec α d) := resize (NVec.dflt zero d) s0 v
        if !is_native d then
          set_extent_loop (fun x => set_extent zero d x rest) v1
        else .ok v1

/-- Function `get_offset`: line 192 for a scalar, lines 403-415 for `std::vector<T>`.
The branch for `native_type<T>` equal to `std::string` (line 406) is not taken for a
numeric scalar type. -/
def get_offset {α : Type} : (d : Nat) → NVec α d → Except Err (List Nat)
  | 0, _ => .ok [1]
  | d + 1, v =>
    if List.length (α := NVec α d) v == 0 then .ok [0]
    else if is_native d then get_extent (d + 1) v
    else
      match (v : List (NVec α d)) with
      | [] => .error Err.OutOfBounds
      | v0 :: _ =>
        match get_offset d v0 with
        | .error e => .error e
        | .ok dd => .ok ([1] ++ dd)

/-- The loop of `get_extent` for a raw buffer with a shape (lines 459-461) over the buffer
positions `i = 1, 2, ...` listed in `idx`:
`if (!std::equal(t.begin(), t.end(), call_get_extent(*(v.first + i)).begin())) throw range_error`. -/
def get_extent_pair_loop {β : Type} (ext : β → Except Err (List Nat)) (t : List Nat)
    (first : List β) : List Nat → Except Err Unit
  | [] => .ok ()
  | i :: idx =>
    match first[i]? with
    | none => .error Err.OutOfBounds
    | some x =>
      match ext x with
      | .error e => .error e
      | .ok u =>
        match std_equal t u with
        | .error e => .error e
        | .ok false => .error Err.RangeError
        | .ok true => get_extent_pair_loop ext t first idx

/-- Function `get_extent` for a raw buffer with a shape,
`std::pair<T *, std::vector<std::size_t> >` (lines 454-464): `first` is the buffer `v.first`
points to, `second` the shape `v.second`. -/
def get_extent_pair {α : Type} (d : Nat) (first : List (NVec α d)) (second : List Nat) :
    Except Err (List Nat) :=
  let s : List Nat := second
  if !is_native d && second.length != 0 then
    match first with
    | [] => .error Err.OutOfBounds
    | f0 :: _ =>
      match get_extent d f0 with
      | .error e => .error e
      | .ok t =>
        match get_extent_pair_loop (get_extent d) t first
            (List.range' 1 (second.prod - 1)) with
        | .error e => .error e
        | .ok _ => .ok (s ++ t)
  else .ok s

/-- Function `get_offset` for a raw buffer with a shape (lines 474-484); the branch for
`std::string` elements (line 475) is not taken for a numeric scalar type. -/
def get_offset_pair {α : Type} (d : Nat) (first : List (NVec α d)) (second : List Nat) :
    Except Err (List Nat) :=
  if is_native d then .ok second
  else
    match first with
    | [] => .error Err.OutOfBounds
    | f0 :: _ =>
      match get_offset d f0 with
      | .error e => .error e
      | .ok dd => .ok (List.replicate second.length 1 ++ dd)

/-- The loop of `is_vectorizable` (lines 417-420): for each element `x = v[i]`,
`if (!call_is_vectorizable(x) || call_get_extent(v[0])[0] != call_get_extent(x)[0]) return false`. -/
def is_vectorizable_loop {β : Type} (vect : β → Except Err Bool)
    (ext : β → Except Err (List Nat)) (v0 : β) : List β → Except Err Bool
  | [] => .ok true
  | x :: xs =>
    match vect x with
    | .error e => .error e
    | .ok false => .ok false
    | .ok true =>
      match ext v0, ext x with
      | .error e, _ => .error e
      | .ok _, .error e => .error e
      | .ok e0, .ok ei =>
        match e0, ei with
        | a :: _, b :: _ => if a != b then .ok false else is_vectorizable_loop vect ext v0 xs
        | _, _ => .error Err.OutOfBounds

/-- Function `is_vectorizable`: lines 193-194 for a scalar (true for a non-enum scalar),
lines 416-421 for `std::vector<T>`. -/
def is_vectorizable {α : Type} : (d : Nat) → NVec α d → Except Err Bool
  | 0, _ => .ok true
  | d + 1, v =>
    match (v : List (NVec α d)) with
    | [] => .ok true
    | v0 :: rest => is_vectorizable_loop (is_vectorizable d) (get_extent d) v0 (v0 :: rest)

/-- A pointer to an element of a contiguously stored `std::vector`: the storage and the
position pointed to. -/
structure Ptr (α : Type) where
  mem : List α
  pos : Nat

/-- Reading `n` consecutive elements through a pointer, as the container runtime does with
the pointer returned by `get_data` for a memory space of `n` elements. -/
def Ptr.read {α : Type} (p : Ptr α) (n : Nat) : Except Err (List α) :=
  if p.pos + n ≤ p.mem.length then .ok ((p.mem.drop p.pos).take n) else .error Err.OutOfBounds

/-- Function `get_data` for `std::vector<T>` (lines 422-437). For a native `T` the call
reaches the scalar `get_data` (lines 195-206), which returns `&v`, the address of the element
`v[s[0]]`; for a container `T` it recurses into `v[s[0]]` with the tail of `s`. -/
def get_data {α : Type} : (d : Nat) → NVec α (d + 1) → List Nat → Except Err (Ptr α)
  | 0, v, s =>
    match s with
    | [] => .error Err.OutOfBounds
    | s0 :: _ =>
      if s0 < List.length (α := α) v then .ok ⟨v, s0⟩ else .error Err.OutOfBounds
  | d + 1, v, s =>
    match s with
    | [] => .error Err.OutOfBounds
    | s0 :: rest =>
      match List.get? (α := NVec α (d + 1)) v s0 with
      | none => .error Err.OutOfBounds
      | some x => get_data d x rest

/-- The element type `U` of the flat buffer handed to `set_data`, as far as the dispatch of
lines 218-223 distinguishes it. -/
inductive BufferType where
  | scalar
  | complex_double
  | char_ptr
  deriving DecidableEq, Repr

/-- Function `detail::set_data_impl` with `boost::mpl::false_` (lines 208-212). The target
`v` is the element at position `pos` of the storage `mem`; `std::copy` writes `c[0]`
converted buffer elements starting at `&v + s[0]`. -/
def set_data_impl {α β : Type} (conv : β → α) (mem : List α) (pos : Nat) (u : List β)
    (s c : List Nat) : Except Err (List α) :=
  if s.length != 1 || c.length != 1 || c.headD 0 == 0 || decide (u.length < c.headD 0) then
    .error Err.RangeError
  else if pos + s.headD 0 + c.headD 0 ≤ mem.length then
    .ok (mem.take (pos + s.headD 0) ++ (u.take (c.headD 0)).map conv
      ++ mem.drop (pos + s.headD 0 + c.headD 0))
  else .error Err.OutOfBounds

/-- Generic function `set_data` (lines 217-224): the version of `set_data_impl` taken is
`true_` (RuntimeError, lines 213-215) when `U` is `std::complex<double>` or `char *`, or `T`
is an enum or not a scalar. -/
def set_data_scalar {α β : Type} (T_is_scalar T_is_enum : Bool) (U : BufferType)
    (conv : β → α) (mem : List α) (pos : Nat) (u : List β) (s c : List Nat) :
    Except Err (List α) :=
  if U == BufferType.complex_double || U == BufferType.char_ptr || T_is_enum
      || !T_is_scalar then
    .error Err.RuntimeError
  else set_data_impl conv mem pos u s c

/-- Function `set_data` for `std::vector<T>` (lines 438-445). For a native `T`:
`call_set_data(v[s[0]], u, s, c)`; otherwise `call_set_data(v[s[0]], u, tail s, tail c)`.
The new value of `v` is returned. -/
def set_data {α β : Type} (U : BufferType) (conv : β → α) :
    (d : Nat) → NVec α (d + 1) → List β → List Nat → List Nat → Except Err (NVec α (d + 1))
  | 0, v, u, s, c =>
    match s with
    | [] => .error Err.OutOfBounds
    | s0 :: _ =>
      if s0 < List.length (α := α) v then set_data_scalar true false U conv v s0 u s c
      else .error Err.OutOfBounds
  | d + 1, v, u, s, c =>
    match s, c with
    | s0 :: srest, _ :: crest =>
      match List.get? (α := NVec α (d + 1)) v s0 with
      | none => .error Err.OutOfBounds
      | some x =>
        match set_data U conv d x u srest crest with
        | .error e => .error e
        | .ok y => .ok (List.set (α := NVec α (d + 1)) v s0 y)
    | _, _ => .error Err.OutOfBounds

/-- The loop `for(;count[last] == size[last]; --last);` (lines 702, 725, 806) entered with
`last`; decrementing `last` below zero is `Err.OutOfBounds`. -/
def find_last (size count : List Nat) : Nat → Except Err Nat
  | 0 =>
    match count[0]?, size[0]? with
    | some a, some b => if a == b then .error Err.OutOfBounds else .ok 0
    | _, _ => .error Err.OutOfBounds
  | l + 1 =>
    match count[l + 1]?, size[l + 1]? with
    | some a, some b => if a == b then find_last size count l else .ok (l + 1)
    | _, _ => .error Err.OutOfBounds

/-- The loop `for (pos = last; ++start[pos] == size[pos] && pos; --pos);` (lines 717, 736,
813) entered with `pos`; returns the final `pos` and `start`. -/
def carry_loop (size : List Nat) : Nat → List Nat → Nat × List Nat
  | 0, start => (0, start.set 0 (start.getD 0 0 + 1))
  | pos + 1, start =>
    let start1 := start.set (pos + 1) (start.getD (pos + 1) 0 + 1)
    if start1.getD (pos + 1) 0 == size.getD (pos + 1) 0 then carry_loop size pos start1
    else (pos + 1, start1)

/-- The loop `for (++pos; pos <= last; ++pos) start[pos] = 0;` (lines 718-719, 737-738,
814-815): `n` iterations from position `pos`. -/
def reset_loop : Nat → Nat → List Nat → List Nat
  | 0, _, start => start
  | n + 1, pos, start => reset_loop n (pos + 1) (start.set pos 0)

/-- One advance of the multi-index `start` (lines 716-721, 735-740, 812-817). -/
def odometer_step (size : List Nat) (last : Nat) (start : List Nat) : List Nat :=
  if start.getD last 0 + 1 == size.getD last 0 && last != 0 then
    let r := carry_loop size last start
    reset_loop (last - r.1) (r.1 + 1) r.2
  else start.set last (start.getD last 0 + 1)

/-- The chunk loop `do { body; advance start; } while (start[0] < size[0]);` (lines 706-722,
727-741, 807-818) over a state threaded through the body. -/
def chunk_loop {σ : Type} (body : List Nat → σ → Except Err σ) (size : List Nat) (last : Nat) :
    Nat → List Nat → σ → Except Err σ
  | 0, _, _ => .error Err.OutOfFuel
  | fuel + 1, start, st =>
    match body start st with
    | .error e => .error e
    | .ok st1 =>
      let start1 := odometer_step size last start
      if start1.getD 0 0 < size.getD 0 0 then chunk_loop body size last fuel start1 st1
      else .ok st1

/-- The start offsets the chunk loop visits, in order: the body records `start`. -/
def visited (size : List Nat) (last fuel : Nat) (start : List Nat) : Except Err (List (List Nat)) :=
  chunk_loop (fun s acc => .ok (acc ++ [s])) size last fuel start []

/-- One transfer unit of a write followed by a read: the writer hands the container runtime
the pointer `call_get_data(data, v, start)` for `count` elements (lines 803, 811), the
reader receives these elements as `data` and calls `call_set_data(w, data, start, count)`
(lines 697, 732). -/
def transfer_step {α : Type} (d : Nat) (v : NVec α (d + 1)) (count start : List Nat)
    (w : NVec α (d + 1)) : Except Err (NVec α (d + 1)) :=
  match get_data d v start with
  | .error e => .error e
  | .ok p =>
    match p.read count.prod with
    | .error e => .error e
    | .ok chunk => set_data BufferType.scalar id d w chunk start count

/-- The dataset transfer of `archive_base::set_data` (lines 793-819) paired with
`archive_base::get_helper` / `get_helper_read` (lines 765, 686-742): `size` and `count` are
the extent and offset of the written value, the target is sized with `set_extent`, and the
transfer is one bulk step when `std::equal(count.begin(), count.end(), size.begin())`, a
chunk loop otherwise. -/
def transfer {α : Type} (zero : α) (fuel d : Nat) (v w : NVec α (d + 1)) :
    Except Err (NVec α (d + 1)) :=
  match get_extent (d + 1) v, get_offset (d + 1) v with
  | .error e, _ => .error e
  | .ok _, .error e => .error e
  | .ok size, .ok count =>
    match set_extent zero (d + 1) w size with
    | .error e => .error e
    | .ok w1 =>
      let start := List.replicate size.length 0
      match std_equal count size with
      | .error e => .error e
      | .ok true => transfer_step d v count start w1
      | .ok false =>
        match find_last size count (count.length - 1) with
        | .error e => .error e
        | .ok last => chunk_loop (transfer_step d v count) size last fuel start w1

/-! ## Auxiliary definitions for the statements and proofs -/

/-- The rectangularity violation in the words of the specification: some element, at any
nesting level, has an extent different from the extent of the first element of the same
container. -/
def ragged {α : Type} : (d : Nat) → NVec α d → Bool
  | 0, _ => false
  | d + 1, v =>
    match (v : List (NVec α d)) with
    | [] => false
    | v0 :: rest =>
      (v0 :: rest).any (fun x => decide (get_extent d x ≠ get_extent d v0) || ragged d x)

/-- Auxiliary predicate for the proofs: the shapes that `get_extent` can return at depth `d`. -/
def ExtentOf : Nat → List Nat → Prop
  | 0, e => e = [1]
  | 1, e => ∃ n, e = [n]
  | d + 2, e => e = [0] ∨ ∃ n t, e = n :: t ∧ 1 ≤ n ∧ ExtentOf (d + 1) t

/-- All multi-indices `r` with `r[j] < dims[j]`, listed in row-major order (the last axis
varies fastest). -/
def rowMajor : List Nat → List (List Nat)
  | [] => [[]]
  | n :: ns => (List.range n).flatMap (fun i => (rowMajor ns).map (fun r => i :: r))

/-- Running a loop body over a list of start offsets in order, stopping at the first error. -/
def run_chunks {σ : Type} (body : List Nat → σ → Except Err σ) : List (List Nat) → σ → Except Err σ
  | [], st => .ok st
  | s :: ss, st =>
    match body s st with
    | .error e => .error e
    | .ok st1 => run_chunks body ss st1

/-! ## Archive engine: dataset write and the `std::vector` writer -/

/-- The dataspace of a stored dataset: `H5S_SCALAR`, `H5S_NULL` or a simple dataspace with
the given dimensions. -/
inductive Space where
  | scalar
  | null
  | simple (dims : List Nat)
  deriving DecidableEq, Repr

/-- The enumeration `detail::internal_state_type::type` (line 111). -/
inductive StateMarker where
  | CREATE
  | PLACEHOLDER
  deriving DecidableEq, Repr

/-- The stored element type of an attribute, as far as `H5Tequal` tells types apart: the
native type of the numeric scalar, the signed byte a `bool` is stored as
(`native_type<bool>`, line 226), and the state marker type `state_id()`. -/
inductive TypeTag where
  | numeric
  | int8
  | state
  deriving DecidableEq, Repr

/-- The data held by a stored attribute: numeric elements in row-major order, one boolean,
or one state marker. -/
inductive Payload (α : Type) where
  | values (l : List α)
  | flag (b : Bool)
  | state (s : StateMarker)

/-- A stored attribute: its dataspace, its element type and its data. -/
structure AttrRec (α : Type) where
  space : Space
  type : TypeTag
  payload : Payload α

/-- A low-level handle (`hid_t`) that is held as a plain value, not by a guard object: a
group, a dataset, or an attribute of a node. -/
inductive Handle where
  | group (p : String)
  | data (p : String)
  | attribute (node name : String)
  deriving DecidableEq, Repr

/-- The effects an archive operation issues to the container runtime, in order. -/
inductive Event (α : Type) where
  | delete_group (p : String)
  | delete_data (p : String)
  | create_data (p : String) (space : Space)
  | write_all (p : String) (data : List α)
  | write_slab (p : String) (start count : List Nat) (data : List α)
  | write_state (p : String) (s : StateMarker)
  | set_group (p : String)
  | delete_attribute (node name : String)
  | create_attribute (node name : String) (space : Space) (type : TypeTag)
  | write_attribute (node name : String) (payload : Payload α)
  | copy_attribute (dest source name : String)

/-- Modelled from the spec: the state of an archive instance (class `archive_base`, whose
members are declared at lines 635-1011 and defined outside `src/`): the current path context,
the paths that hold a group, the paths that hold a dataset, the effects issued so far, the
revision counter of the file (`revision()`, line 992; 0 when revision tracking is off), the
stored attributes by node path and attribute name, and the plain handles currently open. -/
structure Archive (α : Type) where
  context : String
  groups : List String
  datasets : List String
  log : List (Event α)
  revision : Nat := 0
  attributes : List ((String × String) × AttrRec α) := []
  handles : List Handle := []

/-- Modelled from the spec: `archive_base::complete_path` (declared at line 652, defined
outside `src/`): a path is resolved relative to the current path context unless it is
absolute. -/
def Archive.complete_path {α : Type} (ar : Archive α) (p : String) : String :=
  if p.data.head? = some '/' then p else ar.context ++ "/" ++ p

/-- Modelled from the spec: `archive_base::is_group` (declared at line 653, defined outside
`src/`): the kind query "group" on the resolved path. -/
def Archive.is_group {α : Type} (ar : Archive α) (p : String) : Bool :=
  ar.groups.contains (ar.complete_path p)

/-- Modelled from the spec: `archive_base::is_data` (declared at line 654, defined outside
`src/`): the kind query "dataset" on the resolved path. -/
def Archive.is_data {α : Type} (ar : Archive α) (p : String) : Bool :=
  ar.datasets.contains (ar.complete_path p)

/-- Modelled from the spec: `archive_base::delete_group` (declared at line 672, defined
outside `src/`): deletion of the group at the resolved path with everything below it. -/
def Archive.delete_group {α : Type} (ar : Archive α) (p : String) : Archive α :=
  let q := ar.complete_path p
  { ar with
    groups := ar.groups.filter (fun g => !(g == q || (q ++ "/").data.isPrefixOf g.data))
    datasets := ar.datasets.filter (fun g => !(q ++ "/").data.isPrefixOf g.data)
    attributes := ar.attributes.filter
      (fun a => !(a.1.1 == q || (q ++ "/").data.isPrefixOf a.1.1.data))
    log := ar.log ++ [Event.delete_group q] }

/-- Modelled from the spec: `archive_base::delete_data` (declared at line 671, defined outside
`src/`): deletion of the dataset at the resolved path. -/
def Archive.delete_data {α : Type} (ar : Archive α) (p : String) : Archive α :=
  let q := ar.complete_path p
  { ar with
    datasets := ar.datasets.filter (fun g => !(g == q))
    attributes := ar.attributes.filter (fun a => !(a.1.1 == q))
    log := ar.log ++ [Event.delete_data q] }

/-- Modelled from the spec: `archive_base::save_comitted_data` (declared at line 682, defined
outside `src/`): creation of the dataset at path `p` with the given dataspace. -/
def Archive.save_comitted_data {α : Type} (ar : Archive α) (p : String) (space : Space) :
    Archive α :=
  { ar with
    datasets := p :: ar.datasets.filter (fun g => !(g == p))
    log := ar.log ++ [Event.create_data p space] }

/-- Recording one effect in the log of the archive. -/
def Archive.record {α : Type} (ar : Archive α) (e : Event α) : Archive α :=
  { ar with log := ar.log ++ [e] }

/-- The test `p.find_last_of('@') != std::string::npos` (lines 1043, 1105). -/
def is_attribute_path (p : String) : Bool := p.data.contains '@'

/-- The body of the chunk loop of `archive_base::set_data` (lines 808-811): the chunk at
`call_get_data(data, v, start)` of `count` elements is written to the hyperslab selected by
`start` and `count`. -/
def write_slab {α : Type} (d : Nat) (v : NVec α (d + 1)) (p : String) (count start : List Nat)
    (ar : Archive α) : Except Err (Archive α) :=
  match get_data d v start with
  | .error e => .error e
  | .ok ptr =>
    match ptr.read count.prod with
    | .error e => .error e
    | .ok chunk => .ok (ar.record (Event.write_slab p start count chunk))

/-- Function `archive_base::set_data` (lines 789-821) for a native scalar (depth 0) and for
nested vectors: a group at `p` is deleted, the extent and offset are computed, and the value
is stored with a scalar dataspace (native), a null dataspace (extent entries sum to zero), or
a simple dataspace filled by one bulk write or by the chunk loop. -/
def archive_set_data {α : Type} (fuel : Nat) (ar : Archive α) (p : String) :
    (d : Nat) → NVec α d → Except Err (Archive α)
  | 0, v =>
    let ar1 := if ar.is_group p then ar.delete_group p else ar
    .ok ((ar1.save_comitted_data p Space.scalar).record (Event.write_all p [v]))
  | d + 1, v =>
    let ar1 := if ar.is_group p then ar.delete_group p else ar
    match get_extent (d + 1) v, get_offset (d + 1) v with
    | .error e, _ => .error e
    | .ok _, .error e => .error e
    | .ok size, .ok count =>
      let start := List.replicate size.length 0
      if size.sum == 0 then .ok (ar1.save_comitted_data p Space.null)
      else
        let ar2 := ar1.save_comitted_data p (Space.simple size)
        match std_equal count size with
        | .error e => .error e
        | .ok true =>
          match get_data d v start with
          | .error e => .error e
          | .ok ptr =>
            match ptr.read size.prod with
            | .error e => .error e
            | .ok data => .ok (ar2.record (Event.write_all p data))
        | .ok false =>
          match find_last size count (count.length - 1) with
          | .error e => .error e
          | .ok last => chunk_loop (write_slab d v p count) size last fuel start ar2

/-- Function `oarchive::serialize` (lines 1042-1052) for values without complex elements: an
attribute write when `p` contains `'@'`, a dataset write otherwise, both at the completed
path. The attribute write `archive_base::set_attribute` (lines 836-929) is the parameter
`set_attribute`. -/
def oarchive_serialize {α : Type}
    (set_attribute : Archive α → String → (d : Nat) → NVec α d → Except Err (Archive α))
    (fuel : Nat) (ar : Archive α) (p : String) (d : Nat) (v : NVec α d) :
    Except Err (Archive α) :=
  if is_attribute_path p then set_attribute ar (ar.complete_path p) d v
  else archive_set_data fuel ar (ar.complete_path p) d v

/-- The loop of the vector writer (lines 1109-1110):
`call_serialize(ar, p + "/" + detail::convert<std::string>(i), v[i])` for `i = 0, 1, ...`,
entered at index `i` with the elements still to be written. -/
def serialize_loop {α β : Type} (ser : Archive α → String → β → Except Err (Archive α))
    (p : String) : Nat → List β → Archive α → Except Err (Archive α)
  | _, [], ar => .ok ar
  | i, x :: xs, ar =>
    match ser ar (p ++ "/" ++ toString i) x with
    | .error e => .error e
    | .ok ar1 => serialize_loop ser p (i + 1) xs ar1

/-- The writing `serialize` dispatch: the generic `serialize` (lines 1073-1075, through
`detail::serialize_impl` with `boost::mpl::true_`, lines 1057-1060) for a native scalar, and
the `std::vector` writer (lines 1097-1113) for a container. -/
def serialize {α : Type}
    (set_attribute : Archive α → String → (d : Nat) → NVec α d → Except Err (Archive α))
    (fuel : Nat) : (d : Nat) → Archive α → String → NVec α d → Except Err (Archive α)
  | 0, ar, p, v => oarchive_serialize set_attribute fuel ar p 0 v
  | d + 1, ar, p, v =>
    let ar1 := if ar.is_group p then ar.delete_group p else ar
    if List.length (α := NVec α d) v == 0 then
      oarchive_serialize set_attribute fuel ar1 p 1 (List.nil (α := α))
    else
      match is_vectorizable (d + 1) v with
      | .error e => .error e
      | .ok true => oarchive_serialize set_attribute fuel ar1 p (d + 1) v
      | .ok false =>
        if is_attribute_path p then .error Err.RuntimeError
        else
          let ar2 := if ar1.is_data p then ar1.delete_data p else ar1
          serialize_loop (fun a q x => serialize set_attribute fuel d a q x) p 0 v ar2

/-! ## Specification side: decomposition into child paths -/

/-- The child paths `p/0`, `p/1`, ..., `p/(n-1)` in increasing order of the index. -/
def child_paths (p : String) (n : Nat) : List String :=
  (List.range n).map (fun i => p ++ "/" ++ toString i)

/-- Writes carried out one after the other, each element at its own path; the first failure
ends the sequence. -/
def write_each {α β : Type} (ser : Archive α → String → β → Except Err (Archive α)) :
    List (String × β) → Archive α → Except Err (Archive α)
  | [], ar => .ok ar
  | (q, x) :: rest, ar =>
    match ser ar q x with
    | .error e => .error e
    | .ok ar1 => write_each ser rest ar1

/-- The path of the dataset an effect creates or transfers data to, if it does so. -/
def Event.transfer_path {α : Type} : Event α → Option String
  | .create_data p _ => some p
  | .write_all p _ => some p
  | .write_slab p _ _ _ => some p
  | _ => none

/-- The path of the dataset an effect writes data to, if it is a data write. -/
def Event.write_path {α : Type} : Event α → Option String
  | .write_all p _ => some p
  | .write_slab p _ _ _ => some p
  | _ => none

/-! ## Attribute paths: the split into parent node and attribute name -/

/-- The constant `std::string::npos`, the largest value of `std::size_t` (64 bits). -/
def npos : Nat := 2 ^ 64 - 1

/-- Scan of `std::string::find_last_of`: the characters still to be read, the index of the
next character, and the last index found so far. -/
def find_last_of_from (c : Char) : List Char → Nat → Nat → Nat
  | [], _, found => found
  | x :: xs, i, found => find_last_of_from c xs (i + 1) (if x == c then i else found)

/-- The call `s.find_last_of(c)`: the index of the last occurrence of `c` in `s`, or
`std::string::npos` if there is none. -/
def find_last_of (s : String) (c : Char) : Nat := find_last_of_from c s.data 0 npos

/-- The call `s.substr(pos, n)` for `pos <= s.size()`: the characters from index `pos` on, at
most `n` of them. Every call of the attribute write has `pos <= s.size()`, so
`std::out_of_range` is never thrown. -/
def substr (s : String) (pos n : Nat) : String := ⟨(s.data.drop pos).take n⟩

/-- The parent node of an attribute path (lines 840, 844, 848, 875):
`p.substr(0, p.find_last_of('@') - 1)`, the subtraction in `std::size_t`. -/
def attribute_parent (p : String) : String :=
  substr p 0 ((find_last_of p '@' + 2 ^ 64 - 1) % 2 ^ 64)

/-- The attribute name of an attribute path (lines 849, 853, 858, 873):
`p.substr(p.find_last_of('@') + 1)`, the addition in `std::size_t`. -/
def attribute_name (p : String) : String :=
  substr p ((find_last_of p '@' + 1) % 2 ^ 64) npos

/-! ## Archive engine: the attribute write -/

/-- The outcome of an archive operation that may throw: the state of the archive when the
operation ends, and the exception it ends with, if any. -/
structure Outcome (α : Type) where
  archive : Archive α
  error : Option Err

/-- Sequencing: the next step runs only if the previous one did not throw. -/
def Outcome.bind {α : Type} (o : Outcome α) (f : Archive α → Outcome α) : Outcome α :=
  match o.error with
  | none => f o.archive
  | some _ => o

/-- The value handed to an attribute write: a native numeric scalar or a nested vector of
them, a `bool`, or a state marker. -/
inductive AttrValue (α : Type) where
  | num (d : Nat) (v : NVec α d)
  | flag (b : Bool)
  | state (s : StateMarker)

/-- The trait `is_native<T>` for the value types of an attribute write: lines 186-189 for a
numeric scalar, lines 379 and 401 for a vector, line 227 for `bool`, line 281 for the state
marker. -/
def AttrValue.is_native {α : Type} : AttrValue α → Bool
  | .num d _ => hdf5.is_native d
  | .flag _ => true
  | .state _ => true

/-- The call `get_native_type(typename native_type<T>::type())` (lines 792, 870) with the
overloads of lines 933-961: the numeric scalars have an overload of their own; `bool` has
`native_type<bool>::type = boost::int8_t` (line 226) and takes the `signed char` overload;
for `detail::internal_state_type::type` no overload is declared, so the call binds to the
template of lines 933-935, which throws RuntimeError ("no native type passed"). -/
def get_native_type {α : Type} : AttrValue α → Except Err TypeTag
  | .num _ _ => .ok TypeTag.numeric
  | .flag _ => .ok TypeTag.int8
  | .state _ => .error Err.RuntimeError

/-- The call `call_get_extent(v)`: `get_extent` for numeric values, the generic template of
line 190 (`[1]`) for `bool` and the state marker. -/
def AttrValue.get_extent {α : Type} : AttrValue α → Except Err (List Nat)
  | .num d v => hdf5.get_extent d v
  | .flag _ => .ok [1]
  | .state _ => .ok [1]

/-- The call `call_get_offset(v)`: `get_offset` for numeric values, the generic template of
line 192 (`[1]`) for `bool` and the state marker. -/
def AttrValue.get_offset {α : Type} : AttrValue α → Except Err (List Nat)
  | .num d v => hdf5.get_offset d v
  | .flag _ => .ok [1]
  | .state _ => .ok [1]

/-- The number of elements of a dataspace: what `H5Awrite` transfers. -/
def Space.count : Space → Nat
  | .scalar => 1
  | .null => 0
  | .simple dims => dims.prod

/-- The calls `H5Aexists(node, name)` and `H5Aopen(node, name)`: the stored attribute `name`
of the node at `node`, if there is one. -/
def Archive.find_attribute {α : Type} (ar : Archive α) (node name : String) :
    Option (AttrRec α) :=
  (ar.attributes.find? (fun a => a.1 == (node, name))).map (fun a => a.2)

/-- The call `H5Adelete(node, name)`. -/
def Archive.delete_attribute {α : Type} (ar : Archive α) (node name : String) : Archive α :=
  { ar with
    attributes := ar.attributes.filter (fun a => !(a.1 == (node, name)))
    log := ar.log ++ [Event.delete_attribute node name] }

/-- The call `H5Acreate2(node, name, type, space)`: a new attribute without data. -/
def Archive.create_attribute {α : Type} (ar : Archive α) (node name : String) (space : Space)
    (type : TypeTag) : Archive α :=
  { ar with
    attributes := ((node, name), { space := space, type := type, payload := Payload.values [] })
      :: ar.attributes.filter (fun a => !(a.1 == (node, name)))
    log := ar.log ++ [Event.create_attribute node name space type] }

/-- The call `H5Awrite(id, type, buffer)` on the attribute `name` of `node`: the data of
the stored attribute is replaced, its dataspace and type stay as they are. -/
def Archive.write_attribute {α : Type} (ar : Archive α) (node name : String)
    (payload : Payload α) : Archive α :=
  { ar with
    attributes := ar.attributes.map
      (fun a => if a.1 == (node, name) then (a.1, { a.2 with payload := payload }) else a)
    log := ar.log ++ [Event.write_attribute node name payload] }

/-- Modelled from the spec: `archive_base::copy_attributes` (declared at line 681, defined
outside `src/`) for one name: the attribute `name` of the node `source`, if present, is
copied to the node `dest`. -/
def Archive.copy_attribute {α : Type} (ar : Archive α) (dest source name : String) :
    Archive α :=
  match ar.find_attribute source name with
  | none => ar
  | some r =>
    { ar with
      attributes := ((dest, name), r) :: ar.attributes.filter (fun a => !(a.1 == (dest, name)))
      log := ar.log ++ [Event.copy_attribute dest source name] }

/-- Modelled from the spec: `archive_base::set_group` (declared at line 931, defined outside
`src/`): a group is created at `p`. -/
def Archive.set_group {α : Type} (ar : Archive α) (p : String) : Archive α :=
  { ar with
    groups := if ar.groups.contains p then ar.groups else p :: ar.groups
    log := ar.log ++ [Event.set_group p] }

/-- A plain handle is opened (`H5Gopen2`, `H5Dopen2`, `H5Aopen`, `H5Acreate2`). -/
def Archive.open_handle {α : Type} (ar : Archive α) (h : Handle) : Archive α :=
  { ar with handles := h :: ar.handles }

/-- A plain handle is closed (`detail::check_group`, `detail::check_data`,
`detail::check_attribute`, or the destructor of a guard object the handle was given to). -/
def Archive.close_handle {α : Type} (ar : Archive α) (h : Handle) : Archive α :=
  { ar with handles := ar.handles.erase h }

/-- Function `archive_base::set_data` (lines 789-821) for a state marker: a group at `p` is
deleted, then the native type of the marker is asked for. -/
def set_data_state {α : Type} (ar : Archive α) (p : String) (s : StateMarker) : Outcome α :=
  let ar1 := if ar.is_group p then ar.delete_group p else ar
  match get_native_type (AttrValue.state (α := α) s) with
  | .error e => ⟨ar1, some e⟩
  | .ok _ => ⟨(ar1.save_comitted_data p Space.scalar).record (Event.write_state p s), none⟩

/-- The test of lines 878-880 on an attribute that already exists: the stored dataspace class
or the stored element type does not fit the extent `size` and the type `type_id` of the new
value. -/
def attribute_incompatible {α : Type} (size : List Nat) (type_id : TypeTag) (r : AttrRec α) :
    Bool :=
  (decide (size.length > 0) && decide (size.getD 0 0 > 0) && r.space != Space.scalar)
    || (decide (size.length > 0) && size.getD 0 0 == 0 && r.space != Space.null)
    || r.type != type_id

/-- Lines 873-887: the attribute is opened if it exists; if it does not fit the new value the
handle is closed again and the attribute is deleted. -/
def check_existing {α : Type} (ar : Archive α) (parent name : String) (size : List Nat)
    (type_id : TypeTag) : Archive α :=
  match ar.find_attribute parent name with
  | none => ar
  | some r =>
    if attribute_incompatible size type_id r then ar.delete_attribute parent name
    else ar.open_handle (Handle.attribute parent name)

/-- The step `if (id < 0) id = H5Acreate2(parent_id, name, type_id, space)` (lines 889-890,
893-894, 896-897). -/
def ensure_attribute {α : Type} (ar : Archive α) (parent name : String) (space : Space)
    (type_id : TypeTag) : Archive α :=
  if (ar.find_attribute parent name).isNone then
    (ar.create_attribute parent name space type_id).open_handle (Handle.attribute parent name)
  else ar

/-- The call `H5Awrite(id, type_id, buffer)` with a buffer of numeric elements (lines 891,
899, 921): as many elements as the stored dataspace of the attribute has are read from the
buffer. -/
def h5a_write {α : Type} (ar : Archive α) (parent name : String) (buffer : Ptr α) : Outcome α :=
  match ar.find_attribute parent name with
  | none => ⟨ar, some Err.OutOfBounds⟩
  | some r =>
    match buffer.read r.space.count with
    | .error e => ⟨ar, some e⟩
    | .ok data => ⟨ar.write_attribute parent name (Payload.values data), none⟩

/-- The linear index of lines 904-906: the sum over the positions `i` of
`start[i] * size[i+1] * ... * size[last]`, entered at position `i` with the entries of `start`
still to be read. -/
def row_offset (size : List Nat) : List Nat → Nat → Nat
  | [], _ => 0
  | s :: rest, i => s * (size.drop (i + 1)).prod + row_offset size rest (i + 1)

/-- The body of the chunk loop of the attribute write (lines 903-913): the chunk at
`call_get_data(data, v, start)` of `count` elements is copied by `set_attr_copy` (lines
823-825) into the buffer `continous` at the linear index of `start`. -/
def attr_copy_chunk {α : Type} (d : Nat) (v : NVec α (d + 1)) (size count start : List Nat)
    (continous : List α) : Except Err (List α) :=
  match get_data d v start with
  | .error e => .error e
  | .ok ptr =>
    match ptr.read count.prod with
    | .error e => .error e
    | .ok chunk =>
      let sum := row_offset size start 0
      if sum + chunk.length ≤ continous.length then
        .ok (continous.take sum ++ chunk ++ continous.drop (sum + chunk.length))
      else .error Err.OutOfBounds

/-- Lines 870-923 of `archive_base::set_attribute`: the typed write of the value to the
attribute `name` of the open node `parent`. The native type, the extent and the offset of the
value are computed; an existing attribute is checked and possibly deleted; the attribute is
created if it is not there (scalar, null or simple dataspace) and the data is written in one
`H5Awrite`, for a chunked value from the buffer `continous` assembled by the chunk loop. -/
def attribute_write {α : Type} (zero : α) (fuel : Nat) (ar : Archive α) (parent name : String)
    (v : AttrValue α) : Outcome α :=
  match get_native_type v with
  | .error e => ⟨ar, some e⟩
  | .ok type_id =>
    match v.get_extent, v.get_offset with
    | .error e, _ => ⟨ar, some e⟩
    | .ok _, .error e => ⟨ar, some e⟩
    | .ok size, .ok count =>
      let ar1 := check_existing ar parent name size type_id
      match v with
      | .flag b =>
        ⟨(ensure_attribute ar1 parent name Space.scalar type_id).write_attribute parent name
          (Payload.flag b), none⟩
      | .state s =>
        ⟨(ensure_attribute ar1 parent name Space.scalar type_id).write_attribute parent name
          (Payload.state s), none⟩
      | .num 0 x =>
        h5a_write (ensure_attribute ar1 parent name Space.scalar type_id) parent name
          ⟨List.cons (α := α) x [], 0⟩
      | .num (d + 1) w =>
        if size.sum == 0 then ⟨ensure_attribute ar1 parent name Space.null type_id, none⟩
        else
          let ar2 := ensure_attribute ar1 parent name (Space.simple size) type_id
          let start := List.replicate size.length 0
          match std_equal count size with
          | .error e => ⟨ar2, some e⟩
          | .ok true =>
            match get_data d w start with
            | .error e => ⟨ar2, some e⟩
            | .ok ptr => h5a_write ar2 parent name ptr
          | .ok false =>
            match find_last size count (count.length - 1) with
            | .error e => ⟨ar2, some e⟩
            | .ok last =>
              match chunk_loop (attr_copy_chunk d w size count) size last fuel start
                (List.replicate size.prod zero) with
              | .error e => ⟨ar2, some e⟩
              | .ok continous => h5a_write ar2 parent name ⟨continous, 0⟩

/-- Lines 839-848 of `archive_base::set_attribute`: the parent node is opened as a group or
as a dataset, RuntimeError ("unknown path") if it is neither; under revision tracking and
outside `/revisions` (`tracked`) the shadow node `rev_path` is created if it is missing, as a
group by `set_group` or as a dataset holding the placeholder marker. -/
def open_parent {α : Type} (ar : Archive α) (parent rev_path : String) (tracked : Bool) :
    Outcome α :=
  if ar.is_group parent then
    let ar1 := ar.open_handle (Handle.group parent)
    if tracked && !ar1.is_group rev_path then ⟨ar1.set_group rev_path, none⟩
    else ⟨ar1, none⟩
  else if ar.is_data parent then
    let ar1 := ar.open_handle (Handle.data parent)
    if tracked && !ar1.is_data rev_path then set_data_state ar1 rev_path StateMarker.PLACEHOLDER
    else ⟨ar1, none⟩
  else ⟨ar, some Err.RuntimeError⟩

/-- Lines 849-869 of `archive_base::set_attribute`, the self-call of line 853 being the
parameter `write_marker`: for an attribute that does not exist yet the create marker is
written to the attribute of the same name of the shadow node; for an attribute that exists
the shadow node is opened, an entry of that name whose type is the state marker type is
deleted, and if the shadow node then holds no entry of that name the attribute is copied
from the parent node to the shadow node. -/
def shadow_attribute {α : Type} (write_marker : Archive α → String → AttrValue α → Outcome α)
    (ar : Archive α) (parent name rev_path : String) (tracked : Bool) : Outcome α :=
  if tracked && (ar.find_attribute parent name).isNone then
    write_marker ar (rev_path ++ "/@" ++ name) (AttrValue.state StateMarker.CREATE)
  else if tracked then
    let data_id := if ar.is_group rev_path then Handle.group rev_path else Handle.data rev_path
    let ar2 := ar.open_handle data_id
    let ar3 :=
      match ar2.find_attribute rev_path name with
      | some r => if r.type == TypeTag.state then ar2.delete_attribute rev_path name else ar2
      | none => ar2
    let ar4 :=
      if (ar3.find_attribute rev_path name).isNone then ar3.copy_attribute rev_path parent name
      else ar3
    ⟨ar4.close_handle data_id, none⟩
  else ⟨ar, none⟩

/-- Lines 924-928 of `archive_base::set_attribute`: the parent handle is closed and the
guard object of the attribute handle is destroyed. -/
def close_parent {α : Type} (ar : Archive α) (parent name : String) : Outcome α :=
  ⟨(ar.close_handle (if ar.is_group parent then Handle.group parent
    else Handle.data parent)).close_handle (Handle.attribute parent name), none⟩

/-- Function `archive_base::set_attribute` (lines 836-929) at the completed attribute path
`p`; `depth` bounds the nesting of the self-call of line 853. The path is split into parent
node and attribute name, the parent node is opened (`open_parent`), the shadow of the
current revision is brought up to date (`shadow_attribute`), the value is written
(`attribute_write`) and the handles are closed (`close_parent`). -/
def set_attribute {α : Type} (zero : α) (fuel : Nat) :
    Nat → Archive α → String → AttrValue α → Outcome α
  | 0, ar, _, _ => ⟨ar, some Err.OutOfFuel⟩
  | depth + 1, ar, p, v =>
    let parent := attribute_parent p
    let name := attribute_name p
    let rev_path := "/revisions/" ++ toString ar.revision ++ p
    let tracked := ar.revision != 0 && substr parent 0 10 != "/revisions"
    (open_parent ar parent rev_path tracked).bind fun ar1 =>
      (shadow_attribute (fun a q x => set_attribute zero fuel depth a q x) ar1 parent name
        rev_path tracked).bind fun ar5 =>
        (attribute_write zero fuel ar5 parent name v).bind fun ar6 =>
          close_parent ar6 parent name

/-- Specification side: the dataspace that fits a value of extent `size`: scalar for a native
value, null when the extent entries sum to zero, simple with the dimensions `size` otherwise. -/
def value_space {α : Type} (v : AttrValue α) (size : List Nat) : Space :=
  if v.is_native then Space.scalar
  else if size.sum == 0 then Space.null
  else Space.simple size

/-- Specification side: attribute writes at the path `p` carried out one after the other,
each on the state the previous one has left. -/
def write_sequence {α : Type} (zero : α) (fuel depth : Nat) (p : String) :
    List (AttrValue α) → Archive α → Archive α
  | [], ar => ar
  | v :: vs, ar => write_sequence zero fuel depth p vs (set_attribute zero fuel depth ar p v).archive

/-! ## The typed `serialize` of the writing archive, the proxy, and the read validation -/

/-- The value types the trait `is_cplx` tells apart: a numeric scalar, `std::string`,
`std::complex<T>`, a container `C<T>` of the macro `ALPS_HDF5_DEFINE_VECTOR_TYPE`
(`std::vector`, `std::valarray`, `boost::numeric::ublas::vector`), and the raw buffer with
shape `std::pair<T *, std::vector<std::size_t> >`. -/
inductive CType where
  | scalar
  | string
  | complex (T : CType)
  | container (T : CType)
  | buffer (T : CType)
  deriving DecidableEq, Repr

/-- The trait `is_cplx<T>`: false in general (line 189), true for `std::complex<T>` (line
299), inherited from the element type for a container (line 380) and for a raw buffer (line
453). -/
def is_cplx : CType → Bool
  | .scalar => false
  | .string => false
  | .complex _ => true
  | .container T => is_cplx T
  | .buffer T => is_cplx T

/-- Specification side: the innermost element type of a value type, reached by going
through containers and raw buffers. -/
def innermost : CType → CType
  | .container T => innermost T
  | .buffer T => innermost T
  | T => T

/-- Specification side: a type is complex-valued if it is a complex number or a container or
raw buffer whose innermost element type is a complex number. -/
def complex_valued (T : CType) : Bool :=
  match innermost T with
  | .complex _ => true
  | _ => false

/-- Function `oarchive::serialize` (lines 1042-1052) for a value of type `T`: an attribute
write at the completed path when `p` contains `'@'`; otherwise a dataset write at the
completed path, followed, unless `ALPS_HDF5_WRITE_PYTHON_COMPATIBLE_COMPLEX` is defined
(`python_compatible`), by the write of the `bool` attribute `__complex__` with the value
`true` when `is_cplx<T>` holds. The attribute write and the dataset write of the value are
the parameters `set_attribute_value` and `set_data_value`; the write of the `bool` attribute is
`set_attribute`. -/
def oarchive_serialize_typed {α V : Type} (python_compatible : Bool) (T : CType)
    (set_attribute_value set_data_value : Archive α → String → V → Outcome α)
    (zero : α) (fuel depth : Nat) (ar : Archive α) (p : String) (v : V) : Outcome α :=
  if is_attribute_path p then set_attribute_value ar (ar.complete_path p) v
  else
    (set_data_value ar (ar.complete_path p) v).bind fun ar1 =>
      if !python_compatible && is_cplx T then
        set_attribute zero fuel depth ar1 (ar1.complete_path p ++ "/@__complex__")
          (AttrValue.flag true)
      else ⟨ar1, none⟩

/-- Modelled from the spec: `archive_base::get_context` (declared at line 650, defined
outside `src/`): the current path context. -/
def Archive.get_context {α : Type} (ar : Archive α) : String := ar.context

/-- Modelled from the spec: `archive_base::set_context` (declared at line 651, defined
outside `src/`): the current path context is replaced. -/
def Archive.set_context {α : Type} (ar : Archive α) (c : String) : Archive α :=
  { ar with context := c }

/-- Function `detail::serialize_impl` with `boost::mpl::true_` (lines 1057-1060): the call
`ar.serialize(p, v)` of the archive, the parameter `archive_serialize`. -/
def serialize_impl_native {α V : Type}
    (archive_serialize : Archive α → String → V → Outcome α)
    (ar : Archive α) (p : String) (v : V) : Outcome α :=
  archive_serialize ar p v

/-- Function `detail::serialize_impl` with `boost::mpl::false_` (lines 1061-1067): the
context is saved, set to the completed path, the method `v.serialize(ar)` of the value (the
parameter `value_serialize`) runs, and the saved context is set again. -/
def serialize_impl_composite {α V : Type} (value_serialize : V → Archive α → Outcome α)
    (ar : Archive α) (p : String) (v : V) : Outcome α :=
  let c := ar.get_context
  (value_serialize v (ar.set_context (ar.complete_path p))).bind fun ar1 =>
    ⟨ar1.set_context c, none⟩

/-- The generic function `serialize` (lines 1073-1075): the dispatch on `is_native<T>`. -/
def generic_serialize {α V : Type} (T_is_native : Bool)
    (archive_serialize : Archive α → String → V → Outcome α)
    (value_serialize : V → Archive α → Outcome α)
    (ar : Archive α) (p : String) (v : V) : Outcome α :=
  if T_is_native then serialize_impl_native archive_serialize ar p v
  else serialize_impl_composite value_serialize ar p v

/-- The errors that are C++ exceptions derived from `std::exception`: `std::range_error`
and `std::runtime_error` (lines 104-107). Undefined behaviour and an exhausted fuel are not
exceptions. -/
def Err.is_exception : Err → Bool
  | .RangeError => true
  | .RuntimeError => true
  | .OutOfBounds => false
  | .OutOfFuel => false

/-- Function `pvp::serialize` (lines 1217-1223): `call_serialize(ar, _p, _v)` inside
`try`; every `std::exception` is caught and a `std::runtime_error` with the path, the type
and the original message is thrown instead. -/
def pvp_serialize {α V : Type} (call_serialize : Archive α → String → V → Except Err (Archive α))
    (ar : Archive α) (p : String) (v : V) : Except Err (Archive α) :=
  match call_serialize ar p v with
  | .ok ar1 => .ok ar1
  | .error e => if e.is_exception then .error Err.RuntimeError else .error e

/-- What the queries of `archive_base::get_helper` answer about the object stored at a path:
`is_scalar(p)` (line 658), `is_null(p)` (line 669), `is_complex(p)` (line 668), and the
stored dimensions read by `H5Sget_simple_extent_dims` (lines 757-762). -/
structure PathInfo where
  is_scalar : Bool
  is_null : Bool
  is_complex : Bool
  dims : List Nat
  deriving DecidableEq, Repr

/-- The four ways `archive_base::get_helper` goes on after its tests. -/
inductive ReadAction where
  | conflict
  | null_scalar
  | resize_empty
  | transfer
  deriving DecidableEq, Repr

/-- The tests of `archive_base::get_helper` (lines 746-756): "scalar - vector conflict" if
`is_scalar(p) != is_native<T>::value` and, unless `ALPS_HDF5_WRITE_PYTHON_COMPATIBLE_COMPLEX`
is defined, `!is_complex(p) || !is_cplx<T>::value`; else "scalars cannot be null" if
`is_native<T>::value && is_null(p)`; else the resize to `[0]` if `is_null(p)`; else the
transfer. -/
def get_helper_action (python_compatible T_is_native T_is_cplx : Bool) (q : PathInfo) :
    ReadAction :=
  if (q.is_scalar != T_is_native) && (python_compatible || (!q.is_complex || !T_is_cplx)) then
    ReadAction.conflict
  else if T_is_native && q.is_null then ReadAction.null_scalar
  else if q.is_null then ReadAction.resize_empty
  else ReadAction.transfer

/-- Function `archive_base::get_helper` (lines 745-779) on a target `v`: RuntimeError for the
two failing tests; `call_set_extent(v, [0])` for a null object; otherwise the stored
dimensions are read, `call_set_extent(v, size)` sizes the target and the data is read into it
(lines 764-776, the parameter `read`). The parameter `set_extent` is `call_set_extent` for
the type of the target. -/
def get_helper {V : Type} (python_compatible T_is_native T_is_cplx : Bool)
    (set_extent : V → List Nat → Except Err V) (read : V → Except Err V)
    (q : PathInfo) (v : V) : Except Err V :=
  match get_helper_action python_compatible T_is_native T_is_cplx q with
  | .conflict => .error Err.RuntimeError
  | .null_scalar => .error Err.RuntimeError
  | .resize_empty => set_extent v [0]
  | .transfer =>
    match set_extent v q.dims with
    | .error e => .error e
    | .ok v1 => read v1

/-! ## Handle guards, wire representation of booleans and strings, complex numbers -/

/-- How a call ends: it returns a value, it throws, or the process is aborted. -/
inductive Exit (β : Type) where
  | returned (x : β)
  | thrown (e : Err)
  | aborted
  deriving DecidableEq, Repr

/-- The constructor `resource(hid_t id)` (lines 536-539): the guard holds `id`; RuntimeError
if `id < 0`. The result is the handle held. -/
def resource_construct (id : Int) : Except Err Int :=
  if id < 0 then .error Err.RuntimeError else .ok id

/-- The assignment `operator=(hid_t id)` (lines 549-553), `if ((_id = id) < 0) throw`: the
handle held after the assignment and the exception thrown, if any. -/
def resource_assign (_held id : Int) : Int × Option Err :=
  (id, if id < 0 then some Err.RuntimeError else none)

/-- The destructor `~resource()` (lines 540-545) with the closing function `F`: it aborts
if the handle held is negative or `F` returns a negative value. -/
def resource_destroy (F : Int → Int) (held : Int) : Bool :=
  decide (held < 0) || decide (F held < 0)

/-- The functions `check_file`, ..., `check_error` (lines 563-570):
`resource<F> unused(id); return unused;`. The value is returned through `operator hid_t`,
then the guard is destroyed. -/
def check_resource (F : Int → Int) (id : Int) : Exit Int :=
  match resource_construct id with
  | .error e => .thrown e
  | .ok held => if resource_destroy F held then .aborted else .returned held

/-- Function `check_error` (line 570): the guard type is `resource<error::noop>`, and
`error::noop` (line 528) returns 0. -/
def check_error (id : Int) : Exit Int := check_resource (fun _ => 0) id

/-- Function `get_data` for `bool` (lines 229-240): `m.resize(1); return &(m[0] = v);`. The
result points to the buffer `m`, which holds the one signed byte of `v`; the extent passed as
fourth argument is not used. -/
def get_data_bool (v : Bool) : Ptr Int := ⟨[if v then 1 else 0], 0⟩

/-- Function `get_data` for a container of `bool` (lines 422-437, `is_native<bool>` holds):
`call_get_data(m, v[s[0]], tail of s, call_get_extent(v))`. -/
def get_data_bool_vector (v : List Bool) (s : List Nat) : Except Err (Ptr Int) :=
  match s with
  | [] => .error Err.OutOfBounds
  | s0 :: _ =>
    match v[s0]? with
    | none => .error Err.OutOfBounds
    | some b => .ok (get_data_bool b)

/-- The loop of `set_data` for a `std::string` target and a numeric buffer (lines 262-263):
`for (w = &v + s[0]; w != &v + s[0] + c[0]; ++w) *w = convert<std::string>(u[s[0] + (w - &v)])`.
The target `v` is the element at position `pos` of the storage `mem`; the loop is entered
with the number of iterations left and the number `k` of iterations done, so that
`w = &v + s[0] + k`. -/
def set_data_string_loop {β : Type} (conv : β → String) (u : List β) (pos s0 : Nat) :
    Nat → Nat → List String → Except Err (List String)
  | 0, _, mem => .ok mem
  | n + 1, k, mem =>
    match u[s0 + (s0 + k)]? with
    | none => .error Err.OutOfBounds
    | some x =>
      if pos + s0 + k < mem.length then
        set_data_string_loop conv u pos s0 n (k + 1) (mem.set (pos + s0 + k) (conv x))
      else .error Err.OutOfBounds

/-- Function `set_data` for a `std::string` target and a numeric buffer (lines 257-265). -/
def set_data_string {β : Type} (conv : β → String) (mem : List String) (pos : Nat)
    (u : List β) (s c : List Nat) : Except Err (List String) :=
  if s.length != 1 || c.length != 1 || c.headD 0 == 0 || decide (u.length < c.headD 0) then
    .error Err.RangeError
  else set_data_string_loop conv u pos (s.headD 0) (c.headD 0) 0 mem

/-- Function `set_data` for `std::vector<std::string>` (lines 438-445, `is_native<std::string>`
holds): `call_set_data(v[s[0]], u, s, c)`. The new value of `v` is returned. -/
def set_data_string_vector {β : Type} (conv : β → String) (v : List String) (u : List β)
    (s c : List Nat) : Except Err (List String) :=
  match s with
  | [] => .error Err.OutOfBounds
  | s0 :: _ => if s0 < v.length then set_data_string conv v s0 u s c else .error Err.OutOfBounds

/-- Function `get_extent` for `std::complex<T>` (lines 344-348, built without
`ALPS_HDF5_WRITE_PYTHON_COMPATIBLE_COMPLEX`). -/
def get_extent_complex (T_is_native : Bool) : Except Err (List Nat) :=
  if !T_is_native then .error Err.RuntimeError else .ok [2]

/-- Function `get_offset` for `std::complex<T>` (line 337). -/
def get_offset_complex : List Nat := [2]

/-- Function `set_extent` for `std::complex<T>` (lines 338-343). -/
def set_extent_complex (T_is_native : Bool) (s : List Nat) : Except Err Unit :=
  if !T_is_native then .error Err.RuntimeError
  else if s.length != 1 then .error Err.RangeError
  else .ok ()

/-- Function `get_extent` for a container of `std::complex<T>` (lines 381-391):
`is_native<std::complex<T> >` is false (line 335), so for a non-empty container the extent of
the first element is appended and compared with that of every other element. -/
def get_extent_complex_vector {γ : Type} (T_is_native : Bool) (v : List γ) :
    Except Err (List Nat) :=
  let s : List Nat := [v.length]
  if v.length != 0 then
    match v with
    | [] => .error Err.OutOfBounds
    | _ :: rest =>
      match get_extent_complex T_is_native with
      | .error e => .error e
      | .ok t =>
        match get_extent_loop (fun _ => get_extent_complex T_is_native) t rest with
        | .error e => .error e
        | .ok _ => .ok (s ++ t)
  else .ok s

/-! ## Chunk geometry, attribute read chunks, raw buffers with a shape -/

/-- Specification side: the multi-index `idx` lies in the box of extents `size`, that is it
has one entry per axis and `idx[j] < size[j]` on every axis. -/
def in_box : List Nat → List Nat → Bool
  | [], [] => true
  | n :: ns, i :: is => decide (i < n) && in_box ns is
  | _, _ => false

/-- Specification side: the multi-index `idx` lies in the hyperslab
`[start, start + count)`, that is `start[j] <= idx[j] < start[j] + count[j]` on every axis. -/
def in_slab : List Nat → List Nat → List Nat → Bool
  | [], [], [] => true
  | s :: ss, c :: cs, i :: is => decide (s ≤ i) && decide (i < s + c) && in_slab ss cs is
  | _, _, _ => false

/-- The start offsets of the transfers of `archive_base::set_data` (lines 801-818) for the
extent `size` and the offset `count`: the single start `(0, ..., 0)` when
`std::equal(count.begin(), count.end(), size.begin())`, the starts the chunk loop visits
otherwise. -/
def chunk_starts (fuel : Nat) (size count : List Nat) : Except Err (List (List Nat)) :=
  let start := List.replicate size.length 0
  match std_equal count size with
  | .error e => .error e
  | .ok true => .ok [start]
  | .ok false =>
    match find_last size count (count.length - 1) with
    | .error e => .error e
    | .ok last => visited size last fuel start

/-- Specification side: the row-major flattening of a nested vector, the elements of the
innermost vectors one after the other. -/
def flatten {α : Type} : (d : Nat) → NVec α d → List α
  | 0, x => [x]
  | d + 1, v => List.flatMap (α := NVec α d) v (flatten d)

/-- Specification side: the row-major linear index of the multi-index `idx` in an array of
extents `size`: `idx[0] * size[1] * ... + idx[1] * size[2] * ... + ...`. -/
def linear_index : List Nat → List Nat → Nat
  | _ :: ns, i :: is => i * ns.prod + linear_index ns is
  | _, _ => 0

/-- The chunk cut of the attribute read (lines 708-715): the linear index `sum` of `start` is
computed and `std::copy(data.begin() + sum, data.begin() + sum + chunk.size(), chunk.begin())`
fills the chunk of `count[0] * count[1] * ...` elements from the flat data of the
attribute. -/
def attr_read_chunk {β : Type} (size count start : List Nat) (data : List β) :
    Except Err (List β) :=
  let sum := row_offset size start 0
  if sum + count.prod ≤ data.length then .ok ((data.drop sum).take count.prod)
  else .error Err.OutOfBounds

/-- The body of the chunk loop of the attribute read (lines 707-716): the chunk is cut out of
the flat data and handed to `call_set_data(v, chunk, start, count)`. -/
def attr_read_step {α : Type} (d : Nat) (size count : List Nat) (data : List α)
    (start : List Nat) (w : NVec α (d + 1)) : Except Err (NVec α (d + 1)) :=
  match attr_read_chunk size count start data with
  | .error e => .error e
  | .ok chunk => set_data BufferType.scalar id d w chunk start count

/-- The path suffix built by the loop of lines 1148-1151 and 1180-1183:
`path += "/" + detail::convert<std::string>(*it)` for every entry of `start`, front to
back. -/
def buffer_path (start : List Nat) : String :=
  start.foldl (fun path i => path ++ ("/" ++ toString i)) ""

/-- Specification side: the path suffix `/i_0/i_1/.../i_(k-1)` of a multi-index, one decimal
segment per dimension. -/
def index_path : List Nat → String
  | [] => ""
  | i :: r => "/" ++ toString i ++ index_path r

/-- The body of the per-element walk over a raw buffer with a shape (lines 1146-1152,
1178-1184): the path suffix and the buffer position `pos` of `start` are computed and
`call_serialize(ar, p + path, v.first[pos])` is called. -/
def pair_walk_step {σ β : Type} (ser : σ → String → β → Except Err σ) (p : String)
    (first : List β) (second start : List Nat) (st : σ) : Except Err σ :=
  match first[row_offset second start 0]? with
  | none => .error Err.OutOfBounds
  | some x => ser st (p ++ buffer_path start) x

/-- The per-element walk over a raw buffer `first` with the shape `second` (lines 1144-1159
of the reader, lines 1176-1191 of the writer): `start` begins at `(0, ..., 0)`, the body is
run, and `start` is advanced with `last = start.size() - 1` while
`start[0] < v.second[0]`. With an empty shape the read `start[last]` after the first call is
out of bounds. -/
def pair_walk {σ β : Type} (ser : σ → String → β → Except Err σ) (p : String)
    (first : List β) (second : List Nat) (fuel : Nat) (st : σ) : Except Err σ :=
  if second.length == 0 then
    match pair_walk_step ser p first second [] st with
    | .error e => .error e
    | .ok _ => .error Err.OutOfBounds
  else
    chunk_loop (pair_walk_step ser p first second) second (second.length - 1) fuel
      (List.replicate second.length 0) st

end hdf5

namespace accumulator

/-! ## Logarithmic binning (`src/ngs/alea/feature/log_bin.hpp`) -/

/-- The data members of `AccumulatorImplementation<tag::log_binning, base_type>` (lines
170-173): the stored bins, the running sum of the bin being filled, the number of values in
it, and the size of the bin being filled. Values are of type `α` (`value_type_loc`), bins of
type `μ` (`mean_type`); the members of the base classes are not part of the model. -/
structure LogBinning (α μ : Type) where
  bin_ : List μ
  partial_ : α
  pos_in_partial_ : Nat
  bin_size_now_ : Nat

/-- The constructor from an argument pack (lines 113-123): `bin_` is default-constructed,
`partial_()` and `pos_in_partial_()` are value-initialised, `bin_size_now_(1)`. The
value-initialised value `value_type_loc()` is the parameter `zero`. -/
def LogBinning.construct {α μ : Type} (zero : α) : LogBinning α μ :=
  { bin_ := [], partial_ := zero, pos_in_partial_ := 0, bin_size_now_ := 1 }

/-- Function `log_bin()` (lines 125-128): the proxy gives access to the stored bins. -/
def LogBinning.log_bin {α μ : Type} (s : LogBinning α μ) : List μ := s.bin_

/-- The operator `<<` (lines 130-147): `partial_ += val; ++pos_in_partial_;` and, when the
bin is full, `bin_.push_back(partial_ / bin_size_now_)`, the running sum and the position are
cleared and `bin_size_now_ *= 2`. The addition of values and the division of a value by a
`size_type` are the parameters `add` and `div`; the counters are of type `size_type` (64
bits). -/
def LogBinning.push {α μ : Type} (add : α → α → α) (div : α → Nat → μ) (zero : α)
    (s : LogBinning α μ) (val : α) : LogBinning α μ :=
  let sum := add s.partial_ val
  let pos := (s.pos_in_partial_ + 1) % 2 ^ 64
  if pos == s.bin_size_now_ then
    { bin_ := s.bin_ ++ [div sum s.bin_size_now_], partial_ := zero, pos_in_partial_ := 0,
      bin_size_now_ := (s.bin_size_now_ * 2) % 2 ^ 64 }
  else
    { bin_ := s.bin_, partial_ := sum, pos_in_partial_ := pos,
      bin_size_now_ := s.bin_size_now_ }

/-- Function `reset()` (lines 161-168): `bin_.clear()`, `partial_ = value_type_loc()`,
`pos_in_partial_ = 0`, `bin_size_now_ = 1`. -/
def LogBinning.reset {α μ : Type} (zero : α) (_s : LogBinning α μ) : LogBinning α μ :=
  { bin_ := [], partial_ := zero, pos_in_partial_ := 0, bin_size_now_ := 1 }

/-- Pushing the values of a list one after the other, front to back. -/
def LogBinning.push_all {α μ : Type} (add : α → α → α) (div : α → Nat → μ) (zero : α)
    (s : LogBinning α μ) (xs : List α) : LogBinning α μ :=
  xs.foldl (LogBinning.push add div zero) s

/-- Specification side: the sum of the values of a list, added front to back starting from
the value-initialised value. -/
def sum_of {α : Type} (add : α → α → α) (zero : α) (xs : List α) : α := xs.foldl add zero

/-- Specification side: the mean of the `2^j` consecutive values
`x_(2^j - 1), ..., x_(2^(j+1) - 2)` of a sequence: their sum divided by `2^j`. -/
def block_mean {α μ : Type} (add : α → α → α) (div : α → Nat → μ) (zero : α) (xs : List α)
    (j : Nat) : μ :=
  div (sum_of add zero ((xs.drop (2 ^ j - 1)).take (2 ^ j))) (2 ^ j)

end accumulator

namespace hdf5

/-! ## The proxy with the archive state kept, the reading `std::vector` dispatch -/

/-- Function `pvp::serialize` (lines 1217-1223) with the state of the archive kept at a
failure: `call_serialize(ar, _p, _v)` inside `try`; every `std::exception` is caught and a
`std::runtime_error` is thrown instead, the archive being left as it is. -/
def pvp_serialize_state {α V : Type} (call_serialize : Archive α → String → V → Outcome α)
    (ar : Archive α) (p : String) (v : V) : Outcome α :=
  match (call_serialize ar p v).error with
  | none => call_serialize ar p v
  | some e =>
    ⟨(call_serialize ar p v).archive,
      some (if e.is_exception then Err.RuntimeError else e)⟩

/-- Specification side: every index that `get_data` applies for the start offset `s` is
smaller than the size of the vector it is applied to, at every nesting level: `s[0]` in `v`,
`s[1]` in `v[s[0]]`, and so on down to the innermost vector. -/
def index_safe {α : Type} : (d : Nat) → NVec α (d + 1) → List Nat → Bool
  | 0, v, s =>
    match s with
    | [] => false
    | s0 :: _ => decide (s0 < List.length (α := α) v)
  | d + 1, v, s =>
    match s with
    | [] => false
    | s0 :: rest =>
      match List.get? (α := NVec α (d + 1)) v s0 with
      | none => false
      | some x => index_safe d x rest

/-- Errors of the reading `std::vector` dispatch: `boost::bad_lexical_cast` from the
conversion of a child name, or an error of the archive or of the embedding. -/
inductive ReadErr where
  | bad_lexical_cast
  | inner (e : Err)
  deriving DecidableEq, Repr

/-- Modelled from the spec: `detail::convert<std::size_t>(std::string)` (lines 165-167,
`boost::lexical_cast<std::size_t>(arg)`, Boost being outside `src/`): a non-empty text of
decimal digits that denotes a number below `2^64` is converted to that number; texts with a
sign or with other characters are not part of the model and count as rejected. -/
def convert_size_t (s : String) : Option Nat :=
  if s.data ≠ [] ∧ s.data.all Char.isDigit = true then
    let n := s.data.foldl (fun n c => n * 10 + (c.toNat - '0'.toNat)) 0
    if n < 2 ^ 64 then some n else none
  else none

/-- The loop of the reading `serialize` for `std::vector` (lines 1091-1092) over the child
names: `call_serialize(ar, p + "/" + *it, v[detail::convert<std::size_t>(*it)])`, the read of
one element being the parameter `rd`. -/
def read_children {β : Type} (rd : String → β → Except ReadErr β) (p : String) :
    List String → List β → Except ReadErr (List β)
  | [], v => .ok v
  | c :: cs, v =>
    match convert_size_t c with
    | none => .error ReadErr.bad_lexical_cast
    | some i =>
      match v[i]? with
      | none => .error (ReadErr.inner Err.OutOfBounds)
      | some x =>
        match rd (p ++ "/" ++ c) x with
        | .error e => .error e
        | .ok y => read_children rd p cs (v.set i y)

/-- The reading `serialize` for `std::vector` (lines 1087-1096): for a group at `p`
(`ar.is_group(p)`, the parameter `is_group`) the target is resized to the number of children
(`ar.list_children(p)`, the parameter `children`) and every child is read into the element
its name denotes; otherwise `ar.serialize(p, v)` (the parameter `read_data`) reads the
dataset. -/
def iarchive_serialize_vector {β : Type} (dflt : β) (is_group : Bool) (children : List String)
    (rd : String → β → Except ReadErr β) (read_data : List β → Except ReadErr (List β))
    (p : String) (v : List β) : Except ReadErr (List β) :=
  if is_group then read_children rd p children (resize dflt children.length v)
  else read_data v

/-! ## Theorems: shapes and rectangularity -/

variable {α : Type}

theorem get_extent_zero (x : NVec α 0) : get_extent 0 x = .ok [1] := rfl

theorem get_extent_one (v : NVec α 1) :
    get_extent 1 v = .ok [List.length (α := α) v] := by
  simp [get_extent, is_native]

theorem get_extent_nil (d : Nat) :
    get_extent (α := α) (d + 1) (List.nil (α := NVec α d)) = .ok [0] := by
  simp [get_extent]

theorem get_extent_cons (d : Nat) (v0 : NVec α (d + 1)) (rest : List (NVec α (d + 1))) :
    get_extent (d + 1 + 1) (List.cons (α := NVec α (d + 1)) v0 rest) =
      match get_extent (d + 1) v0 with
      | .error e => .error e
      | .ok t =>
        match get_extent_loop (get_extent (d + 1)) t rest with
        | .error e => .error e
        | .ok _ => .ok ((rest.length + 1) :: t) := by
  simp [get_extent, is_native]

theorem std_equal_self (t : List Nat) : std_equal t t = .ok true := by
  induction t with
  | nil => rfl
  | cons a t ih => simp [std_equal, ih]

theorem std_equal_eq : ∀ (t u : List Nat), std_equal t u =
    if u.length < t.length then .error Err.OutOfBounds
    else .ok (decide (t = u.take t.length))
  | [], u => by simp [std_equal]
  | a :: t, [] => by simp [std_equal]
  | a :: t, b :: u => by
    simp only [std_equal, std_equal_eq t u, List.length_cons, List.take_succ_cons]
    by_cases h : u.length < t.length
    · have h2 : u.length + 1 < t.length + 1 := by omega
      simp [h, h2]
    · have h2 : ¬ (u.length + 1 < t.length + 1) := by omega
      simp only [h, h2, if_false, List.cons.injEq, Bool.decide_and]

theorem extentOf_take_eq : ∀ (d : Nat) (t u : List Nat), ExtentOf d t → ExtentOf d u →
    (t = u.take t.length ↔ t = u)
  | 0, t, u, ht, hu => by
    simp only [ExtentOf] at ht hu
    subst ht hu
    simp
  | 1, t, u, ht, hu => by
    obtain ⟨n, rfl⟩ := ht
    obtain ⟨m, rfl⟩ := hu
    simp
  | d + 2, t, u, ht, hu => by
    rcases ht with rfl | ⟨n, t1, rfl, hn, ht1⟩ <;> rcases hu with rfl | ⟨m, u1, rfl, hm, hu1⟩
    · simp
    · have h1 : ¬ (0 = m) := by omega
      simp [h1]
    · have h1 : ¬ (n = 0) := by omega
      simp [h1]
    · have ih := extentOf_take_eq (d + 1) t1 u1 ht1 hu1
      simp only [List.length_cons, List.take_succ_cons, List.cons.injEq, ih]

theorem std_equal_of_extentOf (d : Nat) (t u : List Nat) (ht : ExtentOf d t)
    (hu : ExtentOf d u) :
    std_equal t u =
      if u.length < t.length then .error Err.OutOfBounds else .ok (decide (t = u)) := by
  rw [std_equal_eq]
  by_cases h : u.length < t.length
  · simp [h]
  · simp only [h, if_false]
    congr 1
    exact decide_eq_decide.2 (extentOf_take_eq d t u ht hu)

theorem get_extent_loop_spec {β : Type} (ext : β → Except Err (List Nat)) (d : Nat) (t : List Nat)
    (ht : ExtentOf d t)
    (hext : ∀ x, (∃ e, ext x = .ok e ∧ ExtentOf d e) ∨
      ∃ err, ext x = .error err ∧ (err = Err.RangeError ∨ err = Err.OutOfBounds)) :
    ∀ xs : List β,
      ((∀ x ∈ xs, ext x = .ok t) ∧ get_extent_loop ext t xs = .ok ()) ∨
      ((∃ x ∈ xs, ext x ≠ .ok t) ∧
        ∃ err, get_extent_loop ext t xs = .error err ∧
          (err = Err.RangeError ∨ err = Err.OutOfBounds))
  | [] => by simp [get_extent_loop]
  | x :: xs => by
    rcases hext x with ⟨e, hx, he⟩ | ⟨err, hx, herr⟩
    · by_cases hte : t = e
      · subst hte
        rcases get_extent_loop_spec ext d t ht hext xs with ⟨h1, h2⟩ | ⟨h1, err, h2, herr⟩
        · left
          simp [get_extent_loop, hx, std_equal_self, h1, h2]
          exact h1
        · right
          obtain ⟨y, hy, hne⟩ := h1
          refine ⟨⟨y, List.mem_cons_of_mem _ hy, hne⟩, err, ?_, herr⟩
          simp [get_extent_loop, hx, std_equal_self, h2]
      · right
        refine ⟨⟨x, List.mem_cons_self _ _, ?_⟩, ?_⟩
        · rw [hx]; intro h; injection h with h; exact hte h.symm
        · by_cases hlen : e.length < t.length
          · exact ⟨Err.OutOfBounds, by
              simp [get_extent_loop, hx, std_equal_of_extentOf d t e ht he, hlen], Or.inr rfl⟩
          · exact ⟨Err.RangeError, by
              simp [get_extent_loop, hx, std_equal_of_extentOf d t e ht he, hlen, hte],
              Or.inl rfl⟩
    · right
      refine ⟨⟨x, List.mem_cons_self _ _, ?_⟩, err, ?_, herr⟩
      · rw [hx]; intro h; cases h
      · simp [get_extent_loop, hx]

theorem get_extent_cases : ∀ (d : Nat) (v : NVec α d),
    (∃ e, get_extent d v = .ok e ∧ ExtentOf d e) ∨
      ∃ err, get_extent d v = .error err ∧ (err = Err.RangeError ∨ err = Err.OutOfBounds)
  | 0, v => Or.inl ⟨[1], rfl, rfl⟩
  | 1, v => Or.inl ⟨_, get_extent_one v, ⟨_, rfl⟩⟩
  | d + 2, v => by
    match v with
    | [] => exact Or.inl ⟨[0], get_extent_nil (d + 1), Or.inl rfl⟩
    | v0 :: rest =>
      rw [get_extent_cons]
      rcases get_extent_cases (d + 1) v0 with ⟨t, h0, ht⟩ | ⟨err, h0, herr⟩
      · rcases get_extent_loop_spec (get_extent (d + 1)) (d + 1) t ht
          (get_extent_cases (d + 1)) rest with ⟨_, h2⟩ | ⟨_, err, h2, herr⟩
        · left
          exact ⟨(rest.length + 1) :: t, by simp [h0, h2],
            Or.inr ⟨rest.length + 1, t, rfl, by omega, ht⟩⟩
        · right
          exact ⟨err, by simp [h0, h2], herr⟩
      · right
        exact ⟨err, by simp [h0], herr⟩

theorem get_extent_ok_extentOf (d : Nat) (v : NVec α d) (e : List Nat)
    (h : get_extent d v = .ok e) : ExtentOf d e := by
  rcases get_extent_cases d v with ⟨e1, he, hw⟩ | ⟨err, he, _⟩
  · rw [he] at h; injection h with h; subst h; exact hw
  · rw [he] at h; cases h

theorem get_extent_of_all (d : Nat) (v : List (NVec α (d + 1))) (e : List Nat) (hv : v ≠ [])
    (hall : ∀ x ∈ v, get_extent (d + 1) x = .ok e) :
    get_extent (α := α) (d + 1 + 1) v = .ok (v.length :: e) := by
  match v, hv with
  | v0 :: rest, _ =>
    have h0 := hall v0 (List.mem_cons_self _ _)
    have ht : ExtentOf (d + 1) e := get_extent_ok_extentOf (d + 1) v0 e h0
    rw [get_extent_cons, h0]
    rcases get_extent_loop_spec (get_extent (d + 1)) (d + 1) e ht
      (get_extent_cases (d + 1)) rest with ⟨_, h2⟩ | ⟨⟨x, hx, hne⟩, _⟩
    · simp [h2]
    · exact absurd (hall x (List.mem_cons_of_mem _ hx)) hne

theorem ragged_cons (d : Nat) (v0 : NVec α d) (rest : List (NVec α d)) :
    ragged (d + 1) (List.cons (α := NVec α d) v0 rest) =
      (v0 :: rest).any (fun x => decide (get_extent d x ≠ get_extent d v0) || ragged d x) := rfl

theorem ragged_iff : ∀ (d : Nat) (v : NVec α d),
    ragged d v = true ↔ ∃ err, get_extent d v = .error err
  | 0, v => by simp [ragged, get_extent]
  | 1, v => by
    rw [get_extent_one]
    match v with
    | [] => simp [ragged]
    | v0 :: rest => simp [ragged, get_extent]
  | d + 2, v => by
    match v with
    | [] => simp [ragged, get_extent_nil]
    | v0 :: rest =>
      have ih := ragged_iff (d + 1)
      rw [get_extent_cons, ragged_cons]
      simp only [List.any_eq_true, Bool.or_eq_true, decide_eq_true_eq, ih]
      rcases get_extent_cases (d + 1) v0 with ⟨t, h0, ht⟩ | ⟨err0, h0, _⟩
      · rcases get_extent_loop_spec (get_extent (d + 1)) (d + 1) t ht
          (get_extent_cases (d + 1)) rest with ⟨h1, h2⟩ | ⟨⟨x, hx, hne⟩, err, h2, _⟩
        · simp only [h0, h2]
          constructor
          · rintro ⟨x, hx, hx1⟩
            have hxt : get_extent (d + 1) x = .ok t := by
              rcases List.mem_cons.1 hx with rfl | hx
              · exact h0
              · exact h1 x hx
            rw [hxt] at hx1
            rcases hx1 with hx1 | ⟨_, hx1⟩
            · exact absurd rfl hx1
            · cases hx1
          · rintro ⟨_, h⟩; cases h
        · simp only [h0, h2]
          exact ⟨fun _ => ⟨err, rfl⟩, fun _ => ⟨x, List.mem_cons_of_mem _ hx, Or.inl hne⟩⟩
      · simp only [h0]
        exact ⟨fun _ => ⟨err0, rfl⟩, fun _ => ⟨v0, List.mem_cons_self _ _, Or.inr ⟨err0, h0⟩⟩⟩

theorem get_extent_error_kind (d : Nat) (v : NVec α d) (err : Err)
    (h : get_extent d v = .error err) : err = Err.RangeError ∨ err = Err.OutOfBounds := by
  rcases get_extent_cases d v with ⟨e, he, _⟩ | ⟨err1, he, hk⟩
  · rw [he] at h; cases h
  · rw [he] at h; injection h with h; subst h; exact hk

/-- C3 (the code departs from the claim). The first element `{{7, 7}}` of the vector
`{{{7, 7}}, {}}` has the extent `[1, 2]`, the second element `{}` has the extent `[0]`. The
comparison `std::equal(t.begin(), t.end(), u.begin())` of the two runs over the whole length
of `[1, 2]` and reads the extent `[0]` past its end, so `get_extent` of the vector ends in an
out-of-bounds read and not in RangeError. With the elements in the other order the shorter
extent comes first and `get_extent` fails with RangeError. -/
theorem get_extent_reads_past_shorter_extent :
    get_extent 2 ([[7, 7]] : List (List Int)) = .ok [1, 2] ∧
    get_extent 2 ([] : List (List Int)) = .ok [0] ∧
    std_equal [1, 2] [0] = .error Err.OutOfBounds ∧
    ragged 3 ([[[7, 7]], []] : List (List (List Int))) = true ∧
    get_extent 3 ([[[7, 7]], []] : List (List (List Int))) = .error Err.OutOfBounds ∧
    get_extent 3 ([[], [[7, 7]]] : List (List (List Int))) = .error Err.RangeError := by
  refine ⟨rfl, rfl, rfl, by decide, rfl, rfl⟩
/-! ## Theorems: the shape returned by `get_extent` -/

theorem get_extent_ne_nil (d : Nat) (v : NVec α d) (e : List Nat)
    (h : get_extent d v = .ok e) : e ≠ [] := by
  have hw := get_extent_ok_extentOf d v e h
  match d, hw with
  | 0, hw => simp only [ExtentOf] at hw; simp [hw]
  | 1, hw => obtain ⟨n, rfl⟩ := hw; simp
  | d + 2, hw => rcases hw with rfl | ⟨n, t, rfl, _, _⟩ <;> simp

/-- C2 (as stated, refuted). A `std::vector` of three native scalars: every element has
extent `[1]`, yet the extent of the container is `[3]`, not `[3, 1]`. -/
theorem get_extent_native_elements_counterexample :
    get_extent (α := Int) 0 (7 : Int) = .ok [1] ∧
    get_extent (α := Int) 1 ([7, 7, 7] : List Int) = .ok [3] ∧
    get_extent (α := Int) 1 ([7, 7, 7] : List Int) ≠ .ok ([3] ++ [1]) := by
  refine ⟨rfl, rfl, ?_⟩
  rw [get_extent_one]
  decide

/-- C2 (amended). `get_extent` returns `[1]` for every scalar, `[n]` for a container of `n`
native scalars, `[0]` for an empty container, and `[n]` followed by `e` for a non-empty
container of `n` containers whose elements all have the extent `e`. -/
theorem get_extent_shape (d : Nat) :
    (∀ x : NVec α 0, get_extent 0 x = .ok [1]) ∧
    (∀ v : NVec α 1, get_extent 1 v = .ok [List.length (α := α) v]) ∧
    get_extent (α := α) (d + 1) (List.nil (α := NVec α d)) = .ok [0] ∧
    (∀ (v : List (NVec α (d + 1))) (e : List Nat), v ≠ [] →
      (∀ x ∈ v, get_extent (d + 1) x = .ok e) →
      get_extent (α := α) (d + 1 + 1) v = .ok (v.length :: e)) := by
  refine ⟨fun _ => rfl, get_extent_one, get_extent_nil d, ?_⟩
  intro v e hv hall
  exact get_extent_of_all d v e hv hall

/-- Instance of `get_extent_shape` at a concrete input. -/
theorem get_extent_shape_witness :
    get_extent (α := Int) 2 ([[1, 2], [3, 4], [5, 6]] : List (List Int)) = .ok [3, 2] :=
  (get_extent_shape (α := Int) 0).2.2.2 ([[1, 2], [3, 4], [5, 6]] : List (List Int)) [2]
    (by simp) (by intro x hx; simp at hx; rcases hx with rfl | rfl | rfl <;> rfl)

/-! ## Theorems: `set_extent` -/

theorem length_resize {β : Type} (dflt : β) (n : Nat) (v : List β) :
    (resize dflt n v).length = n := by
  simp only [resize, List.length_append, List.length_take, List.length_replicate]
  omega

theorem set_extent_loop_ok {β : Type} (f : β → Except Err β) :
    ∀ (xs ys : List β), set_extent_loop f xs = .ok ys →
      ys.length = xs.length ∧ ∀ y ∈ ys, ∃ x ∈ xs, f x = .ok y
  | [], ys, h => by
    simp only [set_extent_loop] at h
    injection h with h
    subst h
    simp
  | x :: xs, ys, h => by
    simp only [set_extent_loop] at h
    cases hx : f x with
    | error e => rw [hx] at h; cases h
    | ok y =>
      rw [hx] at h
      cases hl : set_extent_loop f xs with
      | error e => rw [hl] at h; cases h
      | ok ys' =>
        rw [hl] at h
        injection h with h
        subst h
        obtain ⟨h1, h2⟩ := set_extent_loop_ok f xs ys' hl
        refine ⟨by simp [h1], ?_⟩
        intro z hz
        rcases List.mem_cons.1 hz with rfl | hz
        · exact ⟨x, List.mem_cons_self _ _, hx⟩
        · obtain ⟨x', hx', hfx⟩ := h2 z hz
          exact ⟨x', List.mem_cons_of_mem _ hx', hfx⟩

theorem set_extent_loop_total {β : Type} (f : β → Except Err β) :
    ∀ (xs : List β), (∀ x ∈ xs, ∃ y, f x = .ok y) → ∃ ys, set_extent_loop f xs = .ok ys
  | [], _ => ⟨[], rfl⟩
  | x :: xs, h => by
    obtain ⟨y, hy⟩ := h x (List.mem_cons_self _ _)
    obtain ⟨ys, hys⟩ := set_extent_loop_total f xs (fun z hz => h z (List.mem_cons_of_mem _ hz))
    exact ⟨y :: ys, by simp [set_extent_loop, hy, hys]⟩

theorem set_extent_loop_error {β : Type} (f : β → Except Err β) (e : Err) (x : β) (xs : List β)
    (h : f x = .error e) : set_extent_loop f (x :: xs) = .error e := by
  simp [set_extent_loop, h]

theorem set_extent_one (zero : α) (v : NVec α 1) (s : List Nat) :
    set_extent zero 1 v s =
      if s.length = 1 then .ok (resize (β := α) zero (s.headD 0) v) else .error Err.RangeError := by
  match s with
  | [] => simp [set_extent, is_native]
  | [a] => simp [set_extent, is_native, NVec.dflt]
  | a :: b :: r => simp [set_extent, is_native]

theorem set_extent_succ_nil (zero : α) (d : Nat) (v : NVec α (d + 1 + 1)) :
    set_extent zero (d + 1 + 1) v [] = .error Err.RangeError := by
  simp [set_extent, is_native]

theorem set_extent_succ_single (zero : α) (d : Nat) (v : NVec α (d + 1 + 1)) (a : Nat) :
    set_extent zero (d + 1 + 1) v [a] =
      if a = 0 then .ok (List.nil (α := NVec α (d + 1))) else .error Err.RangeError := by
  by_cases h : a = 0
  · subst h
    simp [set_extent, is_native, resize, set_extent_loop]
  · simp [set_extent, is_native, h]

theorem set_extent_succ_cons (zero : α) (d : Nat) (v : NVec α (d + 1 + 1)) (a b : Nat)
    (r : List Nat) :
    set_extent zero (d + 1 + 1) v (a :: b :: r) =
      set_extent_loop (fun x => set_extent zero (d + 1) x (b :: r))
        (resize (NVec.dflt zero (d + 1)) a v) := by
  simp [set_extent, is_native]

theorem get_extent_set_extent_aux (zero : α) : ∀ (d : Nat) (v v' : NVec α (d + 1)) (s : List Nat),
    set_extent zero (d + 1) v s = .ok v' → (∀ x ∈ s.dropLast, 1 ≤ x) →
    get_extent (d + 1) v' = .ok s
  | 0, v, v', s, h, _ => by
    rw [set_extent_one] at h
    match s, h with
    | [a], h =>
      simp only [List.length_singleton, if_true, List.headD_cons] at h
      injection h with h
      subst h
      rw [get_extent_one, length_resize]
  | d + 1, v, v', s, h, hs => by
    match s, h, hs with
    | [], h, _ => rw [set_extent_succ_nil] at h; cases h
    | [a], h, _ =>
      rw [set_extent_succ_single] at h
      by_cases ha : a = 0
      · subst ha
        simp only [if_true] at h
        injection h with h
        subst h
        exact get_extent_nil (d + 1)
      · simp only [ha, if_false] at h; cases h
    | a :: b :: r, h, hs =>
      rw [set_extent_succ_cons] at h
      obtain ⟨hlen, hall⟩ := set_extent_loop_ok _ _ _ h
      rw [length_resize] at hlen
      have ha : 1 ≤ a := hs a (by simp [List.dropLast])
      have hr : ∀ x ∈ (b :: r).dropLast, 1 ≤ x := by
        intro x hx
        exact hs x (by simp only [List.dropLast_cons₂]; exact List.mem_cons_of_mem _ hx)
      have hv' : (v' : List (NVec α (d + 1))) ≠ [] := by
        intro hnil
        rw [hnil] at hlen
        simp at hlen
        omega
      have := get_extent_of_all d v' (b :: r) hv' (by
        intro y hy
        obtain ⟨x, _, hx⟩ := hall y hy
        exact get_extent_set_extent_aux zero d x y (b :: r) hx hr)
      rw [this, hlen]

/-- C5 (as stated, refuted). For `std::vector<std::vector<T>>` the shape `[0, 3]` is accepted
by `set_extent`, and the extent afterwards is `[0]`. -/
theorem set_extent_get_extent_counterexample :
    set_extent (α := Int) 0 2 ([[1]] : List (List Int)) [0, 3] = .ok ([] : List (List Int)) ∧
    get_extent (α := Int) 2 ([] : List (List Int)) = .ok [0] ∧
    get_extent (α := Int) 2 ([] : List (List Int)) ≠ .ok [0, 3] := by
  refine ⟨rfl, rfl, ?_⟩
  rw [show get_extent (α := Int) 2 ([] : List (List Int)) = .ok [0] from rfl]
  decide

/-- C5 (amended). If `set_extent(v, s)` returns without error and no entry of `s` other than
the last one is zero, then `get_extent(v) = s` afterwards. -/
theorem set_extent_get_extent (zero : α) (d : Nat) (v v' : NVec α (d + 1)) (s : List Nat)
    (h : set_extent zero (d + 1) v s = .ok v') (hs : ∀ x ∈ s.dropLast, 1 ≤ x) :
    get_extent (d + 1) v' = .ok s :=
  get_extent_set_extent_aux zero d v v' s h hs

/-- Instance of `set_extent_get_extent` at a concrete input. -/
theorem set_extent_get_extent_witness :
    get_extent (α := Int) 2 ([[1, 2, 0], [3, 0, 0]] : List (List Int)) = .ok [2, 3] :=
  set_extent_get_extent (0 : Int) 1 ([[1, 2], [3], [4]] : List (List Int))
    ([[1, 2, 0], [3, 0, 0]] : List (List Int)) [2, 3] rfl (by decide)

theorem set_extent_dims_aux (zero : α) : ∀ (d : Nat) (v : NVec α (d + 1)) (s : List Nat),
    (∀ x ∈ s, 1 ≤ x) →
    (s.length = d + 1 → ∃ v', set_extent zero (d + 1) v s = .ok v') ∧
    (s.length ≠ d + 1 → set_extent zero (d + 1) v s = .error Err.RangeError)
  | 0, v, s, _ => by
    rw [set_extent_one]
    constructor
    · intro h; exact ⟨resize (β := α) zero (s.headD 0) v, by simp [h]⟩
    · intro h; simp at h; simp [h]
  | d + 1, v, s, hs => by
    match s, hs with
    | [], _ => simp [set_extent_succ_nil]
    | [a], hs =>
      have ha : a ≠ 0 := by
        have := hs a (by simp)
        omega
      simp [set_extent_succ_single, ha]
    | a :: b :: r, hs =>
      rw [set_extent_succ_cons]
      have hr : ∀ x ∈ b :: r, 1 ≤ x := fun x hx => hs x (List.mem_cons_of_mem _ hx)
      have ha : 1 ≤ a := hs a (List.mem_cons_self _ _)
      constructor
      · intro hlen
        have hlen' : (b :: r).length = d + 1 := by simpa using hlen
        exact set_extent_loop_total _ _ (fun x _ =>
          (set_extent_dims_aux zero d x (b :: r) hr).1 hlen')
      · intro hlen
        have hlen' : (b :: r).length ≠ d + 1 := by simpa using hlen
        cases hres : resize (NVec.dflt zero (d + 1)) a v with
        | nil =>
          have := length_resize (NVec.dflt zero (d + 1)) a v
          rw [hres] at this
          simp at this
          omega
        | cons x xs =>
          exact set_extent_loop_error _ _ x xs
            ((set_extent_dims_aux zero d x (b :: r) hr).2 hlen')

/-- C6 (as stated, refuted). For `std::vector<std::vector<T>>` (depth 2) the shape `[0, 3, 4]`
has three dimensions and is not `[0]`, yet `set_extent` accepts it. -/
theorem set_extent_dimension_counterexample :
    set_extent (α := Int) 0 2 ([[1]] : List (List Int)) [0, 3, 4] =
      .ok ([] : List (List Int)) := rfl

/-- C6 (amended). For a nested `std::vector` of depth `d + 1`, `set_extent(v, s)` rejects an
empty `s` with RangeError (before `s[0]` is read), accepts the empty-object shape `[0]`, and
for a shape `s` without a zero entry fails with RangeError exactly when the number of
dimensions of `s` differs from the depth, and succeeds otherwise. -/
theorem set_extent_dimension_check (zero : α) (d : Nat) (v : NVec α (d + 1)) (s : List Nat) :
    set_extent zero (d + 1) v [] = .error Err.RangeError ∧
    (∃ v', set_extent zero (d + 1) v [0] = .ok v') ∧
    ((∀ x ∈ s, 1 ≤ x) →
      (set_extent zero (d + 1) v s = .error Err.RangeError ↔ s.length ≠ d + 1) ∧
      (s.length = d + 1 → ∃ v', set_extent zero (d + 1) v s = .ok v')) := by
  refine ⟨?_, ?_, ?_⟩
  · cases d with
    | zero => simp [set_extent_one]
    | succ d => exact set_extent_succ_nil zero d v
  · cases d with
    | zero => exact ⟨resize (β := α) zero 0 v, by simp [set_extent_one]⟩
    | succ d => exact ⟨List.nil (α := NVec α (d + 1)), by simp [set_extent_succ_single]⟩
  · intro hs
    obtain ⟨h1, h2⟩ := set_extent_dims_aux zero d v s hs
    refine ⟨⟨?_, h2⟩, h1⟩
    intro herr hlen
    obtain ⟨v', hv'⟩ := h1 hlen
    rw [hv'] at herr
    cases herr

/-- Instance of `set_extent_dimension_check` at a concrete input. -/
theorem set_extent_dimension_check_witness :
    (set_extent (α := Int) 0 2 ([] : List (List Int)) [2, 3, 4] = .error Err.RangeError ↔
      [2, 3, 4].length ≠ 1 + 1) ∧
    ([2, 3, 4].length = 1 + 1 →
      ∃ v', set_extent (α := Int) 0 2 ([] : List (List Int)) [2, 3, 4] = .ok v') :=
  (set_extent_dimension_check (0 : Int) 1 ([] : List (List Int)) [2, 3, 4]).2.2 (by decide)

/-! ## Theorems: `get_offset` -/

theorem get_offset_one (v : NVec α 1) :
    get_offset 1 v = .ok [List.length (α := α) v] := by
  match v with
  | [] => simp [get_offset]
  | a :: r => simp [get_offset, is_native, get_extent]

theorem get_offset_nil (d : Nat) :
    get_offset (α := α) (d + 1) (List.nil (α := NVec α d)) = .ok [0] := by
  simp [get_offset]

theorem get_offset_cons (d : Nat) (v0 : NVec α (d + 1)) (rest : List (NVec α (d + 1))) :
    get_offset (d + 1 + 1) (List.cons (α := NVec α (d + 1)) v0 rest) =
      match get_offset (d + 1) v0 with
      | .error e => .error e
      | .ok dd => .ok (1 :: dd) := by
  simp [get_offset, is_native]

theorem get_extent_cons_ok (d : Nat) (v0 : NVec α (d + 1)) (rest : List (NVec α (d + 1)))
    (e : List Nat) (h : get_extent (d + 1 + 1) (List.cons (α := NVec α (d + 1)) v0 rest) = .ok e) :
    ∃ t, get_extent (d + 1) v0 = .ok t ∧ (∀ x ∈ rest, get_extent (d + 1) x = .ok t) ∧
      e = (rest.length + 1) :: t := by
  rw [get_extent_cons] at h
  rcases get_extent_cases (d + 1) v0 with ⟨t, h0, ht⟩ | ⟨err, h0, _⟩
  · rcases get_extent_loop_spec (get_extent (d + 1)) (d + 1) t ht
      (get_extent_cases (d + 1)) rest with ⟨h1, h2⟩ | ⟨_, err, h2, _⟩
    · simp only [h0, h2] at h
      injection h with h
      exact ⟨t, h0, h1, h.symm⟩
    · simp only [h0, h2] at h
      cases h
  · simp only [h0] at h
    cases h

theorem get_offset_formula : ∀ (d : Nat) (v : NVec α d) (e : List Nat),
    get_extent d v = .ok e →
    get_offset d v = .ok (List.replicate (e.length - 1) 1 ++ e.drop (e.length - 1))
  | 0, v, e, h => by
    have : e = [1] := by
      have h' : get_extent 0 v = .ok [1] := rfl
      rw [h'] at h; injection h with h; exact h.symm
    subst this
    rfl
  | 1, v, e, h => by
    rw [get_extent_one] at h
    injection h with h
    subst h
    simp [get_offset_one]
  | d + 2, v, e, h => by
    match v, h with
    | [], h =>
      rw [get_extent_nil] at h
      injection h with h
      subst h
      simp [get_offset_nil]
    | v0 :: rest, h =>
      obtain ⟨t, h0, _, rfl⟩ := get_extent_cons_ok d v0 rest e h
      have ht : t ≠ [] := get_extent_ne_nil (d + 1) v0 t h0
      have hlen : 1 ≤ t.length := by
        cases t with
        | nil => exact absurd rfl ht
        | cons a t => simp
      rw [get_offset_cons, get_offset_formula (d + 1) v0 t h0]
      simp only [List.length_cons, Nat.add_sub_cancel]
      have h1 : List.replicate t.length 1 = 1 :: List.replicate (t.length - 1) 1 := by
        obtain ⟨k, hk⟩ : ∃ k, t.length = k + 1 := ⟨t.length - 1, by omega⟩
        rw [hk]; rfl
      have h2 : List.drop t.length ((rest.length + 1) :: t) = List.drop (t.length - 1) t := by
        obtain ⟨k, hk⟩ : ∃ k, t.length = k + 1 := ⟨t.length - 1, by omega⟩
        rw [hk]; rfl
      rw [h1, h2]
      rfl

/-- C7 (as stated, refuted). For the two-level vector `[[1], [2]]` the extent is `[2, 1]` but
the offset is `[1, 1]`: the default chunk is one row, not the whole object. -/
theorem get_offset_eq_get_extent_counterexample :
    get_extent (α := Int) 2 ([[1], [2]] : List (List Int)) = .ok [2, 1] ∧
    get_offset (α := Int) 2 ([[1], [2]] : List (List Int)) = .ok [1, 1] ∧
    get_offset (α := Int) 2 ([[1], [2]] : List (List Int)) ≠
      get_extent (α := Int) 2 ([[1], [2]] : List (List Int)) := by
  refine ⟨rfl, rfl, ?_⟩
  rw [show get_offset (α := Int) 2 ([[1], [2]] : List (List Int)) = .ok [1, 1] from rfl,
    show get_extent (α := Int) 2 ([[1], [2]] : List (List Int)) = .ok [2, 1] from rfl]
  decide

/-- C7 (amended). For a scalar or nested `std::vector` `v` of native numeric scalars on which
`get_extent` succeeds with `e`, `get_offset(v)` has one entry per axis of `e`; its last entry
is the full extent of the last axis and every other entry is 1. Hence
`get_offset(v) = get_extent(v)` exactly when every extent but the last is 1, in particular
for scalars and for vectors of native scalars (depth at most 1); for a raw buffer of native
scalars with a shape both are the shape. -/
theorem get_offset_of_extent (d : Nat) (v : NVec α d) (e : List Nat)
    (h : get_extent d v = .ok e) :
    (∃ o, get_offset d v = .ok o ∧ o.length = e.length ∧
      o = List.replicate (e.length - 1) 1 ++ e.drop (e.length - 1) ∧
      (o = e ↔ ∀ x ∈ e.dropLast, x = 1) ∧ (d ≤ 1 → o = e)) ∧
    (∀ (first : List (NVec α 0)) (second : List Nat),
      get_offset_pair 0 first second = .ok second ∧
      get_extent_pair 0 first second = .ok second) := by
  refine ⟨?_, fun first second => ⟨rfl, rfl⟩⟩
  have hne := get_extent_ne_nil d v e h
  have hlen : 1 ≤ e.length := by
    cases e with
    | nil => exact absurd rfl hne
    | cons a t => simp
  refine ⟨_, get_offset_formula d v e h, ?_, rfl, ?_, ?_⟩
  · simp only [List.length_append, List.length_replicate, List.length_drop]
    omega
  · have hsplit : e = e.take (e.length - 1) ++ e.drop (e.length - 1) :=
      (List.take_append_drop _ _).symm
    rw [List.dropLast_eq_take]
    constructor
    · intro heq x hx
      have h3 : List.replicate (e.length - 1) 1 = e.take (e.length - 1) := by
        have := heq.trans hsplit
        exact List.append_cancel_right this
      rw [← h3] at hx
      exact (List.mem_replicate.1 hx).2
    · intro hall
      have h3 : e.take (e.length - 1) = List.replicate (e.length - 1) 1 := by
        rw [List.eq_replicate_iff]
        refine ⟨?_, hall⟩
        simp only [List.length_take]
        omega
      rw [← h3]
      exact hsplit.symm
  · intro hd
    have hd' : d = 0 ∨ d = 1 := by omega
    rcases hd' with rfl | rfl
    · have : e = [1] := by
        have h' : get_extent 0 v = .ok [1] := rfl
        rw [h'] at h; injection h with h; exact h.symm
      subst this
      rfl
    · rw [get_extent_one] at h
      injection h with h
      subst h
      rfl

/-- Instance of `get_offset_of_extent` at a concrete input. -/
theorem get_offset_of_extent_witness :
    (∃ o, get_offset (α := Int) 2 ([[1, 2, 3], [4, 5, 6]] : List (List Int)) = .ok o ∧
      o.length = [2, 3].length ∧
      o = List.replicate ([2, 3].length - 1) 1 ++ [2, 3].drop ([2, 3].length - 1) ∧
      (o = [2, 3] ↔ ∀ x ∈ [2, 3].dropLast, x = 1) ∧ (2 ≤ 1 → o = [2, 3])) ∧
    (∀ (first : List (NVec Int 0)) (second : List Nat),
      get_offset_pair 0 first second = .ok second ∧
      get_extent_pair 0 first second = .ok second) :=
  get_offset_of_extent (α := Int) 2 ([[1, 2, 3], [4, 5, 6]] : List (List Int)) [2, 3] rfl

/-! ## Theorems: scalar `set_data` and `is_vectorizable` -/

theorem set_data_impl_eq {β : Type} (conv : β → α) (mem : List α) (pos : Nat) (u : List β)
    (s c : List Nat) :
    set_data_impl conv mem pos u s c =
      if s.length ≠ 1 ∨ c.length ≠ 1 ∨ c.headD 0 = 0 ∨ u.length < c.headD 0 then
        .error Err.RangeError
      else if pos + s.headD 0 + c.headD 0 ≤ mem.length then
        .ok (mem.take (pos + s.headD 0) ++ (u.take (c.headD 0)).map conv
          ++ mem.drop (pos + s.headD 0 + c.headD 0))
      else .error Err.OutOfBounds := by
  unfold set_data_impl
  generalize c.headD 0 = c0
  generalize s.headD 0 = s0
  by_cases h1 : s.length = 1 <;> by_cases h2 : c.length = 1 <;> by_cases h3 : c0 = 0 <;>
    by_cases h4 : u.length < c0 <;> simp [h1, h2, h3, h4]

theorem set_data_scalar_eq {β : Type} (conv : β → α) (mem : List α) (pos : Nat) (u : List β)
    (s c : List Nat) :
    set_data_scalar true false BufferType.scalar conv mem pos u s c =
      set_data_impl conv mem pos u s c := by
  simp [set_data_scalar]

/-- C8. Generic `set_data` on a native numeric scalar target `v` (stored at `mem[pos]`): a
`std::complex<double>` or `char *` buffer, an enum target or a non-scalar target give
RuntimeError whatever `s` and `c` are; otherwise RangeError is raised exactly when `s` or `c`
is not one-dimensional, `c[0] = 0`, or `u` has fewer than `c[0]` elements; otherwise, for
`s = [0]` and `c = [1]`, `v` becomes `u[0]` converted to the type of `v` and nothing else
changes. -/
theorem set_data_scalar_behaviour {β : Type} (U : BufferType) (conv : β → α) (mem : List α)
    (pos : Nat) (u : List β) (s c : List Nat) :
    (∀ T_is_scalar T_is_enum : Bool,
      (U = BufferType.complex_double ∨ U = BufferType.char_ptr ∨ T_is_enum = true ∨
        T_is_scalar = false) →
      set_data_scalar T_is_scalar T_is_enum U conv mem pos u s c = .error Err.RuntimeError) ∧
    (U = BufferType.scalar →
      (set_data_scalar true false U conv mem pos u s c = .error Err.RangeError ↔
        (s.length ≠ 1 ∨ c.length ≠ 1 ∨ c.headD 0 = 0 ∨ u.length < c.headD 0))) ∧
    (U = BufferType.scalar → s = [0] → c = [1] → pos < mem.length →
      ∀ (u0 : β) (ur : List β), u = u0 :: ur →
        set_data_scalar true false U conv mem pos u s c = .ok (mem.set pos (conv u0))) := by
  refine ⟨?_, ?_, ?_⟩
  · intro ts te h
    rcases h with h | h | h | h <;> subst h <;> simp [set_data_scalar]
  · intro hU
    subst hU
    rw [set_data_scalar_eq, set_data_impl_eq]
    by_cases hc : s.length ≠ 1 ∨ c.length ≠ 1 ∨ c.headD 0 = 0 ∨ u.length < c.headD 0
    · rw [if_pos hc]
      exact ⟨fun _ => hc, fun _ => rfl⟩
    · rw [if_neg hc]
      constructor
      · intro h
        split at h <;> cases h
      · intro h
        exact absurd h hc
  · intro hU hs hc hpos u0 ur hu
    subst hU hs hc hu
    have : pos + 1 ≤ mem.length := hpos
    rw [set_data_scalar_eq, set_data_impl_eq]
    simp [this, List.set_eq_take_append_cons_drop, hpos]

/-- Instance of `set_data_scalar_behaviour` at a concrete input. -/
theorem set_data_scalar_behaviour_witness :
    set_data_scalar (α := Int) (β := Int) true false BufferType.scalar id [5] 0 [8] [0] [1]
      = .ok (([5] : List Int).set 0 (id 8)) :=
  (set_data_scalar_behaviour (α := Int) BufferType.scalar id [5] 0 [8] [0] [1]).2.2
    rfl rfl rfl (by decide) 8 [] rfl

/-- C4 (failing input). For the depth-3 vector `[[[1, 2]], [[1]]]` the elements have extents
`[1, 2]` and `[1, 1]`, yet `is_vectorizable` returns true because only the leading extent entry
is compared; `get_extent` rejects the same value, and `is_vectorizable` of a depth-4 vector
holding it raises RangeError. -/
theorem is_vectorizable_leading_entry_only :
    get_extent (α := Int) 2 ([[1, 2]] : List (List Int)) = .ok [1, 2] ∧
    get_extent (α := Int) 2 ([[1]] : List (List Int)) = .ok [1, 1] ∧
    is_vectorizable (α := Int) 3 ([[[1, 2]], [[1]]] : List (List (List Int))) = .ok true ∧
    get_extent (α := Int) 3 ([[[1, 2]], [[1]]] : List (List (List Int)))
      = .error Err.RangeError ∧
    is_vectorizable (α := Int) 4 ([[[[1, 2]], [[1]]]] : List (List (List (List Int))))
      = .error Err.RangeError :=
  ⟨rfl, rfl, rfl, rfl, rfl⟩

/-! ## Theorems: the odometer of the chunk loop -/

theorem getD_append_cons (a : List Nat) (y : Nat) (r : List Nat) :
    (a ++ y :: r).getD a.length 0 = y := by
  induction a with
  | nil => rfl
  | cons b a ih => simpa using ih

theorem set_append_cons (a : List Nat) (y z : Nat) (r : List Nat) :
    (a ++ y :: r).set a.length z = a ++ z :: r := by
  induction a with
  | nil => rfl
  | cons b a _ => simp

theorem reset_loop_spec : ∀ (zs a rest : List Nat),
    reset_loop zs.length a.length (a ++ (zs ++ rest)) = a ++ (List.replicate zs.length 0 ++ rest)
  | [], a, rest => by simp [reset_loop]
  | z :: zs, a, rest => by
    have h := reset_loop_spec zs (a ++ [0]) rest
    simp only [List.length_append, List.length_singleton, List.append_assoc,
      List.singleton_append] at h
    simp only [List.length_cons, reset_loop, List.cons_append, set_append_cons, h,
      List.replicate_succ]

theorem carry_loop_at (sp srest pre rest : List Nat) (sx x : Nat)
    (hlen : pre.length = sp.length) (h : pre = [] ∨ x + 1 ≠ sx) :
    carry_loop (sp ++ sx :: srest) pre.length (pre ++ x :: rest) =
      (pre.length, pre ++ (x + 1) :: rest) := by
  rcases h with rfl | h
  · simp [carry_loop]
  · cases hp : pre.length with
    | zero =>
      have : pre = [] := List.length_eq_zero.1 hp
      subst this
      simp [carry_loop]
    | succ p =>
      have e1 : (pre ++ x :: rest).getD (p + 1) 0 = x := by
        rw [← hp]; exact getD_append_cons pre x rest
      have e2 : (pre ++ x :: rest).set (p + 1) (x + 1) = pre ++ (x + 1) :: rest := by
        rw [← hp]; exact set_append_cons pre x (x + 1) rest
      have e3 : (pre ++ (x + 1) :: rest).getD (p + 1) 0 = x + 1 := by
        rw [← hp]; exact getD_append_cons pre (x + 1) rest
      have e4 : (sp ++ sx :: srest).getD (p + 1) 0 = sx := by
        rw [← hp, hlen]; exact getD_append_cons sp sx srest
      simp only [carry_loop, e1, e2, e3, e4, beq_iff_eq, h, if_false]

theorem carry_loop_maxed (sm : List Nat) : (∀ b ∈ sm, 1 ≤ b) →
    ∀ (sp srest pre rest : List Nat) (sx x : Nat), pre.length = sp.length →
    carry_loop (sp ++ sx :: (sm ++ srest)) (pre.length + sm.length)
        (pre ++ x :: (sm.map (fun b => b - 1) ++ rest)) =
      carry_loop (sp ++ sx :: (sm ++ srest)) pre.length (pre ++ x :: (sm ++ rest)) := by
  induction sm using List.reverseRecOn with
  | nil => intro _ sp srest pre rest sx x _; simp
  | append_singleton sm sy ih =>
    intro hsm sp srest pre rest sx x hlen
    have hsy : 1 ≤ sy := hsm sy (by simp)
    have hsm' : ∀ b ∈ sm, 1 ≤ b := fun b hb => hsm b (by simp [hb])
    have hpos : pre.length + (sm ++ [sy]).length =
        (pre ++ x :: sm.map (fun b => b - 1)).length := by
      simp
    have hpos' : pre.length + (sm ++ [sy]).length = (sp ++ sx :: sm).length := by
      simp; omega
    have hst : pre ++ x :: ((sm ++ [sy]).map (fun b => b - 1) ++ rest) =
        (pre ++ x :: sm.map (fun b => b - 1)) ++ (sy - 1) :: rest := by simp
    have hsz : sp ++ sx :: ((sm ++ [sy]) ++ srest) = (sp ++ sx :: sm) ++ sy :: srest := by simp
    have e1 : (pre ++ x :: ((sm ++ [sy]).map (fun b => b - 1) ++ rest)).getD
        (pre.length + (sm ++ [sy]).length) 0 = sy - 1 := by
      rw [hst, hpos]; exact getD_append_cons _ _ _
    have e2 : (pre ++ x :: ((sm ++ [sy]).map (fun b => b - 1) ++ rest)).set
        (pre.length + (sm ++ [sy]).length) (sy - 1 + 1) =
        (pre ++ x :: sm.map (fun b => b - 1)) ++ sy :: rest := by
      rw [hst, hpos, set_append_cons]
      congr 2
      omega
    have e3 : ((pre ++ x :: sm.map (fun b => b - 1)) ++ sy :: rest).getD
        (pre.length + (sm ++ [sy]).length) 0 = sy := by
      rw [hpos]; exact getD_append_cons _ _ _
    have e4 : (sp ++ sx :: ((sm ++ [sy]) ++ srest)).getD
        (pre.length + (sm ++ [sy]).length) 0 = sy := by
      rw [hsz, hpos']; exact getD_append_cons _ _ _
    obtain ⟨k, hk⟩ : ∃ k, pre.length + (sm ++ [sy]).length = k + 1 := ⟨pre.length + sm.length, by simp; omega⟩
    have hk' : k = pre.length + sm.length := by simp at hk; omega
    rw [hk] at e1 e2 e3 e4
    rw [hk]
    simp only [carry_loop, e1, e2, e3, e4, beq_self_eq_true, if_true]
    rw [hk']
    have := ih hsm' sp (sy :: srest) pre (sy :: rest) sx x hlen
    simp only [List.append_assoc, List.singleton_append, List.cons_append] at this ⊢
    exact this

theorem odometer_step_spec (sm : List Nat) (hsm : ∀ b ∈ sm, 1 ≤ b)
    (sp srest pre rest : List Nat) (sx x : Nat) (hlen : pre.length = sp.length)
    (h : pre = [] ∨ x + 1 ≠ sx) :
    odometer_step (sp ++ sx :: (sm ++ srest)) (pre.length + sm.length)
        (pre ++ x :: (sm.map (fun b => b - 1) ++ rest)) =
      pre ++ (x + 1) :: (List.replicate sm.length 0 ++ rest) := by
  rcases List.eq_nil_or_concat sm with rfl | ⟨sm', sy, hsm'⟩
  · -- no maxed axis: the plain increment
    have e1 : (pre ++ x :: rest).getD pre.length 0 = x := getD_append_cons pre x rest
    have e4 : (sp ++ sx :: srest).getD pre.length 0 = sx := by
      rw [hlen]; exact getD_append_cons sp sx srest
    have hc : (x + 1 == sx && pre.length != 0) = false := by
      rcases h with rfl | h
      · simp
      · simp [h]
    simp only [odometer_step, List.map_nil, List.nil_append, List.length_nil, Nat.add_zero, e1,
      e4, hc, List.replicate_zero, set_append_cons]
    simp
  · rw [List.concat_eq_append] at hsm'
    subst hsm'
    have hsy : 1 ≤ sy := hsm sy (by simp)
    have hcarry := carry_loop_maxed (sm' ++ [sy]) hsm sp srest pre rest sx x hlen
    have hat := carry_loop_at sp ((sm' ++ [sy]) ++ srest) pre ((sm' ++ [sy]) ++ rest) sx x hlen h
    have hpos : pre.length + (sm' ++ [sy]).length =
        (pre ++ x :: sm'.map (fun b => b - 1)).length := by
      simp
    have hpos' : pre.length + (sm' ++ [sy]).length = (sp ++ sx :: sm').length := by
      simp; omega
    have e1 : (pre ++ x :: ((sm' ++ [sy]).map (fun b => b - 1) ++ rest)).getD
        (pre.length + (sm' ++ [sy]).length) 0 = sy - 1 := by
      have hst : pre ++ x :: ((sm' ++ [sy]).map (fun b => b - 1) ++ rest) =
          (pre ++ x :: sm'.map (fun b => b - 1)) ++ (sy - 1) :: rest := by simp
      rw [hst, hpos]; exact getD_append_cons _ _ _
    have e4 : (sp ++ sx :: ((sm' ++ [sy]) ++ srest)).getD
        (pre.length + (sm' ++ [sy]).length) 0 = sy := by
      have hsz : sp ++ sx :: ((sm' ++ [sy]) ++ srest) = (sp ++ sx :: sm') ++ sy :: srest := by
        simp
      rw [hsz, hpos']; exact getD_append_cons _ _ _
    have hc : (sy - 1 + 1 == sy && pre.length + (sm' ++ [sy]).length != 0) = true := by
      have : sy - 1 + 1 = sy := by omega
      simp [this]
    have hreset := reset_loop_spec (sm' ++ [sy]) (pre ++ [x + 1]) rest
    simp only [List.length_append, List.length_singleton, List.append_assoc,
      List.singleton_append] at hreset
    simp only [odometer_step, e1, e4, hc, if_true, hcarry, hat]
    have hn : pre.length + (sm' ++ [sy]).length - pre.length = sm'.length + 1 := by
      simp
    rw [hn]
    simp only [List.length_append, List.length_singleton, List.append_assoc,
      List.singleton_append]
    exact hreset

theorem rowMajor_ne_nil : ∀ (ns : List Nat), (∀ b ∈ ns, 1 ≤ b) → rowMajor ns ≠ []
  | [], _ => by simp [rowMajor]
  | n :: ns, h => by
    have hn : 1 ≤ n := h n (List.mem_cons_self _ _)
    have ih := rowMajor_ne_nil ns (fun b hb => h b (List.mem_cons_of_mem _ hb))
    obtain ⟨r, rs, hr⟩ := List.exists_cons_of_ne_nil ih
    obtain ⟨k, rfl⟩ : ∃ k, n = k + 1 := ⟨n - 1, by omega⟩
    simp [rowMajor, hr, List.range_succ_eq_map]

theorem rowMajor_head? : ∀ (ns : List Nat), (∀ b ∈ ns, 1 ≤ b) →
    (rowMajor ns).head? = some (List.replicate ns.length 0)
  | [], _ => rfl
  | n :: ns, h => by
    have hn : 1 ≤ n := h n (List.mem_cons_self _ _)
    have ih := rowMajor_head? ns (fun b hb => h b (List.mem_cons_of_mem _ hb))
    obtain ⟨k, rfl⟩ : ∃ k, n = k + 1 := ⟨n - 1, by omega⟩
    cases hr : rowMajor ns with
    | nil => rw [hr] at ih; cases ih
    | cons r rs =>
      rw [hr] at ih
      simp only [List.head?_cons, Option.some.injEq] at ih
      simp [rowMajor, hr, List.range_succ_eq_map, ih, List.replicate_succ]

theorem rowMajor_getLast? : ∀ (ns : List Nat), (∀ b ∈ ns, 1 ≤ b) →
    (rowMajor ns).getLast? = some (ns.map (fun b => b - 1))
  | [], _ => rfl
  | n :: ns, h => by
    have hn : 1 ≤ n := h n (List.mem_cons_self _ _)
    have ih := rowMajor_getLast? ns (fun b hb => h b (List.mem_cons_of_mem _ hb))
    obtain ⟨k, rfl⟩ : ∃ k, n = k + 1 := ⟨n - 1, by omega⟩
    have hne := rowMajor_ne_nil ns (fun b hb => h b (List.mem_cons_of_mem _ hb))
    simp only [rowMajor, List.range_succ, List.flatMap_append, List.flatMap_cons,
      List.flatMap_nil, List.append_nil]
    rw [List.getLast?_append_of_ne_nil _ (by simpa using hne)]
    simp [List.getLast?_map, ih]
theorem rowMajor_chain : ∀ (ns : List Nat), (∀ b ∈ ns, 1 ≤ b) →
    ∀ (sp srest pre rest : List Nat), pre.length = sp.length →
    List.Chain' (fun a b => odometer_step (sp ++ (ns ++ srest)) (pre.length + ns.length - 1) a = b)
      ((rowMajor ns).map (fun r => pre ++ (r ++ rest)))
  | [], _, sp, srest, pre, rest, _ => by simp [rowMajor]
  | n :: ns, h, sp, srest, pre, rest, hlen => by
    have hn : 1 ≤ n := h n (List.mem_cons_self _ _)
    have hns : ∀ b ∈ ns, 1 ≤ b := fun b hb => h b (List.mem_cons_of_mem _ hb)
    have hne := rowMajor_ne_nil ns hns
    obtain ⟨k, rfl⟩ : ∃ k, n = k + 1 := ⟨n - 1, by omega⟩
    have hlast : pre.length + ((k + 1) :: ns).length - 1 = pre.length + ns.length := by
      simp only [List.length_cons]; omega
    rw [hlast]
    simp only [rowMajor, List.flatMap, List.map_flatten, List.map_map]
    rw [List.chain'_flatten]
    · refine ⟨?_, ?_⟩
      · intro l hl
        simp only [List.mem_map, List.mem_range] at hl
        obtain ⟨i, _, rfl⟩ := hl
        have ih := rowMajor_chain ns hns (sp ++ [k + 1]) srest (pre ++ [i]) rest (by simp [hlen])
        have hl' : (pre ++ [i]).length + ns.length - 1 = pre.length + ns.length := by
          simp only [List.length_append, List.length_singleton]; omega
        rw [hl'] at ih
        simp only [List.append_assoc, List.singleton_append] at ih
        simpa [Function.comp_def] using ih
      · rw [List.chain'_map, List.chain'_range_succ]
        intro m hm x hx y hy
        simp only [Function.comp_def, List.getLast?_map, rowMajor_getLast? ns hns,
          Option.map_some', Option.mem_def, Option.some.injEq] at hx
        simp only [Function.comp_def, List.head?_map, rowMajor_head? ns hns,
          Option.map_some', Option.mem_def, Option.some.injEq] at hy
        subst hx hy
        have := odometer_step_spec ns hns sp srest pre rest (k + 1) m hlen (Or.inr (by omega))
        simpa using this
    · simp only [List.mem_map, List.mem_range, not_exists, not_and]
      intro i _ hi
      have := hi.symm
      simp at this
      exact hne this

theorem chunk_loop_chain {σ : Type} (body : List Nat → σ → Except Err σ) (size : List Nat)
    (last : Nat) : ∀ (L : List (List Nat)) (l0 : List Nat) (fuel : Nat) (st : σ),
    List.Chain' (fun a b => odometer_step size last a = b) (l0 :: L) →
    (∀ b ∈ L, b.getD 0 0 < size.getD 0 0) →
    (∀ z ∈ (l0 :: L).getLast?, ¬ (odometer_step size last z).getD 0 0 < size.getD 0 0) →
    L.length < fuel →
    chunk_loop body size last fuel l0 st = run_chunks body (l0 :: L) st
  | [], l0, fuel, st, _, _, hend, hfuel => by
    obtain ⟨f, rfl⟩ : ∃ f, fuel = f + 1 := ⟨fuel - 1, by simp at hfuel; omega⟩
    have hz := hend l0 (by simp)
    cases hb : body l0 st with
    | error e => simp only [chunk_loop, run_chunks, hb]
    | ok st1 => simp only [chunk_loop, run_chunks, hb, hz, if_false]
  | l1 :: L, l0, fuel, st, hch, hlt, hend, hfuel => by
    obtain ⟨f, rfl⟩ : ∃ f, fuel = f + 1 := ⟨fuel - 1, by simp at hfuel; omega⟩
    rw [List.chain'_cons] at hch
    obtain ⟨hstep, hch'⟩ := hch
    have h1 : l1.getD 0 0 < size.getD 0 0 := hlt l1 (List.mem_cons_self _ _)
    have ih := chunk_loop_chain body size last L l1 f
    cases hb : body l0 st with
    | error e => simp only [chunk_loop, run_chunks, hb]
    | ok st1 =>
      have := ih st1 hch' (fun b hb => hlt b (List.mem_cons_of_mem _ hb))
        (fun z hz => hend z (by simpa [List.getLast?_cons_cons] using hz))
        (by simp at hfuel; omega)
      simp only [chunk_loop, hb, hstep, h1, if_true, this]
      simp only [run_chunks, hb]

theorem run_chunks_record : ∀ (L acc : List (List Nat)),
    run_chunks (fun s acc => .ok (acc ++ [s])) L acc = .ok (acc ++ L)
  | [], acc => by simp [run_chunks]
  | s :: L, acc => by
    simp [run_chunks, run_chunks_record L (acc ++ [s])]

theorem mem_rowMajor : ∀ (ns r : List Nat), r ∈ rowMajor ns ↔ List.Forall₂ (fun i n => i < n) r ns
  | [], r => by simp [rowMajor]
  | n :: ns, r => by
    simp only [rowMajor, List.mem_flatMap, List.mem_range, List.mem_map]
    constructor
    · rintro ⟨i, hi, r', hr', rfl⟩
      exact List.Forall₂.cons hi ((mem_rowMajor ns r').1 hr')
    · intro h
      cases h with
      | cons hi hr => exact ⟨_, hi, _, (mem_rowMajor ns _).2 hr, rfl⟩

theorem length_flatMap_const {β γ : Type} (f : β → List γ) (c : Nat) :
    ∀ (l : List β), (∀ i ∈ l, (f i).length = c) → (l.flatMap f).length = l.length * c
  | [], _ => by simp
  | a :: l, h => by
    have ih := length_flatMap_const f c l (fun i hi => h i (List.mem_cons_of_mem _ hi))
    simp only [List.flatMap_cons, List.length_append, ih, h a (List.mem_cons_self _ _),
      List.length_cons]
    ring

theorem length_rowMajor : ∀ (ns : List Nat), (rowMajor ns).length = ns.prod
  | [] => rfl
  | n :: ns => by
    rw [rowMajor, length_flatMap_const _ ns.prod]
    · simp
    · intro i _
      simp [length_rowMajor ns]

theorem pairwise_rowMajor : ∀ (ns : List Nat),
    (rowMajor ns).Pairwise (List.Lex (fun a b : Nat => a < b))
  | [] => by simp [rowMajor]
  | n :: ns => by
    simp only [rowMajor, List.flatMap]
    rw [List.pairwise_flatten]
    constructor
    · intro l hl
      simp only [List.mem_map, List.mem_range] at hl
      obtain ⟨i, _, rfl⟩ := hl
      exact (List.pairwise_map).2 ((pairwise_rowMajor ns).imp (fun h => List.Lex.cons h))
    · rw [List.pairwise_map]
      refine (List.pairwise_lt_range n).imp ?_
      intro i j hij x hx y hy
      simp only [List.mem_map] at hx hy
      obtain ⟨x', _, rfl⟩ := hx
      obtain ⟨y', _, rfl⟩ := hy
      exact List.Lex.rel hij
theorem chunk_loop_rowMajor {σ : Type} (body : List Nat → σ → Except Err σ)
    (dims srest rest : List Nat) (hd : dims ≠ []) (hpos : ∀ b ∈ dims, 1 ≤ b)
    (fuel : Nat) (hfuel : dims.prod ≤ fuel) (st : σ) :
    chunk_loop body (dims ++ srest) (dims.length - 1) fuel
        (List.replicate dims.length 0 ++ rest) st =
      run_chunks body ((rowMajor dims).map (fun r => r ++ rest)) st := by
  have hch := rowMajor_chain dims hpos [] srest [] rest rfl
  simp only [List.nil_append, List.length_nil, Nat.zero_add] at hch
  have hhead := rowMajor_head? dims hpos
  have hlast := rowMajor_getLast? dims hpos
  have hlen := length_rowMajor dims
  cases hr : rowMajor dims with
  | nil => rw [hr] at hhead; cases hhead
  | cons r0 L =>
    rw [hr] at hhead hch hlast hlen
    simp only [List.head?_cons, Option.some.injEq] at hhead
    subst hhead
    simp only [List.map_cons] at hch ⊢
    match dims, hd with
    | n :: ns, _ =>
      have hn : 1 ≤ n := hpos n (List.mem_cons_self _ _)
      have hns : ∀ b ∈ ns, 1 ≤ b := fun b hb => hpos b (List.mem_cons_of_mem _ hb)
      apply chunk_loop_chain body _ _ _ _ fuel st hch
      · intro b hb
        simp only [List.mem_map] at hb
        obtain ⟨r, hrL, rfl⟩ := hb
        have hmem : r ∈ rowMajor (n :: ns) := by rw [hr]; exact List.mem_cons_of_mem _ hrL
        rw [mem_rowMajor] at hmem
        cases hmem with
        | cons hi _ => simpa using hi
      · intro z hz
        rw [← List.map_cons (fun r => r ++ rest), List.getLast?_map, hlast] at hz
        simp only [Option.map_some', Option.mem_def, Option.some.injEq] at hz
        subst hz
        have hstep := odometer_step_spec ns hns [] srest [] rest n (n - 1) rfl (Or.inl rfl)
        simp only [List.nil_append, List.length_nil, Nat.zero_add] at hstep
        have hl : (n :: ns).length - 1 = ns.length := by simp
        rw [hl]
        simp only [List.map_cons, List.cons_append]
        rw [hstep]
        have : n - 1 + 1 = n := by omega
        simp [this]
      · simp only [List.length_map]
        simp only [List.length_cons] at hlen
        omega

theorem getD_eq_of_ne (size count : List Nat) (hlen : size.length = count.length)
    (hne : count ≠ size) : ∃ j, j < size.length ∧ count.getD j 0 ≠ size.getD j 0 := by
  by_contra hcon
  apply hne
  apply List.ext_getElem hlen.symm
  intro j h1 h2
  by_contra hj
  apply hcon
  refine ⟨j, h2, ?_⟩
  simpa [List.getD_eq_getElem?_getD, List.getElem?_eq_getElem h1, List.getElem?_eq_getElem h2]
    using hj

theorem find_last_spec (size count : List Nat) (hlen : size.length = count.length) :
    ∀ (l : Nat), l < size.length → (∃ j, j ≤ l ∧ count.getD j 0 ≠ size.getD j 0) →
    ∃ last, find_last size count l = .ok last ∧ last ≤ l ∧
      count.getD last 0 ≠ size.getD last 0 ∧
      ∀ j, last < j → j ≤ l → count.getD j 0 = size.getD j 0
  | 0, hl, ⟨j, hj, hne⟩ => by
    have hj0 : j = 0 := by omega
    subst hj0
    have hc : 0 < count.length := by omega
    have e1 : count[0]? = some (count.getD 0 0) := by
      simp [List.getD_eq_getElem?_getD, List.getElem?_eq_getElem hc]
    have e2 : size[0]? = some (size.getD 0 0) := by
      simp [List.getD_eq_getElem?_getD, List.getElem?_eq_getElem hl]
    refine ⟨0, ?_, le_refl _, hne, fun j h1 h2 => by omega⟩
    simp only [find_last, e1, e2, beq_iff_eq, hne, if_false]
  | l + 1, hl, ⟨j, hj, hne⟩ => by
    have hc : l + 1 < count.length := by omega
    have e1 : count[l + 1]? = some (count.getD (l + 1) 0) := by
      simp [List.getD_eq_getElem?_getD, List.getElem?_eq_getElem hc]
    have e2 : size[l + 1]? = some (size.getD (l + 1) 0) := by
      simp [List.getD_eq_getElem?_getD, List.getElem?_eq_getElem hl]
    by_cases heq : count.getD (l + 1) 0 = size.getD (l + 1) 0
    · have hj' : j ≤ l := by
        rcases Nat.lt_or_ge j (l + 1) with h | h
        · omega
        · have : j = l + 1 := by omega
          subst this
          exact absurd heq hne
      obtain ⟨last, h1, h2, h3, h4⟩ :=
        find_last_spec size count hlen l (by omega) ⟨j, hj', hne⟩
      refine ⟨last, ?_, by omega, h3, ?_⟩
      · simp only [find_last, e1, e2, beq_iff_eq, heq, if_true, h1]
      · intro i hi1 hi2
        rcases Nat.lt_or_ge i (l + 1) with h | h
        · exact h4 i hi1 (by omega)
        · have : i = l + 1 := by omega
          subst this
          exact heq
    · refine ⟨l + 1, ?_, le_refl _, heq, fun i h1 h2 => by omega⟩
      simp only [find_last, e1, e2, beq_iff_eq, heq, if_false]

theorem lex_lt_ne (a b : List Nat) (h : List.Lex (fun x y : Nat => x < y) a b) : a ≠ b :=
  List.Lex.to_ne (List.Lex.imp (fun _ _ hxy => Nat.ne_of_lt hxy) _ _ h)

theorem chunk_loop_walk {σ : Type} (body : List Nat → σ → Except Err σ)
    (size count : List Nat) (hlen : size.length = count.length)
    (hd : 1 ≤ size.length) (hsize : ∀ x ∈ size, 1 ≤ x) (hne : count ≠ size) :
    ∃ last, find_last size count (count.length - 1) = .ok last ∧ last < size.length ∧
      count.getD last 0 ≠ size.getD last 0 ∧
      (∀ j, last < j → j < size.length → count.getD j 0 = size.getD j 0) ∧
      ∀ (fuel : Nat) (st : σ), (size.take (last + 1)).prod ≤ fuel →
        chunk_loop body size last fuel (List.replicate size.length 0) st =
          run_chunks body ((rowMajor (size.take (last + 1))).map
            (fun r => r ++ List.replicate (size.length - (last + 1)) 0)) st := by
  obtain ⟨j, hj, hjne⟩ := getD_eq_of_ne size count hlen hne
  obtain ⟨last, h1, h2, h3, h4⟩ :=
    find_last_spec size count hlen (count.length - 1) (by omega) ⟨j, by omega, hjne⟩
  have hlast : last < size.length := by omega
  refine ⟨last, h1, hlast, h3, fun i hi1 hi2 => h4 i hi1 (by omega), ?_⟩
  intro fuel st hfuel
  have hdl : (size.take (last + 1)).length = last + 1 := by
    rw [List.length_take]; omega
  have hdne : size.take (last + 1) ≠ [] := by
    intro h; rw [h] at hdl; simp at hdl
  have hpos : ∀ b ∈ size.take (last + 1), 1 ≤ b :=
    fun b hb => hsize b (List.mem_of_mem_take hb)
  have hloop := chunk_loop_rowMajor body
    (size.take (last + 1)) (size.drop (last + 1))
    (List.replicate (size.length - (last + 1)) 0) hdne hpos fuel hfuel st
  rw [List.take_append_drop, hdl, Nat.add_sub_cancel, ← List.replicate_add] at hloop
  have hsum : last + 1 + (size.length - (last + 1)) = size.length := by omega
  rw [hsum] at hloop
  exact hloop

/-- C9. Odometer walk: for `size` and `count` of equal length at least 1, every `size[i] >= 1`
and `count != size`, the loop `for(;count[last] == size[last]; --last);` ends at the greatest
axis `last` with `count[last] != size[last]`; the chunk loop terminates (with any fuel of at
least the product of `size[0..last]`) and visits exactly the multi-indices
`(i_0, ..., i_last, 0, ..., 0)` with `i_j < size[j]`, each once, in row-major order; the number
of steps is the product of `size[0..last]`. -/
theorem chunk_odometer_walk (size count : List Nat) (hlen : size.length = count.length)
    (hd : 1 ≤ size.length) (hsize : ∀ x ∈ size, 1 ≤ x) (hne : count ≠ size) :
    ∃ last, find_last size count (count.length - 1) = .ok last ∧ last < size.length ∧
      count.getD last 0 ≠ size.getD last 0 ∧
      (∀ j, last < j → j < size.length → count.getD j 0 = size.getD j 0) ∧
      (∀ fuel, (size.take (last + 1)).prod ≤ fuel →
        visited size last fuel (List.replicate size.length 0) =
          .ok ((rowMajor (size.take (last + 1))).map
            (fun r => r ++ List.replicate (size.length - (last + 1)) 0))) ∧
      (rowMajor (size.take (last + 1))).length = (size.take (last + 1)).prod ∧
      (∀ r, r ∈ rowMajor (size.take (last + 1)) ↔
        List.Forall₂ (fun i n => i < n) r (size.take (last + 1))) ∧
      (rowMajor (size.take (last + 1))).Pairwise (List.Lex (fun a b : Nat => a < b)) ∧
      (rowMajor (size.take (last + 1))).Nodup := by
  obtain ⟨last, h1, h2, h3, h4, h5⟩ :=
    chunk_loop_walk (fun s acc => Except.ok (acc ++ [s])) size count hlen hd hsize hne
  refine ⟨last, h1, h2, h3, h4, ?_, length_rowMajor _, mem_rowMajor _, pairwise_rowMajor _,
    (pairwise_rowMajor _).imp (fun h => lex_lt_ne _ _ h)⟩
  intro fuel hfuel
  have := h5 fuel [] hfuel
  rw [run_chunks_record] at this
  simpa [visited] using this

/-- Instance of `chunk_odometer_walk` at a concrete input. -/
theorem chunk_odometer_walk_witness :
    ∃ last, find_last [2, 3, 4] [1, 1, 4] ([1, 1, 4].length - 1) = .ok last ∧
      last < [2, 3, 4].length ∧
      [1, 1, 4].getD last 0 ≠ [2, 3, 4].getD last 0 ∧
      (∀ j, last < j → j < [2, 3, 4].length → [1, 1, 4].getD j 0 = [2, 3, 4].getD j 0) ∧
      (∀ fuel, ([2, 3, 4].take (last + 1)).prod ≤ fuel →
        visited [2, 3, 4] last fuel (List.replicate [2, 3, 4].length 0) =
          .ok ((rowMajor ([2, 3, 4].take (last + 1))).map
            (fun r => r ++ List.replicate ([2, 3, 4].length - (last + 1)) 0))) ∧
      (rowMajor ([2, 3, 4].take (last + 1))).length = ([2, 3, 4].take (last + 1)).prod ∧
      (∀ r, r ∈ rowMajor ([2, 3, 4].take (last + 1)) ↔
        List.Forall₂ (fun i n => i < n) r ([2, 3, 4].take (last + 1))) ∧
      (rowMajor ([2, 3, 4].take (last + 1))).Pairwise (List.Lex (fun a b : Nat => a < b)) ∧
      (rowMajor ([2, 3, 4].take (last + 1))).Nodup :=
  chunk_odometer_walk [2, 3, 4] [1, 1, 4] rfl (by decide) (by decide) (by decide)

/-! ## Theorems: write followed by read -/

theorem transfer_step_zero (v w : List α) (hv : 1 ≤ v.length) (hw : w.length = v.length) :
    transfer_step (α := α) 0 v [v.length] [0] w = .ok v := by
  have h0 : 0 < v.length := hv
  have h0w : 0 < w.length := by omega
  have hne : v.length ≠ 0 := by omega
  simp only [transfer_step, get_data, h0, if_true, Ptr.read, List.prod_cons, List.prod_nil,
    Nat.mul_one, Nat.zero_add, le_refl, List.drop_zero, List.take_length, set_data, h0w,
    set_data_scalar_eq, set_data_impl_eq]
  simp [hne, hw]

theorem transfer_step_succ (d : Nat) (v w : List (NVec α (d + 1))) (i : Nat)
    (x y : NVec α (d + 1)) (hx : v.get? i = some x) (hy : w.get? i = some y)
    (count s : List Nat) :
    transfer_step (α := α) (d + 1) v (1 :: count) (i :: s) w =
      match transfer_step d x count s y with
      | .error e => .error e
      | .ok y1 => .ok (List.set (α := NVec α (d + 1)) w i y1) := by
  simp only [transfer_step, get_data, hx, set_data, hy, List.prod_cons, Nat.one_mul]
  cases hg : get_data d x s with
  | error e => simp
  | ok p =>
    cases hr : p.read count.prod with
    | error e => simp [hr]
    | ok chunk =>
      cases hs : set_data BufferType.scalar id d y chunk s count <;> simp [hr, hs]

theorem run_chunks_append {σ : Type} (body : List Nat → σ → Except Err σ) :
    ∀ (A B : List (List Nat)) (st : σ),
    run_chunks body (A ++ B) st =
      match run_chunks body A st with
      | .error e => .error e
      | .ok st1 => run_chunks body B st1
  | [], B, st => by simp [run_chunks]
  | a :: A, B, st => by
    simp only [List.cons_append, run_chunks]
    cases hb : body a st with
    | error e => simp
    | ok st1 => simpa using run_chunks_append body A B st1

theorem run_chunks_block (d : Nat) (v : List (NVec α (d + 1))) (count : List Nat)
    (pre : List (NVec α (d + 1))) (x : NVec α (d + 1)) (hx : v.get? pre.length = some x) :
    ∀ (L : List (List Nat)) (y : NVec α (d + 1)) (post : List (NVec α (d + 1))),
    run_chunks (transfer_step (α := α) (d + 1) v (1 :: count))
        (L.map (fun s => pre.length :: s)) (pre ++ y :: post) =
      match run_chunks (transfer_step d x count) L y with
      | .error e => .error e
      | .ok y1 => .ok (pre ++ y1 :: post)
  | [], y, post => by simp [run_chunks]
  | s :: L, y, post => by
    have hy : (pre ++ y :: post).get? pre.length = some y := by
      rw [List.get?_eq_getElem?, List.getElem?_append_right (le_refl _)]
      simp
    simp only [List.map_cons, run_chunks, transfer_step_succ d v _ _ x y hx hy]
    cases ht : transfer_step d x count s y with
    | error e => simp
    | ok y1 =>
      simp only
      have hset : List.set (pre ++ y :: post) pre.length y1 = pre ++ y1 :: post := by simp
      rw [hset]
      exact run_chunks_block d v count pre x hx L y1 post
theorem run_blocks (d : Nat) (count : List Nat) (L : List (List Nat))
    (v : List (NVec α (d + 1))) :
    ∀ (vtodo wtodo : List (NVec α (d + 1))),
    List.Forall₂ (fun x y => run_chunks (transfer_step (α := α) d x count) L y = .ok x)
      vtodo wtodo →
    ∀ (vdone : List (NVec α (d + 1))), v = vdone ++ vtodo →
    run_chunks (transfer_step (α := α) (d + 1) v (1 :: count))
        ((List.range' vdone.length vtodo.length).flatMap
          (fun i => L.map (fun s => i :: s)))
        (List.append (α := NVec α (d + 1)) vdone wtodo) = .ok v := by
  intro vtodo wtodo h
  induction h with
  | nil =>
    intro vdone hv
    simp [run_chunks, hv]
  | @cons x y vt wt hxy _ ih =>
    intro vdone hv
    have hx : v.get? vdone.length = some x := by
      rw [hv, List.get?_eq_getElem?, List.getElem?_append_right (le_refl _)]
      simp
    have hblock := run_chunks_block d v count vdone x hx L y wt
    rw [hxy] at hblock
    simp only [List.length_cons, List.range'_succ, List.flatMap_cons, run_chunks_append]
    have happ : List.append (α := NVec α (d + 1)) vdone (y :: wt) = vdone ++ y :: wt := rfl
    rw [happ, hblock]
    simp only
    have := ih (vdone ++ [x]) (by simp [hv])
    simpa using this

theorem length_extent_of_pos : ∀ (d : Nat) (v : NVec α (d + 1)) (size : List Nat),
    get_extent (d + 1) v = .ok size → (∀ x ∈ size, 1 ≤ x) → size.length = d + 1
  | 0, v, size, h, _ => by
    rw [get_extent_one] at h
    injection h with h
    subst h
    rfl
  | d + 1, v, size, h, hpos => by
    match v, h with
    | [], h =>
      rw [get_extent_nil] at h
      injection h with h
      subst h
      have := hpos 0 (by simp)
      omega
    | v0 :: rest, h =>
      obtain ⟨t, h0, _, rfl⟩ := get_extent_cons_ok d v0 rest size h
      have := length_extent_of_pos d v0 t h0 (fun x hx => hpos x (List.mem_cons_of_mem _ hx))
      simp [this]

theorem get_extent_succ_ok (d : Nat) (v : List (NVec α (d + 1))) (size : List Nat)
    (h : get_extent (α := α) (d + 1 + 1) v = .ok size) (hpos : ∀ x ∈ size, 1 ≤ x) :
    ∃ t, size = v.length :: t ∧ 1 ≤ v.length ∧ ∀ x ∈ v, get_extent (d + 1) x = .ok t := by
  match v, h with
  | [], h =>
    rw [get_extent_nil] at h
    injection h with h
    subst h
    have := hpos 0 (by simp)
    omega
  | v0 :: rest, h =>
    obtain ⟨t, h0, hall, rfl⟩ := get_extent_cons_ok d v0 rest size h
    refine ⟨t, rfl, by simp, ?_⟩
    intro x hx
    rcases List.mem_cons.1 hx with rfl | hx
    · exact h0
    · exact hall x hx

theorem transfer_rows : ∀ (d : Nat) (v w : NVec α (d + 1)) (size count : List Nat),
    get_extent (d + 1) v = .ok size → get_extent (d + 1) w = .ok size →
    (∀ x ∈ size, 1 ≤ x) → get_offset (d + 1) v = .ok count →
    run_chunks (transfer_step d v count) ((rowMajor size.dropLast).map (fun r => r ++ [0])) w
      = .ok v
  | 0, v, w, size, count, hv, hw, hpos, hc => by
    rw [get_extent_one] at hv hw
    rw [get_offset_one] at hc
    injection hv with hv
    injection hw with hw
    injection hc with hc
    subst hv hc
    have hwl : List.length (α := α) w = List.length (α := α) v := by
      simpa using hw
    have hvl : 1 ≤ List.length (α := α) v := hpos _ (by simp)
    have := transfer_step_zero v w hvl hwl
    simp only [List.dropLast_single, rowMajor, List.map_cons, List.map_nil, List.nil_append,
      run_chunks, this]
  | d + 1, v, w, size, count, hv, hw, hpos, hc => by
    obtain ⟨t, hsize, hvlen, hvall⟩ := get_extent_succ_ok d v size hv hpos
    obtain ⟨t', hsize', _, hwall⟩ := get_extent_succ_ok d w size hw hpos
    have hlen : List.length (α := NVec α (d + 1)) w = List.length (α := NVec α (d + 1)) v := by
      rw [hsize] at hsize'
      injection hsize' with h1 _
      exact h1.symm
    have htt : t = t' := by
      rw [hsize] at hsize'
      injection hsize' with _ h2
    subst htt
    have htpos : ∀ x ∈ t, 1 ≤ x := fun x hx => hpos x (by rw [hsize]; exact List.mem_cons_of_mem _ hx)
    match v, hv, hc, hvlen, hvall, hsize, hlen with
    | v0 :: vrest, hv, hc, _, hvall, hsize, hlen =>
      have h0 := hvall v0 (List.mem_cons_self _ _)
      have htne : t ≠ [] := get_extent_ne_nil (d + 1) v0 t h0
      rw [get_offset_cons, get_offset_formula (d + 1) v0 t h0] at hc
      injection hc with hc
      subst hc
      have hoff : ∀ x ∈ v0 :: vrest, get_offset (d + 1) x =
          .ok (List.replicate (t.length - 1) 1 ++ List.drop (t.length - 1) t) :=
        fun x hx => get_offset_formula (d + 1) x t (hvall x hx)
      have hF : List.Forall₂ (fun x y => run_chunks (transfer_step (α := α) d x
          (List.replicate (t.length - 1) 1 ++ List.drop (t.length - 1) t))
          ((rowMajor t.dropLast).map (fun r => r ++ [0])) y = .ok x) (v0 :: vrest) w := by
        rw [List.forall₂_iff_zip]
        refine ⟨hlen.symm, ?_⟩
        intro x y hxy
        obtain ⟨hx, hy⟩ := List.of_mem_zip hxy
        exact transfer_rows d x y t _ (hvall x hx) (hwall y hy) htpos (hoff x hx)
      have := run_blocks d _ _ (v0 :: vrest) (v0 :: vrest) w hF [] rfl
      have hdl : size.dropLast = (v0 :: vrest).length :: t.dropLast := by
        rw [hsize]
        cases t with
        | nil => exact absurd rfl htne
        | cons a t => rfl
      rw [hdl]
      simp only [rowMajor, List.flatMap, List.map_flatten, List.map_map, Function.comp_def,
        List.cons_append]
      simp only [List.length_nil, List.flatMap, List.map_map, ← List.range_eq_range',
        Function.comp_def, List.append_eq, List.nil_append, List.cons_append] at this
      exact this

theorem std_equal_of_length_eq : ∀ (t u : List Nat), t.length = u.length →
    std_equal t u = .ok (decide (t = u))
  | [], [], _ => by simp [std_equal]
  | [], _ :: _, h => by simp at h
  | _ :: _, [], h => by simp at h
  | a :: t, b :: u, h => by
    have ih := std_equal_of_length_eq t u (by simpa using h)
    simp only [std_equal, ih, List.cons.injEq, Bool.decide_and]

theorem rowMajor_replicate_one : ∀ (k : Nat),
    rowMajor (List.replicate k 1) = [List.replicate k 0]
  | 0 => rfl
  | k + 1 => by
    simp [List.replicate_succ, rowMajor, rowMajor_replicate_one k, List.range_succ]

theorem rowMajor_append_ones (k : Nat) : ∀ (dims : List Nat),
    rowMajor (dims ++ List.replicate k 1) =
      (rowMajor dims).map (fun r => r ++ List.replicate k 0)
  | [] => by simp [rowMajor, rowMajor_replicate_one]
  | n :: dims => by
    rw [List.cons_append, rowMajor, rowMajor_append_ones k dims]
    simp only [rowMajor, List.flatMap, List.map_flatten, List.map_map, Function.comp_def,
      List.cons_append]

theorem prod_take_le (size : List Nat) (hsize : ∀ x ∈ size, 1 ≤ x) (k : Nat) :
    (size.take k).prod ≤ size.prod := by
  have h : size.prod = (size.take k).prod * (size.drop k).prod := by
    rw [← List.prod_append, List.take_append_drop]
  have h1 : 1 ≤ (size.drop k).prod := by
    apply List.one_le_prod_of_one_le
    intro x hx
    exact hsize x (List.mem_of_mem_drop hx)
  rw [h]
  exact Nat.le_mul_of_pos_right _ h1

theorem dropLast_eq_take_append_ones (size : List Nat) (last : Nat)
    (hlast : last + 1 ≤ size.length - 1)
    (h : ∀ j, last < j → j < size.length - 1 → size.getD j 0 = 1) :
    size.dropLast = size.take (last + 1) ++ List.replicate (size.length - 1 - (last + 1)) 1 := by
  apply List.ext_getElem?
  intro i
  by_cases hi : i < size.length - 1
  · by_cases hi2 : i < last + 1
    · rw [List.getElem?_append_left (by rw [List.length_take]; omega)]
      simp [List.getElem?_take, hi2, List.dropLast_eq_take, hi]
    · rw [List.getElem?_append_right (by rw [List.length_take]; omega)]
      have h1 := h i (by omega) hi
      have hil : i < size.length := by omega
      simp only [List.getD_eq_getElem?_getD, List.getElem?_eq_getElem hil, Option.getD_some]
        at h1
      have hlt : i - (List.take (last + 1) size).length < size.length - 1 - (last + 1) := by
        rw [List.length_take]; omega
      rw [List.getElem?_replicate, if_pos hlt]
      simp [List.dropLast_eq_take, List.getElem?_take, hi, List.getElem?_eq_getElem hil, h1]
  · rw [List.getElem?_eq_none (by simp; omega), List.getElem?_eq_none (by
      simp only [List.length_append, List.length_take, List.length_replicate]; omega)]
theorem run_chunks_single {σ : Type} (body : List Nat → σ → Except Err σ) (s : List Nat)
    (st : σ) : run_chunks body [s] st = body s st := by
  simp only [run_chunks]
  cases body s st <;> rfl

theorem chunk_schedule {σ : Type} (body : List Nat → σ → Except Err σ) (size : List Nat)
    (hd : 1 ≤ size.length) (hpos : ∀ x ∈ size, 1 ≤ x) :
    (List.replicate (size.length - 1) 1 ++ List.drop (size.length - 1) size = size →
      ∀ st, body (List.replicate size.length 0) st =
        run_chunks body ((rowMajor size.dropLast).map (fun r => r ++ [0])) st) ∧
    (List.replicate (size.length - 1) 1 ++ List.drop (size.length - 1) size ≠ size →
      ∃ last, find_last size
          (List.replicate (size.length - 1) 1 ++ List.drop (size.length - 1) size)
          ((List.replicate (size.length - 1) 1 ++ List.drop (size.length - 1) size).length - 1)
          = .ok last ∧
        ∀ (fuel : Nat) (st : σ), size.prod ≤ fuel →
          chunk_loop body size last fuel (List.replicate size.length 0) st =
            run_chunks body ((rowMajor size.dropLast).map (fun r => r ++ [0])) st) := by
  have hclen : size.length =
      (List.replicate (size.length - 1) 1 ++ List.drop (size.length - 1) size).length := by
    simp only [List.length_append, List.length_replicate, List.length_drop]
    omega
  have hsplit : size = size.take (size.length - 1) ++ size.drop (size.length - 1) :=
    (List.take_append_drop _ _).symm
  constructor
  · intro heq st
    have hdl : size.dropLast = List.replicate (size.length - 1) 1 := by
      rw [List.dropLast_eq_take]
      exact (List.append_cancel_right (heq.trans hsplit)).symm
    have hz : List.replicate (size.length - 1) 0 ++ [0] = List.replicate size.length 0 := by
      obtain ⟨k, hk⟩ : ∃ k, size.length = k + 1 := ⟨size.length - 1, by omega⟩
      rw [hk]
      simp [List.replicate_succ']
    rw [hdl, rowMajor_replicate_one]
    simp only [List.map_cons, List.map_nil, run_chunks_single, hz]
  · intro heq
    obtain ⟨last, h1, h2, h3, h4, h5⟩ :=
      chunk_loop_walk body size _ hclen hd hpos heq
    refine ⟨last, h1, ?_⟩
    intro fuel st hfuel
    rw [h5 fuel st (le_trans (prod_take_le size hpos _) hfuel)]
    -- the last axis is transferred whole
    have hlastd : (List.replicate (size.length - 1) 1 ++ List.drop (size.length - 1) size).getD
        (size.length - 1) 0 = size.getD (size.length - 1) 0 := by
      have hl : size.length - 1 < size.length := by omega
      rw [List.getD_append_right _ _ _ _ (by simp)]
      simp [List.getD_eq_getElem?_getD, List.getElem?_eq_getElem hl]
    have hlt : last < size.length - 1 := by
      rcases Nat.lt_or_ge last (size.length - 1) with h | h
      · exact h
      · have : last = size.length - 1 := by omega
        subst this
        exact absurd hlastd h3
    have hones : ∀ j, last < j → j < size.length - 1 → size.getD j 0 = 1 := by
      intro j hj1 hj2
      have := h4 j hj1 (by omega)
      rw [← this, List.getD_append _ _ _ _ (by simpa using hj2)]
      simp [List.getD_eq_getElem?_getD, List.getElem?_replicate, hj2]
    have hdl := dropLast_eq_take_append_ones size last (by omega) hones
    rw [hdl, rowMajor_append_ones, List.map_map]
    have hz : ∀ r : List Nat, r ++ List.replicate (size.length - (last + 1)) 0 =
        (r ++ List.replicate (size.length - 1 - (last + 1)) 0) ++ [0] := by
      intro r
      have : size.length - (last + 1) = (size.length - 1 - (last + 1)) + 1 := by omega
      rw [this, List.replicate_succ', List.append_assoc]
    simp only [hz, Function.comp_def]

/-- C1. Round trip through the adaptation layer: for a rectangular nested `std::vector` `v`
of native numeric scalars (depth at least 1, every extent at least 1) with
`size = get_extent(v)` and `count = get_offset(v)`, and any `w` of the same type,
`set_extent(w, size)` succeeds, and delivering for every start offset of the transfer (the
single start 0 when `count = size`, the starts of the chunk odometer otherwise) the chunk of
`get_data(v, start)` to `set_data(w, chunk, start, count)` ends with `w = v`. The sized
target has the extent and offset of `v`, so writer and reader walk the same chunks. -/
theorem transfer_roundtrip (zero : α) (d : Nat) (v w : NVec α (d + 1)) (size : List Nat)
    (hv : get_extent (d + 1) v = .ok size) (hpos : ∀ x ∈ size, 1 ≤ x) :
    (∃ w1 count, set_extent zero (d + 1) w size = .ok w1 ∧
      get_offset (d + 1) v = .ok count ∧ get_extent (d + 1) w1 = .ok size ∧
      get_offset (d + 1) w1 = .ok count) ∧
    ∀ fuel, size.prod ≤ fuel → transfer zero fuel d v w = .ok v := by
  have hlen : size.length = d + 1 := length_extent_of_pos d v size hv hpos
  obtain ⟨w1, hw1⟩ := (set_extent_dims_aux zero d w size hpos).1 hlen
  have hew1 : get_extent (d + 1) w1 = .ok size :=
    get_extent_set_extent_aux zero d w w1 size hw1
      (fun x hx => hpos x (List.mem_of_mem_dropLast hx))
  have hcount := get_offset_formula (d + 1) v size hv
  have hcount1 := get_offset_formula (d + 1) w1 size hew1
  refine ⟨⟨w1, _, hw1, hcount, hew1, hcount1⟩, ?_⟩
  intro fuel hfuel
  have hrows := transfer_rows d v w1 size _ hv hew1 hpos hcount
  have hclen : size.length =
      (List.replicate (size.length - 1) 1 ++ List.drop (size.length - 1) size).length := by
    simp only [List.length_append, List.length_replicate, List.length_drop]
    omega
  obtain ⟨hbulk, hloop⟩ := chunk_schedule (transfer_step d v
    (List.replicate (size.length - 1) 1 ++ List.drop (size.length - 1) size)) size
    (by omega) hpos
  simp only [transfer, hv, hcount, hw1, std_equal_of_length_eq _ _ hclen.symm]
  by_cases heq : List.replicate (size.length - 1) 1 ++ List.drop (size.length - 1) size = size
  · -- one bulk step
    have := hbulk heq w1
    rw [hrows] at this
    simp only [heq, decide_True]
    rw [heq] at this
    exact this
  · -- chunk loop
    obtain ⟨last, h1, h5⟩ := hloop heq
    simp only [heq, decide_False, h1]
    rw [h5 fuel w1 hfuel]
    exact hrows

/-- Instance of `transfer_roundtrip` at a concrete input. -/
theorem transfer_roundtrip_witness :
    (∃ w1 count, set_extent (0 : Int) 2 ([[9]] : List (List Int)) [2, 3] = .ok w1 ∧
      get_offset (α := Int) 2 ([[1, 2, 3], [4, 5, 6]] : List (List Int)) = .ok count ∧
      get_extent (α := Int) 2 w1 = .ok [2, 3] ∧ get_offset (α := Int) 2 w1 = .ok count) ∧
    ∀ fuel, [2, 3].prod ≤ fuel →
      transfer (0 : Int) fuel 1 ([[1, 2, 3], [4, 5, 6]] : List (List Int))
        ([[9]] : List (List Int)) = .ok ([[1, 2, 3], [4, 5, 6]] : List (List Int)) :=
  transfer_roundtrip (0 : Int) 1 ([[1, 2, 3], [4, 5, 6]] : List (List Int))
    ([[9]] : List (List Int)) [2, 3] rfl (by decide)

/-! ## Theorems: the `std::vector` writer -/

theorem is_vectorizable_loop_true {β : Type} (vect : β → Except Err Bool)
    (ext : β → Except Err (List Nat)) (v0 : β) (a : Nat) (t : List Nat)
    (h0 : ext v0 = .ok (a :: t)) :
    ∀ (xs : List β), (∀ x ∈ xs, vect x = .ok true ∧ ∃ t', ext x = .ok (a :: t')) →
    is_vectorizable_loop vect ext v0 xs = .ok true
  | [], _ => rfl
  | x :: xs, h => by
    obtain ⟨hx, t', hx'⟩ := h x (List.mem_cons_self _ _)
    have ih := is_vectorizable_loop_true vect ext v0 a t h0 xs
      (fun y hy => h y (List.mem_cons_of_mem _ hy))
    simp [is_vectorizable_loop, hx, h0, hx', ih]

theorem is_vectorizable_one (v : NVec α 1) : is_vectorizable 1 v = .ok true := by
  match v with
  | [] => rfl
  | v0 :: rest =>
    simp only [is_vectorizable]
    exact is_vectorizable_loop_true _ _ v0 1 [] rfl _ (fun x _ => ⟨rfl, [], rfl⟩)

theorem is_vectorizable_of_extent : ∀ (d : Nat) (v : NVec α d) (e : List Nat),
    get_extent d v = .ok e → is_vectorizable d v = .ok true
  | 0, _, _, _ => rfl
  | 1, v, _, _ => is_vectorizable_one v
  | d + 2, v, e, h => by
    match v, h with
    | [], _ => rfl
    | v0 :: rest, h =>
      obtain ⟨t, h0, hall, _⟩ := get_extent_cons_ok d v0 rest e h
      have htne := get_extent_ne_nil (d + 1) v0 t h0
      match t, htne with
      | a :: t', _ =>
        simp only [is_vectorizable]
        apply is_vectorizable_loop_true _ _ v0 a t' h0
        intro x hx
        have hxe : get_extent (d + 1) x = .ok (a :: t') := by
          rcases List.mem_cons.1 hx with rfl | hx
          · exact h0
          · exact hall x hx
        exact ⟨is_vectorizable_of_extent (d + 1) x _ hxe, t', hxe⟩

theorem run_chunks_ok_of {σ τ : Type} (b1 : List Nat → σ → Except Err σ)
    (b2 : List Nat → τ → Except Err τ)
    (h : ∀ s st st1, b1 s st = .ok st1 → ∀ a, ∃ a1, b2 s a = .ok a1) :
    ∀ (L : List (List Nat)) (st st1 : σ), run_chunks b1 L st = .ok st1 →
      ∀ a, ∃ a1, run_chunks b2 L a = .ok a1
  | [], _, _, _, a => ⟨a, rfl⟩
  | s :: L, st, st1, hr, a => by
    simp only [run_chunks] at hr
    cases hb : b1 s st with
    | error e => rw [hb] at hr; cases hr
    | ok st2 =>
      rw [hb] at hr
      obtain ⟨a1, ha1⟩ := h s st st2 hb a
      obtain ⟨a2, ha2⟩ := run_chunks_ok_of b1 b2 h L st2 st1 hr a1
      exact ⟨a2, by simp [run_chunks, ha1, ha2]⟩

theorem write_slab_of_transfer_step (d : Nat) (v w w1 : NVec α (d + 1)) (p : String)
    (count s : List Nat) (h : transfer_step d v count s w = .ok w1) (a : Archive α) :
    ∃ a1, write_slab d v p count s a = .ok a1 := by
  simp only [transfer_step] at h
  cases hg : get_data d v s with
  | error e => rw [hg] at h; cases h
  | ok ptr =>
    rw [hg] at h
    cases hr : ptr.read count.prod with
    | error e => simp only [hr] at h; cases h
    | ok chunk =>
      simp only [write_slab, hg, hr]
      exact ⟨_, rfl⟩

theorem one_le_sum (size : List Nat) (hd : 1 ≤ size.length) (hpos : ∀ x ∈ size, 1 ≤ x) :
    1 ≤ size.sum := by
  match size, hd with
  | a :: t, _ =>
    have := hpos a (List.mem_cons_self _ _)
    simp only [List.sum_cons]
    omega

theorem archive_set_data_rect (fuel : Nat) (ar : Archive α) (p : String) (d : Nat)
    (v : NVec α (d + 1)) (size : List Nat) (hv : get_extent (d + 1) v = .ok size)
    (hpos : ∀ x ∈ size, 1 ≤ x)
    (hfuel : List.replicate (size.length - 1) 1 ++ List.drop (size.length - 1) size = size ∨
      size.prod ≤ fuel) :
    ∃ ar1, archive_set_data fuel ar p (d + 1) v = .ok ar1 := by
  have hlen : size.length = d + 1 := length_extent_of_pos d v size hv hpos
  have hcount := get_offset_formula (d + 1) v size hv
  have hrows := transfer_rows d v v size _ hv hv hpos hcount
  have hclen : size.length =
      (List.replicate (size.length - 1) 1 ++ List.drop (size.length - 1) size).length := by
    simp only [List.length_append, List.length_replicate, List.length_drop]
    omega
  have hsum : ¬ (size.sum = 0) := by
    have := one_le_sum size (by omega) hpos
    omega
  simp only [archive_set_data, hv, hcount, beq_iff_eq, hsum, if_false,
    std_equal_of_length_eq _ _ hclen.symm]
  by_cases heq : List.replicate (size.length - 1) 1 ++ List.drop (size.length - 1) size = size
  · have hb := (chunk_schedule (transfer_step d v
      (List.replicate (size.length - 1) 1 ++ List.drop (size.length - 1) size)) size
      (by omega) hpos).1 heq v
    rw [hrows] at hb
    simp only [heq, decide_True]
    rw [heq] at hb
    simp only [transfer_step] at hb
    cases hg : get_data d v (List.replicate size.length 0) with
    | error e => rw [hg] at hb; cases hb
    | ok ptr =>
      rw [hg] at hb
      cases hr : ptr.read size.prod with
      | error e => simp only [hr] at hb; cases hb
      | ok chunk =>
        simp only [hr]
        exact ⟨_, rfl⟩
  · obtain ⟨last, h1, h5⟩ := (chunk_schedule (write_slab d v p
      (List.replicate (size.length - 1) 1 ++ List.drop (size.length - 1) size)) size
      (by omega) hpos).2 heq
    simp only [heq, decide_False, h1]
    rw [h5 fuel _ (hfuel.resolve_left heq)]
    exact run_chunks_ok_of _ _
      (fun s st st1 h a => write_slab_of_transfer_step d v st st1 p _ s h a) _ v v hrows _
theorem digitChar_ne_at (m : Nat) : Nat.digitChar m ≠ '@' := by
  by_cases h : m < 16
  · interval_cases m <;> decide
  · have : Nat.digitChar m = '*' := by
      unfold Nat.digitChar
      repeat (rw [if_neg (by omega)])
    rw [this]
    decide

theorem toDigitsCore_no_at : ∀ (fuel n : Nat) (ds : List Char), '@' ∉ ds →
    '@' ∉ Nat.toDigitsCore 10 fuel n ds
  | 0, _, ds, h => by simpa [Nat.toDigitsCore] using h
  | fuel + 1, n, ds, h => by
    have hd : '@' ∉ Nat.digitChar (n % 10) :: ds := by
      simp only [List.mem_cons, not_or]
      exact ⟨fun hc => digitChar_ne_at _ hc.symm, h⟩
    simp only [Nat.toDigitsCore]
    split
    · exact hd
    · exact toDigitsCore_no_at fuel _ _ hd

theorem is_attribute_path_child (p : String) (i : Nat) :
    is_attribute_path (p ++ "/" ++ toString i) = is_attribute_path p := by
  have h1 : '@' ∉ (toString i).data := by
    show '@' ∉ Nat.toDigits 10 i
    exact toDigitsCore_no_at _ _ _ (by simp)
  have h2 : ("/" : String).data = ['/'] := rfl
  simp only [is_attribute_path, String.data_append, h2, List.contains_eq_any_beq, List.any_append,
    List.any_cons, List.any_nil, Bool.or_false]
  have h3 : (toString i).data.any (fun x => '@' == x) = false := by
    rw [List.any_eq_false]
    intro c hc heq
    simp only [beq_iff_eq] at heq
    subst heq
    exact h1 hc
  have h4 : ('@' == '/') = false := by decide
  rw [h3, h4]
  simp

theorem serialize_loop_ok {β : Type} (ser : Archive α → String → β → Except Err (Archive α))
    (p : String) (hp : is_attribute_path p = false) :
    ∀ (xs : List β), (∀ x ∈ xs, ∀ a q, is_attribute_path q = false → ∃ a1, ser a q x = .ok a1) →
    ∀ (i : Nat) (ar : Archive α), ∃ ar1, serialize_loop ser p i xs ar = .ok ar1
  | [], _, _, ar => ⟨ar, rfl⟩
  | x :: xs, h, i, ar => by
    obtain ⟨a1, ha1⟩ := h x (List.mem_cons_self _ _) ar (p ++ "/" ++ toString i)
      (by rw [is_attribute_path_child]; exact hp)
    obtain ⟨a2, ha2⟩ := serialize_loop_ok ser p hp xs
      (fun y hy => h y (List.mem_cons_of_mem _ hy)) (i + 1) a1
    exact ⟨a2, by simp [serialize_loop, ha1, ha2]⟩

theorem serialize_rect_ok
    (attr : Archive α → String → (d : Nat) → NVec α d → Except Err (Archive α))
    (fuel : Nat) (ar : Archive α) (p : String) (hp : is_attribute_path p = false) (d : Nat)
    (v : NVec α (d + 1)) (size : List Nat) (hv : get_extent (d + 1) v = .ok size)
    (hpos : ∀ x ∈ size, 1 ≤ x)
    (hfuel : List.replicate (size.length - 1) 1 ++ List.drop (size.length - 1) size = size ∨
      size.prod ≤ fuel) :
    ∃ ar1, serialize attr fuel (d + 1) ar p v = .ok ar1 := by
  have hne : List.length (α := NVec α d) v ≠ 0 := by
    intro h0
    have hnil : (v : List (NVec α d)) = [] := List.length_eq_zero.1 h0
    rw [hnil, get_extent_nil] at hv
    injection hv with hv
    subst hv
    have := hpos 0 (by simp)
    omega
  simp only [serialize, beq_iff_eq, hne, if_false,
    is_vectorizable_of_extent (d + 1) v size hv, oarchive_serialize, hp, Bool.false_eq_true]
  exact archive_set_data_rect fuel _ _ d v size hv hpos hfuel

theorem serialize_one_ok
    (attr : Archive α → String → (d : Nat) → NVec α d → Except Err (Archive α))
    (fuel : Nat) (ar : Archive α) (p : String) (hp : is_attribute_path p = false)
    (x : NVec α 1) : ∃ ar1, serialize attr fuel 1 ar p x = .ok ar1 := by
  match x with
  | [] =>
    simp only [serialize, List.length_nil, beq_self_eq_true, if_true, oarchive_serialize, hp,
      Bool.false_eq_true, if_false, archive_set_data, get_extent_nil, get_offset_nil,
      List.sum_cons, List.sum_nil]
    exact ⟨_, rfl⟩
  | a :: r =>
    exact serialize_rect_ok attr fuel ar p hp 0 (a :: r) [(a :: r).length]
      (get_extent_one (a :: r)) (by simp) (Or.inl (by simp))

/-- C10 (as stated, refuted). The two-level vector `[[1, 2], [3]]` has elements of differing
sub-shapes, yet writing it through the `serialize` dispatch at the dataset path `/x`
succeeds: the elements are written to `/x/0` and `/x/1`. -/
theorem serialize_ragged_counterexample :
    get_extent (α := Int) 1 ([1, 2] : List Int) ≠ get_extent (α := Int) 1 ([3] : List Int) ∧
    (∃ ar1, serialize (α := Int) (fun _ _ _ _ => .error Err.RuntimeError) 0 2
      { context := "", groups := ["/"], datasets := [], log := [] } "/x"
      ([[1, 2], [3]] : List (List Int)) = .ok ar1) ∧
    serialize (α := Int) (fun _ _ _ _ => .error Err.RuntimeError) 0 2
      { context := "", groups := ["/"], datasets := [], log := [] } "/x"
      ([[1, 2], [3]] : List (List Int)) ≠ .error Err.RangeError := by
  have h : ∃ ar1, serialize (α := Int) (fun _ _ _ _ => .error Err.RuntimeError) 0 2
      { context := "", groups := ["/"], datasets := [], log := [] } "/x"
      ([[1, 2], [3]] : List (List Int)) = .ok ar1 := ⟨_, rfl⟩
  refine ⟨?_, h, ?_⟩
  · rw [get_extent_one, get_extent_one]
    decide
  · obtain ⟨ar1, h1⟩ := h
    rw [h1]
    intro hc
    cases hc

/-- C10 (amended). Writing through the `serialize` dispatch for `std::vector`. At a dataset
path (no `'@'`): a container whose elements all share the same sub-shape, with every extent
at least 1, is written successfully as one dataset; a vector of vectors of native scalars
whose elements differ in length is not vectorizable and is not rejected: any group or
dataset at the path is deleted and the elements are written one by one at the child paths
`p/0`, `p/1`, ..., which succeeds. At an attribute path a container that is not vectorizable
fails with RuntimeError. -/
theorem serialize_rectangularity
    (attr : Archive α → String → (d : Nat) → NVec α d → Except Err (Archive α))
    (fuel : Nat) (ar : Archive α) (p : String) :
    (is_attribute_path p = false →
      ∀ (d : Nat) (v : NVec α (d + 1)) (size : List Nat), get_extent (d + 1) v = .ok size →
      (∀ x ∈ size, 1 ≤ x) → size.prod ≤ fuel →
      ∃ ar1, serialize attr fuel (d + 1) ar p v = .ok ar1) ∧
    (is_attribute_path p = false →
      ∀ (v : NVec α 2), is_vectorizable 2 v = .ok false →
      serialize attr fuel 2 ar p v =
        serialize_loop (fun a q x => serialize attr fuel 1 a q x) p 0 v
          (if (if ar.is_group p then ar.delete_group p else ar).is_data p then
            (if ar.is_group p then ar.delete_group p else ar).delete_data p
          else (if ar.is_group p then ar.delete_group p else ar)) ∧
      ∃ ar1, serialize attr fuel 2 ar p v = .ok ar1) ∧
    (is_attribute_path p = true →
      ∀ (d : Nat) (v : NVec α (d + 1)), is_vectorizable (d + 1) v = .ok false →
      serialize attr fuel (d + 1) ar p v = .error Err.RuntimeError) := by
  refine ⟨?_, ?_, ?_⟩
  · intro hp d v size hv hpos hfuel
    exact serialize_rect_ok attr fuel ar p hp d v size hv hpos (Or.inr hfuel)
  · intro hp v hvec
    have hne : List.length (α := NVec α 1) v ≠ 0 := by
      intro h0
      have hnil : (v : List (NVec α 1)) = [] := List.length_eq_zero.1 h0
      rw [hnil] at hvec
      cases hvec
    have heq : serialize attr fuel 2 ar p v =
        serialize_loop (fun a q x => serialize attr fuel 1 a q x) p 0 v
          (if (if ar.is_group p then ar.delete_group p else ar).is_data p then
            (if ar.is_group p then ar.delete_group p else ar).delete_data p
          else (if ar.is_group p then ar.delete_group p else ar)) := by
      simp only [serialize, beq_iff_eq, hne, if_false, hvec, hp, Bool.false_eq_true]
    refine ⟨heq, ?_⟩
    rw [heq]
    exact serialize_loop_ok _ p hp v
      (fun x _ a q hq => serialize_one_ok attr fuel a q hq x) 0 _
  · intro hp d v hvec
    have hne : List.length (α := NVec α d) v ≠ 0 := by
      intro h0
      have hnil : (v : List (NVec α d)) = [] := List.length_eq_zero.1 h0
      rw [hnil] at hvec
      cases hvec
    simp only [serialize, beq_iff_eq, hne, if_false, hvec, hp, if_true]

/-- Instance of `serialize_rectangularity` at a concrete input. -/
theorem serialize_rectangularity_witness :
    ∃ ar1, serialize (α := Int) (fun _ _ _ _ => .error Err.RuntimeError) 6 2
      { context := "", groups := ["/"], datasets := [], log := [] } "/x"
      ([[1, 2, 3], [4, 5, 6]] : List (List Int)) = .ok ar1 :=
  (serialize_rectangularity (α := Int) (fun _ _ _ _ => .error Err.RuntimeError) 6
    { context := "", groups := ["/"], datasets := [], log := [] } "/x").1 (by decide)
    1 ([[1, 2, 3], [4, 5, 6]] : List (List Int)) [2, 3] rfl (by decide) (by decide)

/-! ## Theorems: decomposition of a vector that is not vectorizable -/

theorem serialize_loop_eq_write_each {β : Type}
    (ser : Archive α → String → β → Except Err (Archive α)) (p : String) :
    ∀ (xs : List β) (i : Nat) (ar : Archive α),
    serialize_loop ser p i xs ar =
      write_each ser (((List.range' i xs.length).map (fun j => p ++ "/" ++ toString j)).zip xs) ar
  | [], _, _ => rfl
  | x :: xs, i, ar => by
    simp only [serialize_loop, List.length_cons, List.range'_succ, List.map_cons, List.zip_cons_cons,
      write_each]
    cases h : ser ar (p ++ "/" ++ toString i) x with
    | error e => rfl
    | ok ar1 => exact serialize_loop_eq_write_each ser p xs (i + 1) ar1

theorem chunk_loop_write_slab_log (d : Nat) (v : NVec α (d + 1)) (p : String)
    (count size : List Nat) (last : Nat) :
    ∀ (fuel : Nat) (start : List Nat) (ar ar1 : Archive α),
    chunk_loop (write_slab d v p count) size last fuel start ar = .ok ar1 →
    ar1.context = ar.context ∧
      ∃ evs, ar1.log = ar.log ++ evs ∧ ∀ e ∈ evs, e.transfer_path = some p
  | 0, _, _, _, h => by simp [chunk_loop] at h
  | fuel + 1, start, ar, ar1, h => by
    simp only [chunk_loop] at h
    cases hb : write_slab d v p count start ar with
    | error e => rw [hb] at h; cases h
    | ok ar2 =>
      simp only [hb] at h
      have h2 : ar2.context = ar.context ∧
          ∃ ev, ar2.log = ar.log ++ [ev] ∧ ev.transfer_path = some p := by
        simp only [write_slab] at hb
        cases hg : get_data d v start with
        | error e => rw [hg] at hb; cases hb
        | ok ptr =>
          rw [hg] at hb
          cases hr : ptr.read count.prod with
          | error e => simp [hr] at hb
          | ok chunk =>
            simp only [hr, Except.ok.injEq] at hb
            subst hb
            exact ⟨rfl, _, rfl, rfl⟩
      obtain ⟨hc, ev, hl, hev⟩ := h2
      split_ifs at h
      · obtain ⟨hc1, evs, hl1, hevs⟩ := chunk_loop_write_slab_log d v p count size last fuel _ _ _ h
        refine ⟨hc1.trans hc, ev :: evs, ?_, ?_⟩
        · rw [hl1, hl]; simp
        · intro e he
          rcases List.mem_cons.1 he with rfl | he
          · exact hev
          · exact hevs e he
      · cases h
        exact ⟨hc, [ev], hl, by simpa using hev⟩
theorem cleared_group_log (ar : Archive α) (p : String) :
    (if ar.is_group p = true then ar.delete_group p else ar).context = ar.context ∧
      ∃ evs, (if ar.is_group p = true then ar.delete_group p else ar).log = ar.log ++ evs ∧
        ∀ e ∈ evs, e.transfer_path = none := by
  by_cases hg : ar.is_group p = true
  · simp only [hg, if_true]
    exact ⟨rfl, [Event.delete_group (ar.complete_path p)], rfl, by simp [Event.transfer_path]⟩
  · simp only [hg, if_false]
    exact ⟨rfl, [], by simp, by simp⟩

theorem archive_set_data_log (fuel : Nat) (ar : Archive α) (p : String) :
    ∀ (d : Nat) (v : NVec α d) (ar1 : Archive α), archive_set_data fuel ar p d v = .ok ar1 →
    ar1.context = ar.context ∧
      ∃ evs, ar1.log = ar.log ++ evs ∧ ∀ e ∈ evs, ∀ q, e.transfer_path = some q → q = p
  | 0, v, ar1, h => by
    obtain ⟨hc, evs0, hl0, hn0⟩ := cleared_group_log ar p
    simp only [archive_set_data, Except.ok.injEq] at h
    subst h
    refine ⟨hc, evs0 ++ [Event.create_data p Space.scalar,
      Event.write_all p (List.cons (α := α) v [])], ?_, ?_⟩
    · simp only [Archive.record, Archive.save_comitted_data, hl0, List.append_assoc,
        List.cons_append, List.nil_append]
    · intro e he q hq
      rcases List.mem_append.1 he with he | he
      · rw [hn0 e he] at hq; cases hq
      · simp only [List.mem_cons, List.mem_singleton, List.not_mem_nil, or_false] at he
        rcases he with rfl | rfl <;> simpa [Event.transfer_path] using hq.symm
  | d + 1, v, ar1, h => by
    obtain ⟨hc, evs0, hl0, hn0⟩ := cleared_group_log ar p
    simp only [archive_set_data] at h
    generalize (if ar.is_group p = true then ar.delete_group p else ar) = ar0 at h hc hl0
    cases he : get_extent (d + 1) v with
    | error e => simp [he] at h
    | ok size =>
      cases ho : get_offset (d + 1) v with
      | error e => simp [he, ho] at h
      | ok count =>
        simp only [he, ho] at h
        split_ifs at h with hs
        · simp only [Except.ok.injEq] at h
          subst h
          refine ⟨hc, evs0 ++ [Event.create_data p Space.null], ?_, ?_⟩
          · simp only [Archive.save_comitted_data, hl0, List.append_assoc]
          · intro e hm q hq
            rcases List.mem_append.1 hm with hm | hm
            · rw [hn0 e hm] at hq; cases hq
            · simp only [List.mem_singleton] at hm
              subst hm
              simpa [Event.transfer_path] using hq.symm
        · cases hq : std_equal count size with
          | error e => simp [hq] at h
          | ok b =>
            cases b with
            | true =>
              simp only [hq] at h
              cases hg : get_data d v (List.replicate size.length 0) with
              | error e => simp [hg] at h
              | ok ptr =>
                simp only [hg] at h
                cases hr : ptr.read size.prod with
                | error e => simp [hr] at h
                | ok data =>
                  simp only [hr, Except.ok.injEq] at h
                  subst h
                  refine ⟨hc, evs0 ++ [Event.create_data p (Space.simple size),
                    Event.write_all p data], ?_, ?_⟩
                  · simp only [Archive.record, Archive.save_comitted_data, hl0,
                      List.append_assoc, List.cons_append, List.nil_append]
                  · intro e hm q hq
                    rcases List.mem_append.1 hm with hm | hm
                    · rw [hn0 e hm] at hq; cases hq
                    · simp only [List.mem_cons, List.mem_singleton, List.not_mem_nil,
                        or_false] at hm
                      rcases hm with rfl | rfl <;> simpa [Event.transfer_path] using hq.symm
            | false =>
              simp only [hq] at h
              cases hf : find_last size count (count.length - 1) with
              | error e => simp [hf] at h
              | ok last =>
                simp only [hf] at h
                obtain ⟨hc1, evs, hl1, hevs⟩ :=
                  chunk_loop_write_slab_log d v p count size last fuel _ _ _ h
                refine ⟨hc1.trans hc, evs0 ++ Event.create_data p (Space.simple size) :: evs,
                  ?_, ?_⟩
                · rw [hl1]
                  simp only [Archive.save_comitted_data, hl0, List.append_assoc,
                    List.cons_append, List.nil_append]
                · intro e hm q hq
                  rcases List.mem_append.1 hm with hm | hm
                  · rw [hn0 e hm] at hq; cases hq
                  · rcases List.mem_cons.1 hm with rfl | hm
                    · simpa [Event.transfer_path] using hq.symm
                    · rw [hevs e hm] at hq
                      simpa using hq.symm
theorem complete_path_congr (a b : Archive α) (h : a.context = b.context) (q : String) :
    a.complete_path q = b.complete_path q := by
  simp only [Archive.complete_path, h]

theorem serialize_loop_log {β : Type} (ser : Archive α → String → β → Except Err (Archive α))
    (p : String) (hp : is_attribute_path p = false) :
    ∀ (xs : List β),
    (∀ x ∈ xs, ∀ (a : Archive α) (q : String) (a1 : Archive α), is_attribute_path q = false →
      ser a q x = .ok a1 → a1.context = a.context ∧
        ∃ evs, a1.log = a.log ++ evs ∧
          ∀ e ∈ evs, ∀ r, e.transfer_path = some r → ∃ s : String, r = a.complete_path (q ++ s)) →
    ∀ (i : Nat) (ar ar1 : Archive α), serialize_loop ser p i xs ar = .ok ar1 →
    ar1.context = ar.context ∧
      ∃ evs, ar1.log = ar.log ++ evs ∧
        ∀ e ∈ evs, ∀ r, e.transfer_path = some r →
          ∃ s : String, s.data ≠ [] ∧ r = ar.complete_path (p ++ s)
  | [], _, _, ar, ar1, h => by
    simp only [serialize_loop, Except.ok.injEq] at h
    subst h
    exact ⟨rfl, [], by simp, by simp⟩
  | x :: xs, hx, i, ar, ar1, h => by
    simp only [serialize_loop] at h
    cases hs : ser ar (p ++ "/" ++ toString i) x with
    | error e => simp [hs] at h
    | ok a1 =>
      simp only [hs] at h
      obtain ⟨hc1, evs1, hl1, he1⟩ := hx x (List.mem_cons_self _ _) ar _ a1
        (by rw [is_attribute_path_child]; exact hp) hs
      obtain ⟨hc2, evs2, hl2, he2⟩ := serialize_loop_log ser p hp xs
        (fun y hy => hx y (List.mem_cons_of_mem _ hy)) (i + 1) a1 ar1 h
      refine ⟨hc2.trans hc1, evs1 ++ evs2, by rw [hl2, hl1, List.append_assoc], ?_⟩
      intro e he r hr
      rcases List.mem_append.1 he with he | he
      · obtain ⟨s, hs⟩ := he1 e he r hr
        refine ⟨"/" ++ toString i ++ s, ?_, ?_⟩
        · simp [String.data_append]
        · rw [hs, String.append_assoc, String.append_assoc, String.append_assoc]
      · obtain ⟨s, hne, hs⟩ := he2 e he r hr
        exact ⟨s, hne, by rw [hs, complete_path_congr a1 ar hc1]⟩

theorem oarchive_serialize_log
    (attr : Archive α → String → (d : Nat) → NVec α d → Except Err (Archive α))
    (fuel : Nat) (ar : Archive α) (q : String) (hq : is_attribute_path q = false) (d : Nat)
    (x : NVec α d) (ar1 : Archive α) (h : oarchive_serialize attr fuel ar q d x = .ok ar1) :
    ar1.context = ar.context ∧
      ∃ evs, ar1.log = ar.log ++ evs ∧
        ∀ e ∈ evs, ∀ r, e.transfer_path = some r → r = ar.complete_path q := by
  simp only [oarchive_serialize, hq, Bool.false_eq_true, if_false] at h
  exact archive_set_data_log fuel ar _ d x ar1 h

theorem serialize_transfer_paths
    (attr : Archive α → String → (d : Nat) → NVec α d → Except Err (Archive α))
    (fuel : Nat) :
    ∀ (d : Nat) (x : NVec α d) (ar : Archive α) (q : String) (ar1 : Archive α),
    is_attribute_path q = false → serialize attr fuel d ar q x = .ok ar1 →
    ar1.context = ar.context ∧
      ∃ evs, ar1.log = ar.log ++ evs ∧
        ∀ e ∈ evs, ∀ r, e.transfer_path = some r → ∃ s : String, r = ar.complete_path (q ++ s)
  | 0, x, ar, q, ar1, hq, h => by
    simp only [serialize] at h
    obtain ⟨hc, evs, hl, he⟩ := oarchive_serialize_log attr fuel ar q hq 0 x ar1 h
    exact ⟨hc, evs, hl, fun e hm r hr => ⟨"", by rw [he e hm r hr, String.append_empty]⟩⟩
  | d + 1, x, ar, q, ar1, hq, h => by
    obtain ⟨hc0, evs0, hl0, hn0⟩ := cleared_group_log ar q
    simp only [serialize] at h
    generalize (if ar.is_group q = true then ar.delete_group q else ar) = ar0 at h hc0 hl0
    have key : ∀ (dd : Nat) (y : NVec α dd), oarchive_serialize attr fuel ar0 q dd y = .ok ar1 →
        ar1.context = ar.context ∧
        ∃ evs, ar1.log = ar.log ++ evs ∧
          ∀ e ∈ evs, ∀ r, e.transfer_path = some r →
            ∃ s : String, r = ar.complete_path (q ++ s) := by
      intro dd y hy
      obtain ⟨hc, evs, hl, he⟩ := oarchive_serialize_log attr fuel ar0 q hq dd y ar1 hy
      refine ⟨hc.trans hc0, evs0 ++ evs, by rw [hl, hl0, List.append_assoc], ?_⟩
      intro e hm r hr
      rcases List.mem_append.1 hm with hm | hm
      · rw [hn0 e hm] at hr; cases hr
      · exact ⟨"", by rw [he e hm r hr, String.append_empty, complete_path_congr ar0 ar hc0]⟩
    by_cases hlen : (List.length (α := NVec α d) x == 0) = true
    · rw [if_pos hlen] at h
      exact key 1 _ h
    · rw [if_neg hlen] at h
      cases hv : is_vectorizable (d + 1) x with
      | error e => simp [hv] at h
      | ok b =>
        cases b with
        | true =>
          simp only [hv] at h
          exact key (d + 1) x h
        | false =>
          simp only [hv, hq, Bool.false_eq_true, if_false] at h
          have hc2 : (if ar0.is_data q = true then ar0.delete_data q else ar0).context =
              ar0.context := by split_ifs <;> rfl
          have hl2 : ∃ evs, (if ar0.is_data q = true then ar0.delete_data q else ar0).log =
              ar0.log ++ evs ∧ ∀ e ∈ evs, e.transfer_path = none := by
            by_cases hd : ar0.is_data q = true
            · simp only [hd, if_true]
              exact ⟨[Event.delete_data (ar0.complete_path q)], rfl,
                by simp [Event.transfer_path]⟩
            · simp only [hd, if_false]
              exact ⟨[], by simp, by simp⟩
          obtain ⟨evs2, hl2, hn2⟩ := hl2
          generalize (if ar0.is_data q = true then ar0.delete_data q else ar0) = ar2
            at h hc2 hl2
          obtain ⟨hc3, evs3, hl3, he3⟩ := serialize_loop_log
            (fun a q x => serialize attr fuel d a q x) q hq x
            (fun y _ a q1 a1 hq1 hs => serialize_transfer_paths attr fuel d y a q1 a1 hq1 hs)
            0 ar2 ar1 h
          refine ⟨(hc3.trans hc2).trans hc0, evs0 ++ (evs2 ++ evs3),
            by rw [hl3, hl2, hl0, List.append_assoc, List.append_assoc], ?_⟩
          intro e hm r hr
          rcases List.mem_append.1 hm with hm | hm
          · rw [hn0 e hm] at hr; cases hr
          · rcases List.mem_append.1 hm with hm | hm
            · rw [hn2 e hm] at hr; cases hr
            · obtain ⟨s, _, hs⟩ := he3 e hm r hr
              exact ⟨s, by rw [hs, complete_path_congr ar2 ar (hc2.trans hc0)]⟩
theorem complete_path_ne (ar : Archive α) (p s : String) (hp : p.data ≠ []) (hs : s.data ≠ []) :
    ar.complete_path (p ++ s) ≠ ar.complete_path p := by
  have hhead : (p ++ s).data.head? = p.data.head? := by
    rw [String.data_append]
    cases hpd : p.data with
    | nil => exact absurd hpd hp
    | cons c cs => rfl
  simp only [Archive.complete_path, hhead]
  intro h
  split_ifs at h
  · have := congrArg String.data h
    rw [String.data_append] at this
    exact hs (List.append_right_eq_self.1 this)
  · have := congrArg String.data h
    simp only [String.data_append, List.append_assoc] at this
    have h2 := List.append_cancel_left (List.append_cancel_left this)
    exact hs (List.append_right_eq_self.1 h2)

theorem cleared_path (ar : Archive α) (p : String) :
    ∃ ar2 : Archive α,
      ar2 = (if (if ar.is_group p = true then ar.delete_group p else ar).is_data p = true
        then (if ar.is_group p = true then ar.delete_group p else ar).delete_data p
        else (if ar.is_group p = true then ar.delete_group p else ar)) ∧
      ar2.is_group p = false ∧ ar2.is_data p = false ∧ ar2.context = ar.context ∧
      (∀ g ∈ ar2.groups, g ∈ ar.groups) ∧ (∀ g ∈ ar2.datasets, g ∈ ar.datasets) ∧
      ∃ dels, ar2.log = ar.log ++ dels ∧ ∀ e ∈ dels, e.transfer_path = none := by
  refine ⟨_, rfl, ?_⟩
  cases hg : ar.is_group p with
  | true =>
    simp only [if_true]
    cases hd : (ar.delete_group p).is_data p with
    | true =>
      simp only [if_true]
      refine ⟨?_, ?_, rfl, ?_, ?_, [Event.delete_group (ar.complete_path p),
        Event.delete_data (ar.complete_path p)], ?_, ?_⟩
      · simp [Archive.is_group, Archive.delete_data, Archive.delete_group, Archive.complete_path]
      · simp [Archive.is_data, Archive.delete_data, Archive.delete_group, Archive.complete_path]
      · intro g hg
        simp [Archive.delete_data, Archive.delete_group] at hg
        exact hg.1
      · intro g hg
        simp [Archive.delete_data, Archive.delete_group] at hg
        exact hg.1
      · simp [Archive.delete_data, Archive.delete_group, Archive.complete_path]
      · simp [Event.transfer_path]
    | false =>
      simp only [Bool.false_eq_true, if_false]
      refine ⟨?_, hd, rfl, ?_, ?_, [Event.delete_group (ar.complete_path p)],
        rfl, by simp [Event.transfer_path]⟩
      · simp [Archive.is_group, Archive.delete_group, Archive.complete_path]
      · intro g hg
        simp [Archive.delete_group] at hg
        exact hg.1
      · intro g hg
        simp [Archive.delete_group] at hg
        exact hg.1
  | false =>
    simp only [Bool.false_eq_true, if_false]
    cases hd : ar.is_data p with
    | true =>
      simp only [if_true]
      refine ⟨?_, ?_, rfl, ?_, ?_, [Event.delete_data (ar.complete_path p)],
        rfl, by simp [Event.transfer_path]⟩
      · simpa [Archive.is_group, Archive.delete_data, Archive.complete_path] using hg
      · simp [Archive.is_data, Archive.delete_data, Archive.complete_path]
      · intro g hg; exact hg
      · intro g hg
        simp [Archive.delete_data] at hg
        exact hg.1
    | false =>
      simp only [Bool.false_eq_true, if_false]
      refine ⟨hg, hd, ?_, ?_, ?_, [], ?_, ?_⟩ <;> simp
theorem serialize_not_vectorizable
    (attr : Archive α → String → (d : Nat) → NVec α d → Except Err (Archive α))
    (fuel d : Nat) (ar : Archive α) (p : String) (v : NVec α (d + 1))
    (hvec : is_vectorizable (d + 1) v = .ok false) :
    List.length (α := NVec α d) v ≠ 0 ∧
    (is_attribute_path p = true → serialize attr fuel (d + 1) ar p v = .error Err.RuntimeError) ∧
    (is_attribute_path p = false → serialize attr fuel (d + 1) ar p v =
      serialize_loop (fun a q x => serialize attr fuel d a q x) p 0 v
        (if (if ar.is_group p = true then ar.delete_group p else ar).is_data p = true
          then (if ar.is_group p = true then ar.delete_group p else ar).delete_data p
          else (if ar.is_group p = true then ar.delete_group p else ar))) := by
  have hne : List.length (α := NVec α d) v ≠ 0 := by
    intro h0
    have hnil : (v : List (NVec α d)) = [] := List.length_eq_zero.1 h0
    rw [hnil] at hvec
    cases hvec
  refine ⟨hne, ?_, ?_⟩
  · intro hp
    simp only [serialize, beq_iff_eq, hne, if_false, hvec, hp, if_true]
  · intro hp
    simp only [serialize, beq_iff_eq, hne, if_false, hvec, hp, Bool.false_eq_true]

/-- C11. A non-empty `std::vector` of `n` elements that is not vectorizable, written through
the `serialize` dispatch at a path `p`. If `p` contains `'@'` the write fails with
RuntimeError. Otherwise the elements are written to an archive `ar2` that holds neither a
group nor a dataset at `p` and differs from the archive before the write by deletions only;
the write is exactly the sequence of the element writes at the child paths `p/0`, `p/1`, ...,
`p/(n-1)` in increasing order; and, for a non-empty `p`, no effect of a successful write
creates a dataset at `p` or transfers data to it. -/
theorem serialize_decomposition
    (attr : Archive α → String → (d : Nat) → NVec α d → Except Err (Archive α))
    (fuel d : Nat) (ar : Archive α) (p : String) (v : NVec α (d + 1))
    (hvec : is_vectorizable (d + 1) v = .ok false) :
    1 ≤ List.length (α := NVec α d) v ∧
    (is_attribute_path p = true → serialize attr fuel (d + 1) ar p v = .error Err.RuntimeError) ∧
    (is_attribute_path p = false →
      ∃ ar2 : Archive α,
        ar2.is_group p = false ∧ ar2.is_data p = false ∧ ar2.context = ar.context ∧
        (∀ g ∈ ar2.groups, g ∈ ar.groups) ∧ (∀ g ∈ ar2.datasets, g ∈ ar.datasets) ∧
        (∃ dels, ar2.log = ar.log ++ dels ∧ ∀ e ∈ dels, e.transfer_path = none) ∧
        serialize attr fuel (d + 1) ar p v =
          write_each (serialize attr fuel d)
            ((child_paths p (List.length (α := NVec α d) v)).zip v) ar2 ∧
        (p.data ≠ [] → ∀ ar1, serialize attr fuel (d + 1) ar p v = .ok ar1 →
          ∃ evs, ar1.log = ar.log ++ evs ∧
            ∀ e ∈ evs, e.transfer_path ≠ some (ar.complete_path p))) := by
  obtain ⟨hne, hattr, hdata⟩ := serialize_not_vectorizable attr fuel d ar p v hvec
  refine ⟨Nat.one_le_iff_ne_zero.2 hne, hattr, ?_⟩
  intro hp
  obtain ⟨ar2, har2, hg, hd, hc, hgs, hds, dels, hl, hdel⟩ := cleared_path ar p
  have heq := hdata hp
  rw [← har2] at heq
  refine ⟨ar2, hg, hd, hc, hgs, hds, ⟨dels, hl, hdel⟩, ?_, ?_⟩
  · rw [heq, serialize_loop_eq_write_each, child_paths, List.range_eq_range']
  · intro hpne ar1 hok
    rw [heq] at hok
    obtain ⟨_, evs, hl1, he1⟩ := serialize_loop_log
      (fun a q x => serialize attr fuel d a q x) p hp v
      (fun y _ a q1 a1 hq1 hs => serialize_transfer_paths attr fuel d y a q1 a1 hq1 hs)
      0 ar2 ar1 hok
    refine ⟨dels ++ evs, by rw [hl1, hl, List.append_assoc], ?_⟩
    intro e he hr
    rcases List.mem_append.1 he with he | he
    · rw [hdel e he] at hr; cases hr
    · obtain ⟨s, hs, hr2⟩ := he1 e he _ hr
      rw [complete_path_congr ar2 ar hc] at hr2
      exact complete_path_ne ar p s hpne hs hr2.symm

/-- Instance of `serialize_decomposition` at a concrete input. -/
theorem serialize_decomposition_witness :
    1 ≤ List.length ([[1, 2], [3]] : List (List Int)) ∧
    (is_attribute_path "/x" = true →
      serialize (α := Int) (fun _ _ _ _ => .error Err.RuntimeError) 0 2
        { context := "", groups := ["/", "/x"], datasets := [], log := [] } "/x"
        ([[1, 2], [3]] : List (List Int)) = .error Err.RuntimeError) ∧
    (is_attribute_path "/x" = false →
      ∃ ar2 : Archive Int,
        ar2.is_group "/x" = false ∧ ar2.is_data "/x" = false ∧ ar2.context = "" ∧
        (∀ g ∈ ar2.groups, g ∈ ["/", "/x"]) ∧ (∀ g ∈ ar2.datasets, g ∈ []) ∧
        (∃ dels, ar2.log = [] ++ dels ∧ ∀ e ∈ dels, e.transfer_path = none) ∧
        serialize (α := Int) (fun _ _ _ _ => .error Err.RuntimeError) 0 2
          { context := "", groups := ["/", "/x"], datasets := [], log := [] } "/x"
          ([[1, 2], [3]] : List (List Int)) =
          write_each (serialize (α := Int) (fun _ _ _ _ => .error Err.RuntimeError) 0 1)
            ((child_paths "/x" (List.length ([[1, 2], [3]] : List (List Int)))).zip
              ([[1, 2], [3]] : List (List Int))) ar2 ∧
        ("/x".data ≠ [] → ∀ ar1,
          serialize (α := Int) (fun _ _ _ _ => .error Err.RuntimeError) 0 2
            { context := "", groups := ["/", "/x"], datasets := [], log := [] } "/x"
            ([[1, 2], [3]] : List (List Int)) = .ok ar1 →
          ∃ evs, ar1.log = [] ++ evs ∧
            ∀ e ∈ evs, e.transfer_path ≠ some
              (Archive.complete_path (α := Int)
                { context := "", groups := ["/", "/x"], datasets := [], log := [] } "/x"))) :=
  serialize_decomposition (α := Int) (fun _ _ _ _ => .error Err.RuntimeError) 0 1
    { context := "", groups := ["/", "/x"], datasets := [], log := [] } "/x"
    ([[1, 2], [3]] : List (List Int)) rfl
/-! ## Theorems: attribute path syntax -/

theorem find_last_of_from_absent (c : Char) :
    ∀ (ys : List Char) (i found : Nat), c ∉ ys → find_last_of_from c ys i found = found
  | [], _, _, _ => rfl
  | y :: ys, i, found, h => by
    have hy : (y == c) = false := by
      simp only [beq_eq_false_iff_ne, ne_eq]
      intro e
      exact h (by rw [e]; exact List.mem_cons_self _ _)
    simp only [find_last_of_from, hy, Bool.false_eq_true, if_false]
    exact find_last_of_from_absent c ys (i + 1) found (fun hm => h (List.mem_cons_of_mem _ hm))

theorem find_last_of_from_last (c : Char) (ys : List Char) (hys : c ∉ ys) :
    ∀ (xs : List Char) (i found : Nat),
    find_last_of_from c (xs ++ c :: ys) i found = i + xs.length
  | [], i, found => by
    simp only [List.nil_append, find_last_of_from, beq_self_eq_true, if_true, List.length_nil,
      Nat.add_zero]
    exact find_last_of_from_absent c ys (i + 1) i hys
  | x :: xs, i, found => by
    change find_last_of_from c (xs ++ c :: ys) (i + 1) (if x == c then i else found) =
      i + (xs.length + 1)
    rw [find_last_of_from_last c ys hys xs (i + 1)]
    omega

theorem find_last_of_split (node name : String) (c : Char) (hname : '@' ∉ name.data) :
    find_last_of (node ++ String.singleton c ++ "@" ++ name) '@' = node.length + 1 := by
  have hd : (node ++ String.singleton c ++ "@" ++ name).data =
      (node.data ++ [c]) ++ '@' :: name.data := by
    simp only [String.data_append, List.append_assoc]
    rfl
  have hn : node.length = node.data.length := rfl
  rw [find_last_of, hd, find_last_of_from_last '@' name.data hname, hn, List.length_append,
    List.length_singleton, Nat.zero_add]

theorem attribute_path_split_at (node name : String) (c : Char) (hname : '@' ∉ name.data)
    (hlen : (node ++ String.singleton c ++ "@" ++ name).length < 2 ^ 64) :
    attribute_parent (node ++ String.singleton c ++ "@" ++ name) = node ∧
    attribute_name (node ++ String.singleton c ++ "@" ++ name) = name := by
  have hd : (node ++ String.singleton c ++ "@" ++ name).data =
      node.data ++ (c :: '@' :: name.data) := by
    simp only [String.data_append, List.append_assoc]
    rfl
  have hl : node.data.length + 2 + name.data.length < 2 ^ 64 := by
    have := hlen
    rw [String.length, hd] at this
    simp only [List.length_append, List.length_cons] at this
    omega
  have hn : node.length = node.data.length := rfl
  have h1 : (node.length + 1 + 2 ^ 64 - 1) % 2 ^ 64 = node.data.length := by
    rw [hn]
    rw [show node.data.length + 1 + 2 ^ 64 - 1 = node.data.length + 2 ^ 64 by omega,
      Nat.add_mod_right, Nat.mod_eq_of_lt (show node.data.length < 2 ^ 64 by omega)]
  have h2 : (node.length + 1 + 1) % 2 ^ 64 = node.data.length + 2 := by
    rw [hn, Nat.mod_eq_of_lt (show node.data.length + 1 + 1 < 2 ^ 64 by omega)]
  refine ⟨?_, ?_⟩
  · rw [attribute_parent, find_last_of_split node name c hname, h1, substr, hd]
    simp
  · rw [attribute_name, find_last_of_split node name c hname, h2, substr, hd]
    apply String.ext
    have hdrop : List.drop (node.data.length + 2) (node.data ++ (c :: '@' :: name.data)) =
        name.data := by
      rw [List.drop_append]
      rfl
    show List.take npos (List.drop (node.data.length + 2)
      (node.data ++ (c :: '@' :: name.data))) = name.data
    rw [hdrop]
    exact List.take_of_length_le (show name.data.length ≤ npos by simp only [npos]; omega)

/-- C12 (as stated, refuted). For the attribute path `/a/b@name` the attribute write resolves
the parent node to `/a/`, not to `/a/b`: the character before the `'@'` is dropped. The
attribute name is `name`. -/
theorem attribute_path_counterexample :
    attribute_parent "/a/b@name" = "/a/" ∧ attribute_parent "/a/b@name" ≠ "/a/b" ∧
    attribute_name "/a/b@name" = "name" := by
  refine ⟨by decide, by decide, by decide⟩

/-- C12 (amended). Attribute path syntax: for every attribute path of the form
`<node>/@<name>` (for example `/a/b/@name`) whose `<name>` contains no `'@'`, the attribute
write resolves the parent node to `<node>` and the attribute name to `<name>`. -/
theorem attribute_path_split (node name : String) (hname : '@' ∉ name.data)
    (hlen : (node ++ "/@" ++ name).length < 2 ^ 64) :
    attribute_parent (node ++ "/@" ++ name) = node ∧
    attribute_name (node ++ "/@" ++ name) = name := by
  have h : node ++ "/@" ++ name = node ++ String.singleton '/' ++ "@" ++ name := by
    apply String.ext
    simp only [String.data_append, List.append_assoc]
    rfl
  rw [h] at hlen ⊢
  exact attribute_path_split_at node name '/' hname hlen

/-- Instance of `attribute_path_split` at a concrete input. -/
theorem attribute_path_split_witness :
    attribute_parent ("/a/b" ++ "/@" ++ "name") = "/a/b" ∧
    attribute_name ("/a/b" ++ "/@" ++ "name") = "name" :=
  attribute_path_split "/a/b" "name" (by decide) (by decide)
/-! ## Theorems: the attribute write -/

/-- C15. An attribute write whose parent path is neither a group nor a dataset fails with
RuntimeError ("unknown path"), and the state of the archive at the failure is the state
before the call: no group, dataset, attribute or shadow entry has been created, modified or
deleted, no effect has been issued and no handle has been opened. -/
theorem set_attribute_unknown_parent (zero : α) (fuel depth : Nat) (ar : Archive α)
    (p : String) (v : AttrValue α)
    (hg : ar.is_group (attribute_parent p) = false)
    (hd : ar.is_data (attribute_parent p) = false) :
    (set_attribute zero fuel (depth + 1) ar p v).error = some Err.RuntimeError ∧
    (set_attribute zero fuel (depth + 1) ar p v).archive = ar := by
  simp [set_attribute, open_parent, hg, hd, Outcome.bind]

/-- Instance of `set_attribute_unknown_parent` at a concrete input. -/
theorem set_attribute_unknown_parent_witness :
    (set_attribute (0 : Int) 4 1
      { context := "", groups := ["/", "/a"], datasets := [], log := [], revision := 1 }
      "/b/@x" (AttrValue.num 0 (3 : Int))).error = some Err.RuntimeError ∧
    (set_attribute (0 : Int) 4 1
      { context := "", groups := ["/", "/a"], datasets := [], log := [], revision := 1 }
      "/b/@x" (AttrValue.num 0 (3 : Int))).archive =
      { context := "", groups := ["/", "/a"], datasets := [], log := [], revision := 1 } :=
  set_attribute_unknown_parent (0 : Int) 4 0
    { context := "", groups := ["/", "/a"], datasets := [], log := [], revision := 1 }
    "/b/@x" (AttrValue.num 0 (3 : Int)) (by decide) (by decide)
/-! ## Theorems: overwriting an existing attribute -/

theorem find?_filter_ne_self {κ β : Type} [BEq κ] [LawfulBEq κ] (k : κ) :
    ∀ (l : List (κ × β)), (l.filter (fun a => !(a.1 == k))).find? (fun a => a.1 == k) = none
  | [] => rfl
  | a :: l => by
    by_cases h : a.1 = k
    · simp only [List.filter, h, beq_self_eq_true, Bool.not_true]
      exact find?_filter_ne_self k l
    · have hb : (a.1 == k) = false := by simpa using h
      simp only [List.filter, hb, Bool.not_false, List.find?]
      exact find?_filter_ne_self k l

theorem find?_filter_ne_other {κ β : Type} [BEq κ] [LawfulBEq κ] (k k' : κ) (hk : k' ≠ k) :
    ∀ (l : List (κ × β)), (l.filter (fun a => !(a.1 == k))).find? (fun a => a.1 == k') =
      l.find? (fun a => a.1 == k')
  | [] => rfl
  | a :: l => by
    by_cases h : a.1 = k
    · have hb' : (a.1 == k') = false := by
        simp only [beq_eq_false_iff_ne, ne_eq, h]
        exact fun e => hk e.symm
      simp only [List.filter, h, beq_self_eq_true, Bool.not_true, List.find?]
      rw [← h, hb']
      simp only
      rw [h]
      exact find?_filter_ne_other k k' hk l
    · have hb : (a.1 == k) = false := by simpa using h
      simp only [List.filter, hb, Bool.not_false, List.find?]
      cases (a.1 == k') with
      | true => rfl
      | false => exact find?_filter_ne_other k k' hk l

theorem find?_map_key {κ β : Type} [BEq κ] [LawfulBEq κ] (k k' : κ) (f : β → β) :
    ∀ (l : List (κ × β)),
    (l.map (fun a => if a.1 == k then (a.1, f a.2) else a)).find? (fun a => a.1 == k') =
      (l.find? (fun a => a.1 == k')).map (fun a => if a.1 == k then (a.1, f a.2) else a)
  | [] => rfl
  | a :: l => by
    simp only [List.map, List.find?]
    have hkey : (if (a.1 == k) = true then (a.1, f a.2) else a).1 = a.1 := by
      split_ifs <;> rfl
    rw [hkey]
    cases (a.1 == k') with
    | true => rfl
    | false => exact find?_map_key k k' f l
theorem find_delete_self (ar : Archive α) (n m : String) :
    (ar.delete_attribute n m).find_attribute n m = none := by
  simp only [Archive.find_attribute, Archive.delete_attribute, find?_filter_ne_self,
    Option.map_none']

theorem find_delete_other (ar : Archive α) (n m n' m' : String) (h : (n', m') ≠ (n, m)) :
    (ar.delete_attribute n m).find_attribute n' m' = ar.find_attribute n' m' := by
  simp only [Archive.find_attribute, Archive.delete_attribute,
    find?_filter_ne_other (n, m) (n', m') h]

theorem find_create_self (ar : Archive α) (n m : String) (s : Space) (t : TypeTag) :
    (ar.create_attribute n m s t).find_attribute n m =
      some { space := s, type := t, payload := Payload.values [] } := by
  simp [Archive.find_attribute, Archive.create_attribute]

theorem find_create_other (ar : Archive α) (n m n' m' : String) (s : Space) (t : TypeTag)
    (h : (n', m') ≠ (n, m)) :
    (ar.create_attribute n m s t).find_attribute n' m' = ar.find_attribute n' m' := by
  have hb : ((n, m) == (n', m')) = false := by
    simp only [beq_eq_false_iff_ne, ne_eq]
    exact fun e => h e.symm
  simp only [Archive.find_attribute, Archive.create_attribute, List.find?, hb,
    find?_filter_ne_other (n, m) (n', m') h]

theorem find_write_self (ar : Archive α) (n m : String) (pl : Payload α) :
    (ar.write_attribute n m pl).find_attribute n m =
      (ar.find_attribute n m).map (fun r => { r with payload := pl }) := by
  simp only [Archive.find_attribute, Archive.write_attribute]
  have key := find?_map_key (n, m) (n, m) (fun r : AttrRec α => { r with payload := pl })
    ar.attributes
  beta_reduce at key
  rw [key]
  cases h : List.find? (fun a => a.1 == (n, m)) ar.attributes with
  | none => rfl
  | some a =>
    have := List.find?_some h
    simp only [Option.map_some', this, if_true]

theorem find_write_other (ar : Archive α) (n m n' m' : String) (pl : Payload α)
    (h : (n', m') ≠ (n, m)) :
    (ar.write_attribute n m pl).find_attribute n' m' = ar.find_attribute n' m' := by
  simp only [Archive.find_attribute, Archive.write_attribute]
  have key := find?_map_key (n, m) (n', m') (fun r : AttrRec α => { r with payload := pl })
    ar.attributes
  beta_reduce at key
  rw [key]
  cases hf : List.find? (fun a => a.1 == (n', m')) ar.attributes with
  | none => rfl
  | some a =>
    have h1 := List.find?_some hf
    have h2 : a.1 = (n', m') := by simpa using h1
    have hb : (a.1 == (n, m)) = false := by
      rw [h2]
      simpa using h
    simp only [Option.map_some', hb, Bool.false_eq_true, if_false]

theorem find_copy_self (ar : Archive α) (d s m : String) (r : AttrRec α)
    (h : ar.find_attribute s m = some r) :
    (ar.copy_attribute d s m).find_attribute d m = some r := by
  simp only [Archive.copy_attribute, h]
  simp [Archive.find_attribute]

theorem find_copy_other (ar : Archive α) (d s m n' m' : String) (h : (n', m') ≠ (d, m)) :
    (ar.copy_attribute d s m).find_attribute n' m' = ar.find_attribute n' m' := by
  have hb : ((d, m) == (n', m')) = false := by
    simp only [beq_eq_false_iff_ne, ne_eq]
    exact fun e => h e.symm
  simp only [Archive.copy_attribute]
  cases hs : ar.find_attribute s m with
  | none => rfl
  | some r =>
    simp only [Archive.find_attribute, List.find?, hb, find?_filter_ne_other (d, m) (n', m') h]
theorem h5a_write_cases (ar : Archive α) (n m : String) (ptr : Ptr α) :
    (h5a_write ar n m ptr).archive = ar ∨
      ∃ pl, h5a_write ar n m ptr = ⟨ar.write_attribute n m pl, none⟩ := by
  simp only [h5a_write]
  cases hf : ar.find_attribute n m with
  | none => exact Or.inl rfl
  | some r =>
    simp only
    cases hr : ptr.read r.space.count with
    | error e => exact Or.inl rfl
    | ok data => exact Or.inr ⟨_, rfl⟩

theorem attribute_write_cases (zero : α) (fuel : Nat) (ar : Archive α) (parent name : String)
    (v : AttrValue α) (t : TypeTag) (size count : List Nat)
    (ht : get_native_type v = .ok t) (hs : v.get_extent = .ok size)
    (hc : v.get_offset = .ok count) :
    (attribute_write zero fuel ar parent name v).archive =
        ensure_attribute (check_existing ar parent name size t) parent name
          (value_space v size) t ∨
      ∃ pl, attribute_write zero fuel ar parent name v =
        ⟨(ensure_attribute (check_existing ar parent name size t) parent name
          (value_space v size) t).write_attribute parent name pl, none⟩ := by
  cases v with
  | flag b =>
    simp only [attribute_write, ht, hs, hc]
    exact Or.inr ⟨_, rfl⟩
  | state s =>
    simp only [attribute_write, ht, hs, hc]
    exact Or.inr ⟨_, rfl⟩
  | num d w =>
    cases d with
    | zero =>
      simp only [attribute_write, ht, hs, hc]
      exact h5a_write_cases _ parent name _
    | succ d =>
      simp only [attribute_write, ht, hs, hc]
      by_cases h0 : size.sum = 0
      · simp [h0, value_space, AttrValue.is_native, is_native]
      · have hv : value_space (AttrValue.num (d + 1) w) size = Space.simple size := by
          simp [value_space, AttrValue.is_native, is_native, h0]
        have h0' : (size.sum == 0) = false := by simpa using h0
        simp only [h0', Bool.false_eq_true, if_false, hv]
        cases hq : std_equal count size with
        | error e => exact Or.inl rfl
        | ok b =>
          cases b with
          | true =>
            simp only
            cases hg : get_data d w (List.replicate size.length 0) with
            | error e => exact Or.inl rfl
            | ok ptr => exact h5a_write_cases _ parent name _
          | false =>
            simp only
            cases hl : find_last size count (count.length - 1) with
            | error e => exact Or.inl rfl
            | ok last =>
              simp only
              cases hk : chunk_loop (attr_copy_chunk d w size count) size last fuel
                (List.replicate size.length 0) (List.replicate size.prod zero) with
              | error e => exact Or.inl rfl
              | ok continous => exact h5a_write_cases _ parent name _
theorem ensure_check_incompatible (ar : Archive α) (parent name : String) (size : List Nat)
    (t : TypeTag) (r : AttrRec α) (S : Space)
    (hfind : ar.find_attribute parent name = some r)
    (hin : attribute_incompatible size t r = true) :
    ensure_attribute (check_existing ar parent name size t) parent name S t =
      (((ar.delete_attribute parent name).create_attribute parent name S t).open_handle
        (Handle.attribute parent name)) := by
  have h1 : check_existing ar parent name size t = ar.delete_attribute parent name := by
    simp only [check_existing, hfind, hin, if_true]
  rw [h1, ensure_attribute, find_delete_self]
  rfl

theorem ensure_check_compatible (ar : Archive α) (parent name : String) (size : List Nat)
    (t : TypeTag) (r : AttrRec α) (S : Space)
    (hfind : ar.find_attribute parent name = some r)
    (hin : attribute_incompatible size t r = false) :
    ensure_attribute (check_existing ar parent name size t) parent name S t =
      ar.open_handle (Handle.attribute parent name) := by
  have h1 : check_existing ar parent name size t =
      ar.open_handle (Handle.attribute parent name) := by
    simp only [check_existing, hfind, hin, Bool.false_eq_true, if_false]
  have h2 : (ar.open_handle (Handle.attribute parent name)).find_attribute parent name =
      some r := hfind
  rw [h1, ensure_attribute, h2]
  rfl

theorem native_extent (v : AttrValue α) (size : List Nat) (hn : v.is_native = true)
    (hs : v.get_extent = .ok size) : size = [1] := by
  cases v with
  | flag b => simpa [AttrValue.get_extent] using hs.symm
  | state s => simpa [AttrValue.get_extent] using hs.symm
  | num d w =>
    cases d with
    | zero =>
      simp only [AttrValue.get_extent] at hs
      have h' : get_extent 0 w = .ok [1] := rfl
      rw [h'] at hs
      injection hs with hs
      exact hs.symm
    | succ d => simp [AttrValue.is_native, is_native] at hn

theorem compatible_space (v : AttrValue α) (size : List Nat) (t : TypeTag) (r : AttrRec α)
    (hs : v.get_extent = .ok size)
    (hin : attribute_incompatible size t r = false)
    (hv : v.is_native = true ∨ size.sum = 0) :
    r.space = value_space v size := by
  by_cases hn : v.is_native = true
  · have hsz := native_extent v size hn hs
    subst hsz
    simp only [value_space, hn, if_true]
    simp [attribute_incompatible] at hin
    exact hin.1
  · rcases hv with hv | hv
    · exact absurd hv hn
    · have hn' : v.is_native = false := by simpa using hn
      simp only [value_space, hn', Bool.false_eq_true, if_false, hv, beq_self_eq_true, if_true]
      cases v with
      | flag b => simp [AttrValue.is_native] at hn
      | state s => simp [AttrValue.is_native] at hn
      | num d w =>
        have hne := get_extent_ne_nil d w size hs
        cases size with
        | nil => exact absurd rfl hne
        | cons a rest =>
          have ha : a = 0 := by
            simp only [List.sum_cons] at hv
            omega
          subst ha
          simp [attribute_incompatible] at hin
          exact hin.1
/-- C16 (as stated, refuted). The attribute `x` of the group `/a` is stored with the simple
dataspace `[3]` and the numeric element type; the vector `[1, 2, 3]` written to `/a/@x` has
the same element type and the extent `[3]`. The write deletes the attribute and creates it
again instead of overwriting it in place. -/
theorem attribute_overwrite_counterexample :
    get_native_type (AttrValue.num 1 ([1, 2, 3] : List Int)) = .ok TypeTag.numeric ∧
    (AttrValue.num 1 ([1, 2, 3] : List Int)).get_extent = .ok [3] ∧
    (set_attribute (0 : Int) 4 1
      { context := "", groups := ["/", "/a"], datasets := [], log := [],
        attributes := [(("/a", "x"),
          { space := Space.simple [3], type := TypeTag.numeric, payload := Payload.values [4, 5, 6] })] }
      "/a/@x" (AttrValue.num 1 ([1, 2, 3] : List Int))).archive.log =
      [Event.delete_attribute "/a" "x",
        Event.create_attribute "/a" "x" (Space.simple [3]) TypeTag.numeric,
        Event.write_attribute "/a" "x" (Payload.values [1, 2, 3])] := by
  refine ⟨rfl, rfl, ?_⟩
  rfl

theorem compatible_type (size : List Nat) (t : TypeTag) (r : AttrRec α)
    (hin : attribute_incompatible size t r = false) : r.type = t := by
  simp [attribute_incompatible] at hin
  exact hin.2

/-- C16 (amended). The typed write of `archive_base::set_attribute` on an attribute that
already exists. If the stored element type differs from the element type of the new value,
or the new value has a positive leading extent and the stored dataspace is not scalar, or
the new value has leading extent 0 and the stored dataspace is not null
(`attribute_incompatible`), the attribute is deleted and created again with the dataspace
that fits the new value and with its element type; so a stored array attribute is always
created again. If none of these holds and the new value is a native scalar or an empty
vector, the attribute is neither deleted nor created: its data is overwritten in place. After
each of these writes the stored dataspace and element type are those of the new value. -/
theorem attribute_overwrite_decision (zero : α) (fuel : Nat) (ar : Archive α)
    (parent name : String) (v : AttrValue α) (r : AttrRec α) (t : TypeTag)
    (size count : List Nat)
    (hfind : ar.find_attribute parent name = some r)
    (ht : get_native_type v = .ok t) (hs : v.get_extent = .ok size)
    (hc : v.get_offset = .ok count) :
    (attribute_incompatible size t r = true →
      (∃ writes, (attribute_write zero fuel ar parent name v).archive.log =
          ar.log ++ Event.delete_attribute parent name ::
            Event.create_attribute parent name (value_space v size) t :: writes ∧
        ∀ e ∈ writes, ∃ pl, e = Event.write_attribute parent name pl) ∧
      ((attribute_write zero fuel ar parent name v).archive.find_attribute parent name).map
        (fun a => (a.space, a.type)) = some (value_space v size, t)) ∧
    (attribute_incompatible size t r = false → (v.is_native = true ∨ size.sum = 0) →
      (∃ writes, (attribute_write zero fuel ar parent name v).archive.log = ar.log ++ writes ∧
        ∀ e ∈ writes, ∃ pl, e = Event.write_attribute parent name pl) ∧
      ((attribute_write zero fuel ar parent name v).archive.find_attribute parent name).map
        (fun a => (a.space, a.type)) = some (value_space v size, t)) := by
  have hcases := attribute_write_cases zero fuel ar parent name v t size count ht hs hc
  refine ⟨?_, ?_⟩
  · intro hin
    rw [ensure_check_incompatible ar parent name size t r _ hfind hin] at hcases
    have hB : (((ar.delete_attribute parent name).create_attribute parent name
        (value_space v size) t).open_handle (Handle.attribute parent name)).find_attribute
        parent name =
        some { space := value_space v size, type := t, payload := Payload.values [] } :=
      find_create_self _ parent name _ t
    rcases hcases with h | ⟨pl, h⟩
    · rw [h]
      refine ⟨⟨[], ?_, by simp⟩, ?_⟩
      · simp [Archive.open_handle, Archive.create_attribute, Archive.delete_attribute]
      · rw [hB]
        rfl
    · rw [h]
      refine ⟨⟨[Event.write_attribute parent name pl], ?_, ?_⟩, ?_⟩
      · simp [Archive.open_handle, Archive.create_attribute, Archive.delete_attribute,
          Archive.write_attribute]
      · intro e he
        exact ⟨pl, by simpa using he⟩
      · show Option.map _ (Archive.find_attribute (Archive.write_attribute _ parent name pl)
          parent name) = _
        rw [find_write_self, hB]
        rfl
  · intro hin hv
    rw [ensure_check_compatible ar parent name size t r _ hfind hin] at hcases
    have hB : (ar.open_handle (Handle.attribute parent name)).find_attribute parent name =
        some r := hfind
    have hsp := compatible_space v size t r hs hin hv
    have hty := compatible_type size t r hin
    refine ⟨?_, ?_⟩
    · rcases hcases with h | ⟨pl, h⟩
      · rw [h]
        exact ⟨[], by simp [Archive.open_handle], by simp⟩
      · rw [h]
        refine ⟨[Event.write_attribute parent name pl], ?_, ?_⟩
        · simp [Archive.open_handle, Archive.write_attribute]
        · intro e he
          exact ⟨pl, by simpa using he⟩
    · rcases hcases with h | ⟨pl, h⟩
      · rw [h, hB, ← hsp, ← hty]
        rfl
      · rw [h]
        show Option.map _ (Archive.find_attribute (Archive.write_attribute _ parent name pl)
          parent name) = _
        rw [find_write_self, hB, ← hsp, ← hty]
        rfl

/-- Instance of `attribute_overwrite_decision` at a concrete input. -/
theorem attribute_overwrite_decision_witness :
    ((attribute_write (0 : Int) 4
      { context := "", groups := ["/", "/a"], datasets := [], log := [],
        attributes := [(("/a", "x"),
          { space := Space.scalar, type := TypeTag.numeric, payload := Payload.values [5] })] }
      "/a" "x" (AttrValue.num 0 (7 : Int))).archive.find_attribute "/a" "x").map
        (fun a => (a.space, a.type)) = some (Space.scalar, TypeTag.numeric) :=
  ((attribute_overwrite_decision (0 : Int) 4
    { context := "", groups := ["/", "/a"], datasets := [], log := [],
      attributes := [(("/a", "x"),
        { space := Space.scalar, type := TypeTag.numeric, payload := Payload.values [5] })] }
    "/a" "x" (AttrValue.num 0 (7 : Int))
    { space := Space.scalar, type := TypeTag.numeric, payload := Payload.values [5] }
    TypeTag.numeric [1] [1] rfl rfl rfl rfl).2 rfl (Or.inl rfl)).2

/-- The attribute `x` of the group `/a` is stored as a scalar of the numeric element type;
the vector `[1, 2, 3]` written to `/a/@x` leaves the scalar attribute in place and writes one
element to it. -/
theorem attribute_vector_on_scalar :
    (set_attribute (0 : Int) 4 1
      { context := "", groups := ["/", "/a"], datasets := [], log := [],
        attributes := [(("/a", "x"),
          { space := Space.scalar, type := TypeTag.numeric, payload := Payload.values [5] })] }
      "/a/@x" (AttrValue.num 1 ([1, 2, 3] : List Int))).archive.log =
      [Event.write_attribute "/a" "x" (Payload.values [1])] := by
  rfl
/-! ## Theorems: the dataspace chosen by a dataset write -/

theorem chunk_loop_write_slab_eq (d : Nat) (v : NVec α (d + 1)) (p : String)
    (count size : List Nat) (last : Nat) :
    ∀ (fuel : Nat) (start : List Nat) (ar ar1 : Archive α),
    chunk_loop (write_slab d v p count) size last fuel start ar = .ok ar1 →
    ∃ evs, ar1 = { ar with log := ar.log ++ evs } ∧ ∀ e ∈ evs, e.write_path = some p
  | 0, _, _, _, h => by simp [chunk_loop] at h
  | fuel + 1, start, ar, ar1, h => by
    simp only [chunk_loop] at h
    cases hb : write_slab d v p count start ar with
    | error e => rw [hb] at h; cases h
    | ok ar2 =>
      simp only [hb] at h
      have h2 : ∃ ev, ar2 = { ar with log := ar.log ++ [ev] } ∧ ev.write_path = some p := by
        simp only [write_slab] at hb
        cases hg : get_data d v start with
        | error e => rw [hg] at hb; cases hb
        | ok ptr =>
          rw [hg] at hb
          cases hr : ptr.read count.prod with
          | error e => simp [hr] at hb
          | ok chunk =>
            simp only [hr, Except.ok.injEq] at hb
            subst hb
            exact ⟨_, rfl, rfl⟩
      obtain ⟨ev, hl, hev⟩ := h2
      split_ifs at h
      · obtain ⟨evs, hl1, hevs⟩ := chunk_loop_write_slab_eq d v p count size last fuel _ _ _ h
        refine ⟨ev :: evs, ?_, ?_⟩
        · rw [hl1, hl]; simp
        · intro e he
          rcases List.mem_cons.1 he with rfl | he
          · exact hev
          · exact hevs e he
      · cases h
        exact ⟨[ev], hl, by simpa using hev⟩

theorem archive_set_data_shape (fuel : Nat) (ar : Archive α) (p : String) (d : Nat)
    (v : NVec α (d + 1)) (size : List Nat) (hv : get_extent (d + 1) v = .ok size)
    (ar1 : Archive α) (h : archive_set_data fuel ar p (d + 1) v = .ok ar1) :
    ∃ writes,
      ar1 = { ((if ar.is_group p = true then ar.delete_group p else ar).save_comitted_data p
          (if size.sum = 0 then Space.null else Space.simple size)) with
        log := ((if ar.is_group p = true then ar.delete_group p else ar).save_comitted_data p
          (if size.sum = 0 then Space.null else Space.simple size)).log ++ writes } ∧
      (∀ e ∈ writes, e.write_path = some p) ∧ (size.sum = 0 → writes = []) := by
  simp only [archive_set_data, hv] at h
  generalize (if ar.is_group p = true then ar.delete_group p else ar) = ar0 at h ⊢
  cases ho : get_offset (d + 1) v with
  | error e => simp [ho] at h
  | ok count =>
    simp only [ho] at h
    by_cases hs : size.sum = 0
    · simp only [hs, beq_self_eq_true, if_true, Except.ok.injEq] at h
      subst h
      exact ⟨[], by simp [hs], by simp, fun _ => rfl⟩
    · have hs' : (size.sum == 0) = false := by simpa using hs
      simp only [hs', Bool.false_eq_true, if_false] at h
      simp only [hs, if_false]
      cases hq : std_equal count size with
      | error e => simp [hq] at h
      | ok b =>
        cases b with
        | true =>
          simp only [hq] at h
          cases hg : get_data d v (List.replicate size.length 0) with
          | error e => simp [hg] at h
          | ok ptr =>
            simp only [hg] at h
            cases hr : ptr.read size.prod with
            | error e => simp [hr] at h
            | ok data =>
              simp only [hr, Except.ok.injEq] at h
              subst h
              exact ⟨[Event.write_all p data], rfl, by simp [Event.write_path],
                fun h0 => h0.elim⟩
        | false =>
          simp only [hq] at h
          cases hf : find_last size count (count.length - 1) with
          | error e => simp [hf] at h
          | ok last =>
            simp only [hf] at h
            obtain ⟨evs, hl1, hevs⟩ := chunk_loop_write_slab_eq d v p count size last fuel _ _ _ h
            exact ⟨evs, hl1, hevs, fun h0 => h0.elim⟩
theorem archive_set_data_null (fuel : Nat) (ar : Archive α) (p : String) (d : Nat)
    (v : NVec α (d + 1)) (size : List Nat) (hv : get_extent (d + 1) v = .ok size)
    (hs : size.sum = 0) :
    archive_set_data fuel ar p (d + 1) v =
      .ok ((if ar.is_group p = true then ar.delete_group p else ar).save_comitted_data p
        Space.null) := by
  simp only [archive_set_data, hv, get_offset_formula (d + 1) v size hv, hs, beq_self_eq_true,
    if_true]

theorem empty_vector_attribute (zero : α) (fuel : Nat) (a : Archive α) (node name : String) :
    (attribute_write zero fuel a node name (AttrValue.num 1 (List.nil (α := α)))).error =
      none ∧
    ((attribute_write zero fuel a node name
      (AttrValue.num 1 (List.nil (α := α)))).archive.find_attribute node name).map
      (fun r => r.space) = some Space.null := by
  have hw : attribute_write zero fuel a node name (AttrValue.num 1 (List.nil (α := α))) =
      ⟨ensure_attribute (check_existing a node name [0] TypeTag.numeric) node name
        Space.null TypeTag.numeric, none⟩ := rfl
  rw [hw]
  refine ⟨rfl, ?_⟩
  show Option.map _ (Archive.find_attribute (ensure_attribute _ node name Space.null
    TypeTag.numeric) node name) = _
  cases hf : a.find_attribute node name with
  | none =>
    have h1 : check_existing a node name [0] TypeTag.numeric = a := by
      simp only [check_existing, hf]
    rw [h1, ensure_attribute, hf]
    simp only [Option.isNone_none, if_true]
    show Option.map _ (Archive.find_attribute (Archive.create_attribute a node name Space.null
      TypeTag.numeric) node name) = _
    rw [find_create_self]
    rfl
  | some r =>
    cases hin : attribute_incompatible [0] TypeTag.numeric r with
    | true =>
      rw [ensure_check_incompatible a node name [0] TypeTag.numeric r _ hf hin]
      show Option.map _ (Archive.find_attribute (Archive.create_attribute _ node name
        Space.null TypeTag.numeric) node name) = _
      rw [find_create_self]
      rfl
    | false =>
      rw [ensure_check_compatible a node name [0] TypeTag.numeric r _ hf hin]
      have hsp := compatible_space (AttrValue.num 1 (List.nil (α := α))) [0] TypeTag.numeric r
        rfl hin (Or.inr rfl)
      show Option.map _ (a.find_attribute node name) = _
      rw [hf]
      simp only [Option.map_some', hsp]
      rfl

/-- The dataspace chosen by the dataset write `archive_base::set_data` at path `p`,
after a group at `p` has been deleted. A native value is stored with a scalar dataspace and
one data write. A nested vector whose extent entries sum to zero is stored with a null
dataspace: the dataset is created and no data is written. A nested vector whose extent
entries do not sum to zero is stored with a simple dataspace whose dimensions are
`get_extent(v)`, followed by data writes to `p` only; the write succeeds when every extent is
at least 1 and the chunk loop has enough fuel. An empty `std::vector` written through the
`serialize` dispatch at a dataset path is stored with a null dataspace, and the typed write
of an empty vector to an attribute succeeds and leaves the attribute stored with a null
dataspace. -/
theorem set_data_dataspace (fuel : Nat) (ar : Archive α) (p : String) :
    (∀ v : NVec α 0, archive_set_data fuel ar p 0 v =
      .ok (((if ar.is_group p = true then ar.delete_group p else ar).save_comitted_data p
        Space.scalar).record (Event.write_all p (List.cons (α := α) v [])))) ∧
    (∀ (d : Nat) (v : NVec α (d + 1)) (size : List Nat), get_extent (d + 1) v = .ok size →
      size.sum = 0 →
      archive_set_data fuel ar p (d + 1) v =
        .ok ((if ar.is_group p = true then ar.delete_group p else ar).save_comitted_data p
          Space.null)) ∧
    (∀ (d : Nat) (v : NVec α (d + 1)) (size : List Nat), get_extent (d + 1) v = .ok size →
      size.sum ≠ 0 →
      (∀ ar1, archive_set_data fuel ar p (d + 1) v = .ok ar1 →
        ∃ writes,
          ar1 = { ((if ar.is_group p = true then ar.delete_group p else ar).save_comitted_data p
              (Space.simple size)) with
            log := ((if ar.is_group p = true then ar.delete_group p
              else ar).save_comitted_data p (Space.simple size)).log ++ writes } ∧
          ∀ e ∈ writes, e.write_path = some p) ∧
      ((∀ x ∈ size, 1 ≤ x) → size.prod ≤ fuel →
        ∃ ar1, archive_set_data fuel ar p (d + 1) v = .ok ar1)) ∧
    (∀ (attr : Archive α → String → (d : Nat) → NVec α d → Except Err (Archive α)) (d : Nat),
      is_attribute_path p = false →
      ∃ ar0 : Archive α,
        (∃ dels, ar0.log = ar.log ++ dels ∧ ∀ e ∈ dels, e.transfer_path = none) ∧
        serialize attr fuel (d + 1) ar p (List.nil (α := NVec α d)) =
          .ok (ar0.save_comitted_data (ar.complete_path p) Space.null)) ∧
    (∀ (zero : α) (node name : String),
      (attribute_write zero fuel ar node name (AttrValue.num 1 (List.nil (α := α)))).error =
        none ∧
      ((attribute_write zero fuel ar node name
        (AttrValue.num 1 (List.nil (α := α)))).archive.find_attribute node name).map
        (fun a => a.space) = some Space.null) := by
  refine ⟨fun v => rfl, ?_, ?_, ?_, ?_⟩
  · intro d v size hv hs
    exact archive_set_data_null fuel ar p d v size hv hs
  · intro d v size hv hs
    refine ⟨?_, ?_⟩
    · intro ar1 h
      obtain ⟨writes, h1, h2, _⟩ := archive_set_data_shape fuel ar p d v size hv ar1 h
      simp only [hs, if_false] at h1
      exact ⟨writes, h1, h2⟩
    · intro hpos hfuel
      exact archive_set_data_rect fuel ar p d v size hv hpos (Or.inr hfuel)
  · intro attr d hp
    obtain ⟨hc0, evs0, hl0, hn0⟩ := cleared_group_log ar p
    have hser : serialize attr fuel (d + 1) ar p (List.nil (α := NVec α d)) =
        archive_set_data fuel (if ar.is_group p = true then ar.delete_group p else ar)
          ((if ar.is_group p = true then ar.delete_group p else ar).complete_path p) 1
          (List.nil (α := α)) := by
      simp only [serialize, List.length_nil, beq_self_eq_true, if_true, oarchive_serialize, hp,
        Bool.false_eq_true, if_false]
    rw [hser]
    generalize (if ar.is_group p = true then ar.delete_group p else ar) = a0 at hc0 hl0 ⊢
    rw [archive_set_data_null fuel a0 _ 0 (List.nil (α := α)) [0] rfl rfl,
      complete_path_congr a0 ar hc0]
    obtain ⟨_, evs1, hl1, hn1⟩ := cleared_group_log a0 (ar.complete_path p)
    refine ⟨_, ⟨evs0 ++ evs1, by rw [hl1, hl0, List.append_assoc], ?_⟩, rfl⟩
    intro e he
    rcases List.mem_append.1 he with he | he
    · exact hn0 e he
    · exact hn1 e he
  · intro zero node name
    exact empty_vector_attribute zero fuel ar node name

/-- Instance of `set_data_dataspace` at a concrete input. -/
theorem set_data_dataspace_witness :
    ∃ ar1, archive_set_data (α := Int) 6 { context := "", groups := ["/"], datasets := [], log := [] }
      "/x" 2 ([[1, 2, 3], [4, 5, 6]] : List (List Int)) = .ok ar1 :=
  ((set_data_dataspace (α := Int) 6 { context := "", groups := ["/"], datasets := [], log := [] }
    "/x").2.2.1 1 ([[1, 2, 3], [4, 5, 6]] : List (List Int)) [2, 3] rfl (by decide)).2
    (by decide) (by decide)

/-- C14 (the code departs from the claim). The vector `{{}, {}}` of two empty rows has the
extent `[2, 0]`, whose entries do not sum to zero, and the offset `[1, 0]`. The dataset write
`archive_base::set_data` tests the sum only (line 798), so the value is not stored as a null
object: the dataset is created with the simple dataspace `[2, 0]`, and the first turn of the
chunk loop evaluates `call_get_data(data, v, start)` with `start = (0, 0)`, which applies the
index 0 to the empty vector `v[0]` (lines 431, 436). The write ends in an out-of-bounds access
and not in a stored value, also when it is reached through the vector writer `serialize`. The
vector `{{}}` of one empty row takes the bulk branch and ends in the same way. -/
theorem set_data_empty_rows :
    get_extent 2 ([[], []] : List (List Int)) = .ok [2, 0] ∧
    get_offset 2 ([[], []] : List (List Int)) = .ok [1, 0] ∧
    ([2, 0] : List Nat).sum ≠ 0 ∧
    get_data 1 ([[], []] : List (List Int)) [0, 0] = .error Err.OutOfBounds ∧
    archive_set_data 4 ({ context := "", groups := ["/"], datasets := [], log := [] } : Archive Int)
      "/x" 2 ([[], []] : List (List Int)) = .error Err.OutOfBounds ∧
    serialize (fun a _ _ _ => .ok a) 4 2
      ({ context := "", groups := ["/"], datasets := [], log := [] } : Archive Int)
      "/x" ([[], []] : List (List Int)) = .error Err.OutOfBounds ∧
    get_extent 2 ([[]] : List (List Int)) = .ok [1, 0] ∧
    archive_set_data 4 ({ context := "", groups := ["/"], datasets := [], log := [] } : Archive Int)
      "/x" 2 ([[]] : List (List Int)) = .error Err.OutOfBounds := by
  refine ⟨rfl, rfl, by decide, rfl, rfl, rfl, rfl, rfl⟩

/-! ## Theorems: attribute supersession under revision tracking -/

theorem rev_path_ne (parent s : String) (hout : substr parent 0 10 ≠ "/revisions") :
    "/revisions/" ++ s ≠ parent := by
  intro h
  apply hout
  rw [← h]
  apply String.ext
  simp only [substr, String.data_append, List.drop_zero]
  rfl

theorem check_existing_frame (ar : Archive α) (parent name : String) (size : List Nat)
    (t : TypeTag) (n m : String) (h : (n, m) ≠ (parent, name)) :
    (check_existing ar parent name size t).find_attribute n m = ar.find_attribute n m := by
  simp only [check_existing]
  cases ar.find_attribute parent name with
  | none => rfl
  | some r =>
    simp only
    split_ifs
    · exact find_delete_other ar parent name n m h
    · rfl

theorem ensure_attribute_frame (ar : Archive α) (parent name : String) (S : Space)
    (t : TypeTag) (n m : String) (h : (n, m) ≠ (parent, name)) :
    (ensure_attribute ar parent name S t).find_attribute n m = ar.find_attribute n m := by
  simp only [ensure_attribute]
  split_ifs
  · exact find_create_other ar parent name n m S t h
  · rfl

theorem attribute_write_frame (zero : α) (fuel : Nat) (ar : Archive α) (parent name : String)
    (v : AttrValue α) (n m : String) (h : (n, m) ≠ (parent, name)) :
    (attribute_write zero fuel ar parent name v).archive.find_attribute n m =
      ar.find_attribute n m := by
  cases ht : get_native_type v with
  | error e => simp only [attribute_write, ht]
  | ok t =>
    cases hs : v.get_extent with
    | error e => simp only [attribute_write, ht, hs]
    | ok size =>
      cases hc : v.get_offset with
      | error e => simp only [attribute_write, ht, hs, hc]
      | ok count =>
        have hB : (ensure_attribute (check_existing ar parent name size t) parent name
            (value_space v size) t).find_attribute n m = ar.find_attribute n m := by
          rw [ensure_attribute_frame _ parent name _ t n m h,
            check_existing_frame ar parent name size t n m h]
        rcases attribute_write_cases zero fuel ar parent name v t size count ht hs hc with
          hh | ⟨pl, hh⟩
        · rw [hh, hB]
        · rw [hh]
          show Archive.find_attribute (Archive.write_attribute _ parent name pl) n m = _
          rw [find_write_other _ parent name n m pl h, hB]
theorem shadow_attribute_entry (wm : Archive α → String → AttrValue α → Outcome α)
    (ar : Archive α) (parent name rev_path : String) (r : AttrRec α)
    (hne : rev_path ≠ parent)
    (hex : ar.find_attribute parent name = some r) :
    (shadow_attribute wm ar parent name rev_path true).error = none ∧
    (shadow_attribute wm ar parent name rev_path true).archive.find_attribute parent name =
      some r ∧
    (shadow_attribute wm ar parent name rev_path true).archive.groups = ar.groups ∧
    (shadow_attribute wm ar parent name rev_path true).archive.revision = ar.revision ∧
    (shadow_attribute wm ar parent name rev_path true).archive.context = ar.context ∧
    (shadow_attribute wm ar parent name rev_path true).archive.find_attribute rev_path name =
      match ar.find_attribute rev_path name with
      | some s => if s.type = TypeTag.state then some r else some s
      | none => some r := by
  have hk : (parent, name) ≠ (rev_path, name) := by
    intro h
    exact hne (congrArg Prod.fst h).symm
  simp only [shadow_attribute, hex, Option.isNone_some, Bool.and_false, Bool.false_eq_true,
    if_false, if_true]
  have hopen : ∀ (h : Handle) (n m : String),
      (ar.open_handle h).find_attribute n m = ar.find_attribute n m := fun _ _ _ => rfl
  cases hs : ar.find_attribute rev_path name with
  | none =>
    simp only [hopen, hs, Option.isNone_none, if_true]
    refine ⟨trivial, ?_, ?_, ?_, ?_, ?_⟩
    · show Archive.find_attribute (Archive.copy_attribute _ rev_path parent name) parent name = _
      rw [find_copy_other _ rev_path parent name parent name hk]
      exact hex
    · simp only [Archive.close_handle, Archive.copy_attribute, hopen, hex]
      rfl
    · simp only [Archive.close_handle, Archive.copy_attribute, hopen, hex]
      rfl
    · simp only [Archive.close_handle, Archive.copy_attribute, hopen, hex]
      rfl
    · show Archive.find_attribute (Archive.copy_attribute _ rev_path parent name) rev_path
        name = _
      exact find_copy_self _ rev_path parent name r hex
  | some s =>
    simp only [hopen, hs]
    by_cases hst : s.type = TypeTag.state
    · simp only [hst, beq_self_eq_true, if_true, find_delete_self, Option.isNone_none]
      have hsrc : ((ar.open_handle (if ar.is_group rev_path = true then Handle.group rev_path
          else Handle.data rev_path)).delete_attribute rev_path name).find_attribute parent
          name = some r := by
        rw [find_delete_other _ rev_path name parent name hk]
        exact hex
      refine ⟨trivial, ?_, ?_, ?_, ?_, ?_⟩
      · show Archive.find_attribute (Archive.copy_attribute _ rev_path parent name) parent
          name = _
        rw [find_copy_other _ rev_path parent name parent name hk]
        exact hsrc
      · simp only [Archive.close_handle, Archive.copy_attribute, hsrc]
        rfl
      · simp only [Archive.close_handle, Archive.copy_attribute, hsrc]
        rfl
      · simp only [Archive.close_handle, Archive.copy_attribute, hsrc]
        rfl
      · show Archive.find_attribute (Archive.copy_attribute _ rev_path parent name) rev_path
          name = _
        exact find_copy_self _ rev_path parent name r hsrc
    · have hst' : (s.type == TypeTag.state) = false := by simpa using hst
      simp only [hst', Bool.false_eq_true, if_false, hopen, hs, Option.isNone_some, hst]
      exact ⟨trivial, hex, rfl, rfl, rfl, hs⟩
theorem bind_of_no_error (o : Outcome α) (f : Archive α → Outcome α) (h : o.error = none) :
    o.bind f = f o.archive := by
  simp only [Outcome.bind, h]

theorem bind_close_parent (o : Outcome α) (parent name : String) :
    (∀ n m, (o.bind fun a => close_parent a parent name).archive.find_attribute n m =
      o.archive.find_attribute n m) ∧
    (o.bind fun a => close_parent a parent name).archive.groups = o.archive.groups ∧
    (o.bind fun a => close_parent a parent name).archive.revision = o.archive.revision ∧
    (o.bind fun a => close_parent a parent name).archive.context = o.archive.context := by
  simp only [Outcome.bind]
  cases o.error with
  | none => exact ⟨fun _ _ => rfl, rfl, rfl, rfl⟩
  | some e => exact ⟨fun _ _ => rfl, rfl, rfl, rfl⟩

theorem h5a_write_tree (ar : Archive α) (n m : String) (ptr : Ptr α) :
    (h5a_write ar n m ptr).archive.groups = ar.groups ∧
    (h5a_write ar n m ptr).archive.revision = ar.revision ∧
    (h5a_write ar n m ptr).archive.context = ar.context := by
  rcases h5a_write_cases ar n m ptr with h | ⟨pl, h⟩
  · rw [h]
    exact ⟨rfl, rfl, rfl⟩
  · rw [h]
    exact ⟨rfl, rfl, rfl⟩

theorem ensure_check_tree (ar : Archive α) (parent name : String) (size : List Nat)
    (t : TypeTag) (S : Space) :
    (ensure_attribute (check_existing ar parent name size t) parent name S t).groups =
      ar.groups ∧
    (ensure_attribute (check_existing ar parent name size t) parent name S t).revision =
      ar.revision ∧
    (ensure_attribute (check_existing ar parent name size t) parent name S t).context =
      ar.context := by
  have h1 : (check_existing ar parent name size t).groups = ar.groups ∧
      (check_existing ar parent name size t).revision = ar.revision ∧
      (check_existing ar parent name size t).context = ar.context := by
    simp only [check_existing]
    cases ar.find_attribute parent name with
    | none => exact ⟨rfl, rfl, rfl⟩
    | some r =>
      simp only
      split_ifs
      · exact ⟨rfl, rfl, rfl⟩
      · exact ⟨rfl, rfl, rfl⟩
  simp only [ensure_attribute]
  split_ifs
  · exact h1
  · exact h1

theorem attribute_write_tree (zero : α) (fuel : Nat) (ar : Archive α) (parent name : String)
    (v : AttrValue α) :
    (attribute_write zero fuel ar parent name v).archive.groups = ar.groups ∧
    (attribute_write zero fuel ar parent name v).archive.revision = ar.revision ∧
    (attribute_write zero fuel ar parent name v).archive.context = ar.context := by
  cases ht : get_native_type v with
  | error e => simp only [attribute_write, ht, and_self]
  | ok t =>
    cases hs : v.get_extent with
    | error e => simp only [attribute_write, ht, hs, and_self]
    | ok size =>
      cases hc : v.get_offset with
      | error e => simp only [attribute_write, ht, hs, hc, and_self]
      | ok count =>
        have hB := ensure_check_tree ar parent name size t (value_space v size)
        rcases attribute_write_cases zero fuel ar parent name v t size count ht hs hc with
          hh | ⟨pl, hh⟩
        · rw [hh]
          exact hB
        · rw [hh]
          exact hB

theorem open_parent_group (ar : Archive α) (parent rev_path : String) (tracked : Bool)
    (hgrp : ar.is_group parent = true) :
    (open_parent ar parent rev_path tracked).error = none ∧
    (∀ n m, (open_parent ar parent rev_path tracked).archive.find_attribute n m =
      ar.find_attribute n m) ∧
    (open_parent ar parent rev_path tracked).archive.revision = ar.revision ∧
    (open_parent ar parent rev_path tracked).archive.context = ar.context ∧
    (∀ g ∈ ar.groups, g ∈ (open_parent ar parent rev_path tracked).archive.groups) := by
  simp only [open_parent, hgrp, if_true]
  split_ifs
  · refine ⟨rfl, fun _ _ => rfl, rfl, rfl, ?_⟩
    intro g hg
    simp only [Archive.set_group, Archive.open_handle]
    split_ifs
    · exact hg
    · exact List.mem_cons_of_mem _ hg
  · exact ⟨rfl, fun _ _ => rfl, rfl, rfl, fun _ hg => hg⟩

theorem is_group_mono (a b : Archive α) (hc : b.context = a.context)
    (hg : ∀ g ∈ a.groups, g ∈ b.groups) (q : String) (h : a.is_group q = true) :
    b.is_group q = true := by
  simp only [Archive.is_group, Archive.complete_path, hc] at h ⊢
  simp only [List.contains_eq_any_beq, List.any_eq_true, beq_iff_eq] at h ⊢
  obtain ⟨x, hx, hxe⟩ := h
  exact ⟨x, hg x hx, hxe⟩
theorem attribute_write_exists (zero : α) (fuel : Nat) (ar : Archive α) (parent name : String)
    (v : AttrValue α) (r : AttrRec α) (hex : ar.find_attribute parent name = some r) :
    ∃ r1, (attribute_write zero fuel ar parent name v).archive.find_attribute parent name =
      some r1 := by
  cases ht : get_native_type v with
  | error e => exact ⟨r, by simp only [attribute_write, ht, hex]⟩
  | ok t =>
    cases hs : v.get_extent with
    | error e => exact ⟨r, by simp only [attribute_write, ht, hs, hex]⟩
    | ok size =>
      cases hc : v.get_offset with
      | error e => exact ⟨r, by simp only [attribute_write, ht, hs, hc, hex]⟩
      | ok count =>
        have hB : ∃ r1, (ensure_attribute (check_existing ar parent name size t) parent name
            (value_space v size) t).find_attribute parent name = some r1 := by
          cases hin : attribute_incompatible size t r with
          | true =>
            rw [ensure_check_incompatible ar parent name size t r _ hex hin]
            exact ⟨_, find_create_self _ parent name _ t⟩
          | false =>
            rw [ensure_check_compatible ar parent name size t r _ hex hin]
            exact ⟨r, hex⟩
        obtain ⟨r1, hr1⟩ := hB
        rcases attribute_write_cases zero fuel ar parent name v t size count ht hs hc with
          hh | ⟨pl, hh⟩
        · rw [hh]
          exact ⟨r1, hr1⟩
        · rw [hh]
          refine ⟨{ r1 with payload := pl }, ?_⟩
          show Archive.find_attribute (Archive.write_attribute _ parent name pl) parent name = _
          rw [find_write_self, hr1]
          rfl

theorem set_attribute_tracked (zero : α) (fuel depth : Nat) (ar : Archive α) (p : String)
    (v : AttrValue α) (r : AttrRec α)
    (hrev : ar.revision ≠ 0)
    (hout : substr (attribute_parent p) 0 10 ≠ "/revisions")
    (hgrp : ar.is_group (attribute_parent p) = true)
    (hex : ar.find_attribute (attribute_parent p) (attribute_name p) = some r) :
    (set_attribute zero fuel (depth + 1) ar p v).archive.find_attribute
        ("/revisions/" ++ toString ar.revision ++ p) (attribute_name p) =
      (match ar.find_attribute ("/revisions/" ++ toString ar.revision ++ p)
          (attribute_name p) with
        | some s => if s.type = TypeTag.state then some r else some s
        | none => some r) ∧
    (set_attribute zero fuel (depth + 1) ar p v).archive.revision = ar.revision ∧
    (set_attribute zero fuel (depth + 1) ar p v).archive.is_group (attribute_parent p) =
      true ∧
    ∃ r1, (set_attribute zero fuel (depth + 1) ar p v).archive.find_attribute
      (attribute_parent p) (attribute_name p) = some r1 := by
  have htr : (ar.revision != 0 && substr (attribute_parent p) 0 10 != "/revisions") = true := by
    simp [hrev, hout]
  have hne : "/revisions/" ++ toString ar.revision ++ p ≠ attribute_parent p := by
    rw [String.append_assoc]
    exact rev_path_ne _ _ hout
  have hk : ("/revisions/" ++ toString ar.revision ++ p, attribute_name p) ≠
      (attribute_parent p, attribute_name p) := fun h => hne (congrArg Prod.fst h)
  simp only [set_attribute, htr]
  obtain ⟨ho1, ho2, ho3, ho4, ho5⟩ := open_parent_group ar (attribute_parent p)
    ("/revisions/" ++ toString ar.revision ++ p) true hgrp
  rw [bind_of_no_error _ _ ho1]
  generalize (open_parent ar (attribute_parent p)
    ("/revisions/" ++ toString ar.revision ++ p) true).archive = a1 at ho2 ho3 ho4 ho5
  obtain ⟨hs1, hs2, hs3, hs4, hs5, hs6⟩ := shadow_attribute_entry
    (fun a q x => set_attribute zero fuel depth a q x) a1 (attribute_parent p)
    (attribute_name p) ("/revisions/" ++ toString ar.revision ++ p) r hne
    ((ho2 _ _).trans hex)
  rw [bind_of_no_error _ _ hs1]
  generalize (shadow_attribute (fun a q x => set_attribute zero fuel depth a q x) a1
    (attribute_parent p) (attribute_name p) ("/revisions/" ++ toString ar.revision ++ p)
    true).archive = a5 at hs2 hs3 hs4 hs5 hs6
  obtain ⟨hc1, hc2, hc3, hc4⟩ := bind_close_parent
    (attribute_write zero fuel a5 (attribute_parent p) (attribute_name p) v)
    (attribute_parent p) (attribute_name p)
  obtain ⟨hw1, hw2, hw3⟩ := attribute_write_tree zero fuel a5 (attribute_parent p)
    (attribute_name p) v
  refine ⟨?_, ?_, ?_, ?_⟩
  · rw [hc1, attribute_write_frame zero fuel a5 _ _ v _ _ hk, hs6, ho2]
  · rw [hc3, hw2, hs4, ho3]
  · apply is_group_mono ar _ _ _ _ hgrp
    · rw [hc4, hw3, hs5, ho4]
    · intro g hg
      rw [hc2, hw1, hs3]
      exact ho5 g hg
  · obtain ⟨r1, hr1⟩ := attribute_write_exists zero fuel a5 (attribute_parent p)
      (attribute_name p) v r hs2
    exact ⟨r1, by rw [hc1, hr1]⟩
theorem write_sequence_shadow (zero : α) (fuel depth : Nat) (p : String) (r : AttrRec α)
    (hr : r.type ≠ TypeTag.state)
    (hout : substr (attribute_parent p) 0 10 ≠ "/revisions") :
    ∀ (vs : List (AttrValue α)) (a : Archive α), a.revision ≠ 0 →
    a.is_group (attribute_parent p) = true →
    (∃ r1, a.find_attribute (attribute_parent p) (attribute_name p) = some r1) →
    a.find_attribute ("/revisions/" ++ toString a.revision ++ p) (attribute_name p) = some r →
    (write_sequence zero fuel (depth + 1) p vs a).find_attribute
      ("/revisions/" ++ toString a.revision ++ p) (attribute_name p) = some r
  | [], _, _, _, _, hsh => hsh
  | v :: vs, a, hrev, hgrp, ⟨r1, hex⟩, hsh => by
    obtain ⟨h1, h2, h3, h4⟩ := set_attribute_tracked zero fuel depth a p v r1 hrev hout hgrp hex
    rw [hsh] at h1
    simp only [hr, if_false] at h1
    have ih := write_sequence_shadow zero fuel depth p r hr hout vs
      (set_attribute zero fuel (depth + 1) a p v).archive (by rw [h2]; exact hrev) h3 h4
      (by rw [h2]; exact h1)
    rw [h2] at ih
    exact ih

/-- C17 (as stated, refuted). Revision 1; the attribute `x` of the group `/a` exists and the
shadow node `/revisions/1/a/@x` already holds an entry for `x`, a create marker. A write to
`/a/@x` does not leave this entry unchanged: afterwards the shadow entry is the previous
value of the attribute, of the numeric element type. -/
theorem attribute_supersession_counterexample :
    (Archive.find_attribute (α := Int)
      { context := "", groups := ["/", "/a", "/revisions/1/a/@x"], datasets := [], log := [],
        revision := 1,
        attributes := [(("/a", "x"),
            { space := Space.scalar, type := TypeTag.numeric, payload := Payload.values [5] }),
          (("/revisions/1/a/@x", "x"),
            { space := Space.scalar, type := TypeTag.state,
              payload := Payload.state StateMarker.CREATE })] }
      "/revisions/1/a/@x" "x").map (fun a => a.type) = some TypeTag.state ∧
    ((set_attribute (0 : Int) 4 1
      { context := "", groups := ["/", "/a", "/revisions/1/a/@x"], datasets := [], log := [],
        revision := 1,
        attributes := [(("/a", "x"),
            { space := Space.scalar, type := TypeTag.numeric, payload := Payload.values [5] }),
          (("/revisions/1/a/@x", "x"),
            { space := Space.scalar, type := TypeTag.state,
              payload := Payload.state StateMarker.CREATE })] }
      "/a/@x" (AttrValue.num 0 (7 : Int))).archive.find_attribute
        "/revisions/1/a/@x" "x").map (fun a => a.type) = some TypeTag.numeric := by
  refine ⟨rfl, ?_⟩
  rfl

/-- C17 (amended). Attribute supersession under revision tracking: the revision is not 0, the
parent node is a group whose path does not begin with `/revisions`, and the attribute exists
on the parent node. After the write the entry of that name of the shadow node
`/revisions/<n><p>` of the current revision is the previous value of the attribute if the
shadow node held no entry of that name or held a state marker; any other entry of the
shadow node is left unchanged. Hence, when the shadow node held no entry and the previous
value is not a state marker, after two writes the shadow entry holds the first pre-overwrite
value, and any further writes leave it as it was. -/
theorem attribute_supersession (zero : α) (fuel depth : Nat) (ar : Archive α) (p : String)
    (v : AttrValue α) (r : AttrRec α)
    (hrev : ar.revision ≠ 0)
    (hout : substr (attribute_parent p) 0 10 ≠ "/revisions")
    (hgrp : ar.is_group (attribute_parent p) = true)
    (hex : ar.find_attribute (attribute_parent p) (attribute_name p) = some r) :
    (set_attribute zero fuel (depth + 1) ar p v).archive.find_attribute
        ("/revisions/" ++ toString ar.revision ++ p) (attribute_name p) =
      (match ar.find_attribute ("/revisions/" ++ toString ar.revision ++ p)
          (attribute_name p) with
        | some s => if s.type = TypeTag.state then some r else some s
        | none => some r) ∧
    (r.type ≠ TypeTag.state →
      ar.find_attribute ("/revisions/" ++ toString ar.revision ++ p) (attribute_name p) = none →
      ∀ (v2 : AttrValue α) (vs : List (AttrValue α)),
        (write_sequence zero fuel (depth + 1) p (v :: v2 :: vs) ar).find_attribute
          ("/revisions/" ++ toString ar.revision ++ p) (attribute_name p) = some r) := by
  obtain ⟨h1, h2, h3, h4⟩ := set_attribute_tracked zero fuel depth ar p v r hrev hout hgrp hex
  refine ⟨h1, ?_⟩
  intro hr hnone v2 vs
  rw [hnone] at h1
  have hseq := write_sequence_shadow zero fuel depth p r hr hout (v2 :: vs)
    (set_attribute zero fuel (depth + 1) ar p v).archive (by rw [h2]; exact hrev) h3 h4
    (by rw [h2]; exact h1)
  rw [h2] at hseq
  exact hseq

/-- Instance of `attribute_supersession` at a concrete input. -/
theorem attribute_supersession_witness :
    (write_sequence (0 : Int) 4 1 "/a/@x"
      [AttrValue.num 0 (7 : Int), AttrValue.num 0 (8 : Int), AttrValue.num 0 (9 : Int)]
      { context := "", groups := ["/", "/a"], datasets := [], log := [], revision := 1,
        attributes := [(("/a", "x"),
          { space := Space.scalar, type := TypeTag.numeric, payload := Payload.values [5] })]
      }).find_attribute ("/revisions/" ++ toString 1 ++ "/a/@x") (attribute_name "/a/@x") =
      some { space := Space.scalar, type := TypeTag.numeric, payload := Payload.values [5] } :=
  (attribute_supersession (0 : Int) 4 0
    { context := "", groups := ["/", "/a"], datasets := [], log := [], revision := 1,
      attributes := [(("/a", "x"),
        { space := Space.scalar, type := TypeTag.numeric, payload := Payload.values [5] })] }
    "/a/@x" (AttrValue.num 0 (7 : Int))
    { space := Space.scalar, type := TypeTag.numeric, payload := Payload.values [5] }
    (by decide) (by decide) (by decide) rfl).2 (by decide) rfl
    (AttrValue.num 0 (8 : Int)) [AttrValue.num 0 (9 : Int)]
/-! ## Theorems: the typed `serialize` of the writing archive -/

theorem is_cplx_eq_complex_valued : ∀ (T : CType), is_cplx T = complex_valued T
  | .scalar => rfl
  | .string => rfl
  | .complex _ => rfl
  | .container T => by
    have ih := is_cplx_eq_complex_valued T
    simpa [is_cplx, complex_valued, innermost] using ih
  | .buffer T => by
    have ih := is_cplx_eq_complex_valued T
    simpa [is_cplx, complex_valued, innermost] using ih

theorem bind_pure (o : Outcome α) : (o.bind fun a => ⟨a, none⟩) = o := by
  cases o with
  | mk a e =>
    cases e with
    | none => rfl
    | some x => rfl

theorem flag_write_result (zero : α) (fuel : Nat) (a : Archive α) (node name : String) :
    (attribute_write zero fuel a node name (AttrValue.flag true)).error = none ∧
    (attribute_write zero fuel a node name (AttrValue.flag true)).archive.find_attribute
      node name =
      some { space := Space.scalar, type := TypeTag.int8, payload := Payload.flag true } := by
  have hB : (ensure_attribute (check_existing a node name [1] TypeTag.int8) node name
      Space.scalar TypeTag.int8).find_attribute node name =
      some { space := Space.scalar, type := TypeTag.int8, payload := Payload.values [] } ∨
    ∃ r, (ensure_attribute (check_existing a node name [1] TypeTag.int8) node name
      Space.scalar TypeTag.int8).find_attribute node name = some r ∧
      r.space = Space.scalar ∧ r.type = TypeTag.int8 := by
    cases hf : a.find_attribute node name with
    | none =>
      left
      have h1 : check_existing a node name [1] TypeTag.int8 = a := by
        simp only [check_existing, hf]
      rw [h1, ensure_attribute, hf]
      exact find_create_self a node name _ _
    | some r =>
      cases hin : attribute_incompatible [1] TypeTag.int8 r with
      | true =>
        left
        rw [ensure_check_incompatible a node name [1] TypeTag.int8 r _ hf hin]
        exact find_create_self _ node name _ _
      | false =>
        right
        rw [ensure_check_compatible a node name [1] TypeTag.int8 r _ hf hin]
        refine ⟨r, hf, ?_, compatible_type [1] TypeTag.int8 r hin⟩
        exact compatible_space (AttrValue.flag (α := α) true) [1] TypeTag.int8 r rfl hin
          (Or.inl rfl)
  have hw : attribute_write zero fuel a node name (AttrValue.flag true) =
      ⟨(ensure_attribute (check_existing a node name [1] TypeTag.int8) node name
        Space.scalar TypeTag.int8).write_attribute node name (Payload.flag true), none⟩ := rfl
  rw [hw]
  refine ⟨rfl, ?_⟩
  show Archive.find_attribute (Archive.write_attribute _ node name (Payload.flag true))
    node name = _
  rw [find_write_self]
  rcases hB with h | ⟨r, h, hs, ht⟩
  · rw [h]
    rfl
  · rw [h]
    simp only [Option.map_some', hs, ht]
theorem set_attribute_complex_marker (zero : α) (fuel depth : Nat) (a : Archive α)
    (node : String) (hg : a.is_group node = false) (hd : a.is_data node = true)
    (hrev : a.revision = 0) (hlen : (node ++ "/@__complex__").length < 2 ^ 64) :
    (set_attribute zero fuel (depth + 1) a (node ++ "/@__complex__")
      (AttrValue.flag true)).error = none ∧
    (set_attribute zero fuel (depth + 1) a (node ++ "/@__complex__")
      (AttrValue.flag true)).archive.find_attribute node "__complex__" =
      some { space := Space.scalar, type := TypeTag.int8, payload := Payload.flag true } := by
  have hp : node ++ "/@__complex__" = node ++ String.singleton '/' ++ "@" ++ "__complex__" := by
    apply String.ext
    simp only [String.data_append, List.append_assoc]
    rfl
  rw [hp] at hlen
  obtain ⟨hparent, hname⟩ := attribute_path_split_at node "__complex__" '/' (by decide) hlen
  rw [← hp] at hparent hname
  have htr : (a.revision != 0 && substr node 0 10 != "/revisions") = false := by
    simp [hrev]
  simp only [set_attribute, hparent, hname, htr]
  have hopen : open_parent a node
      ("/revisions/" ++ toString a.revision ++ (node ++ "/@__complex__")) false =
      ⟨a.open_handle (Handle.data node), none⟩ := by
    simp [open_parent, hg, hd]
  rw [hopen, bind_of_no_error _ _ rfl]
  have hshadow : ∀ (b : Archive α), shadow_attribute
      (fun a q x => set_attribute zero fuel depth a q x) b node "__complex__"
      ("/revisions/" ++ toString a.revision ++ (node ++ "/@__complex__")) false = ⟨b, none⟩ := by
    intro b
    simp [shadow_attribute]
  rw [hshadow, bind_of_no_error _ _ rfl]
  obtain ⟨hw1, hw2⟩ := flag_write_result zero fuel (a.open_handle (Handle.data node)) node
    "__complex__"
  rw [bind_of_no_error _ _ hw1]
  exact ⟨rfl, hw2⟩

/-- The dispatch of `oarchive::serialize` for a value of type `T`, built without
`ALPS_HDF5_WRITE_PYTHON_COMPATIBLE_COMPLEX`. The trait `is_cplx<T>` holds exactly for the
complex-valued types (a complex number, or a container or raw buffer whose innermost element
type is complex). If `p` contains `'@'` the call is the attribute write at the completed
path. Otherwise it is the dataset write at the completed path, alone for a type that is
not complex-valued, and followed for a complex-valued type by the attribute write of `true`
at `<completed path>/@__complex__`; written on a dataset node with revision tracking off,
that write succeeds and leaves the attribute `__complex__` of the node stored as a scalar
of the `bool` wire type holding `true`. -/
theorem oarchive_serialize_dispatch {V : Type} (T : CType)
    (set_attribute_value set_data_value : Archive α → String → V → Outcome α)
    (zero : α) (fuel depth : Nat) (ar : Archive α) (p : String) (v : V) :
    (is_attribute_path p = true ↔ '@' ∈ p.data) ∧
    is_cplx T = complex_valued T ∧
    (is_attribute_path p = true →
      oarchive_serialize_typed false T set_attribute_value set_data_value zero fuel depth ar p v =
        set_attribute_value ar (ar.complete_path p) v) ∧
    (is_attribute_path p = false → complex_valued T = false →
      oarchive_serialize_typed false T set_attribute_value set_data_value zero fuel depth ar p v =
        set_data_value ar (ar.complete_path p) v) ∧
    (is_attribute_path p = false → complex_valued T = true →
      oarchive_serialize_typed false T set_attribute_value set_data_value zero fuel depth ar p v =
        (set_data_value ar (ar.complete_path p) v).bind fun ar1 =>
          set_attribute zero fuel depth ar1 (ar1.complete_path p ++ "/@__complex__")
            (AttrValue.flag true)) ∧
    (∀ (a : Archive α) (node : String), a.is_group node = false → a.is_data node = true →
      a.revision = 0 → (node ++ "/@__complex__").length < 2 ^ 64 →
      (set_attribute zero fuel (depth + 1) a (node ++ "/@__complex__")
        (AttrValue.flag true)).error = none ∧
      (set_attribute zero fuel (depth + 1) a (node ++ "/@__complex__")
        (AttrValue.flag true)).archive.find_attribute node "__complex__" =
        some { space := Space.scalar, type := TypeTag.int8, payload := Payload.flag true }) := by
  refine ⟨?_, is_cplx_eq_complex_valued T, ?_, ?_, ?_, ?_⟩
  · simp [is_attribute_path]
  · intro hp
    simp only [oarchive_serialize_typed, hp, if_true]
  · intro hp hc
    rw [← is_cplx_eq_complex_valued] at hc
    simp only [oarchive_serialize_typed, hp, hc, Bool.false_eq_true, if_false, Bool.not_false,
      Bool.and_false]
    exact bind_pure _
  · intro hp hc
    rw [← is_cplx_eq_complex_valued] at hc
    simp only [oarchive_serialize_typed, hp, hc, Bool.false_eq_true, if_false, Bool.not_false,
      Bool.and_self, if_true]
  · intro a node hg hd hrev hlen
    exact set_attribute_complex_marker zero fuel depth a node hg hd hrev hlen

/-- Instance of `oarchive_serialize_dispatch` at a concrete input. -/
theorem oarchive_serialize_dispatch_witness :
    (set_attribute (0 : Int) 4 1
      { context := "", groups := ["/"], datasets := ["/z"], log := [] } ("/z" ++ "/@__complex__")
      (AttrValue.flag true)).error = none ∧
    (set_attribute (0 : Int) 4 1
      { context := "", groups := ["/"], datasets := ["/z"], log := [] } ("/z" ++ "/@__complex__")
      (AttrValue.flag true)).archive.find_attribute "/z" "__complex__" =
      some { space := Space.scalar, type := TypeTag.int8, payload := Payload.flag true } :=
  (oarchive_serialize_dispatch (α := Int) (V := Unit) (CType.container (CType.complex CType.scalar))
    (fun a _ _ => ⟨a, none⟩) (fun a _ _ => ⟨a, none⟩) (0 : Int) 4 0
    { context := "", groups := ["/"], datasets := ["/z"], log := [] } "/z" ()).2.2.2.2.2
    { context := "", groups := ["/"], datasets := ["/z"], log := [] } "/z"
    (by decide) (by decide) rfl (by decide)

/-- C13 (the code departs from the claim). Function `oarchive::serialize` for a complex number
written at the dataset path `/x`, built without `ALPS_HDF5_WRITE_PYTHON_COMPATIBLE_COMPLEX`,
the dataset write creating the dataset `/x` with the extent `[2]` of a complex number. With
revision tracking on (revision 1) the dataset is written, but the following
`set_attribute("/x/@__complex__", true)` opens the dataset as parent and writes the placeholder
marker to the shadow dataset `/revisions/1/x` (line 846) through `get_native_type`, which has
no overload for the marker type: the call ends with RuntimeError and the dataset `/x` carries
no attribute `__complex__`. The same holds when the shadow dataset exists already: the create
marker of line 853 fails in the same way. With revision tracking off the same call succeeds
and leaves the attribute stored as a scalar of the `bool` wire type holding `true`. -/
theorem complex_marker_lost_under_revisions :
    (oarchive_serialize_typed (α := Int) (V := Unit) false (CType.complex CType.scalar)
      (fun a _ _ => ⟨a, none⟩) (fun a q _ => ⟨a.save_comitted_data q (Space.simple [2]), none⟩)
      0 4 2 { context := "", groups := ["/"], datasets := [], log := [], revision := 1 }
      "/x" ()).error = some Err.RuntimeError ∧
    (oarchive_serialize_typed (α := Int) (V := Unit) false (CType.complex CType.scalar)
      (fun a _ _ => ⟨a, none⟩) (fun a q _ => ⟨a.save_comitted_data q (Space.simple [2]), none⟩)
      0 4 2 { context := "", groups := ["/"], datasets := [], log := [], revision := 1 }
      "/x" ()).archive.is_data "/x" = true ∧
    (oarchive_serialize_typed (α := Int) (V := Unit) false (CType.complex CType.scalar)
      (fun a _ _ => ⟨a, none⟩) (fun a q _ => ⟨a.save_comitted_data q (Space.simple [2]), none⟩)
      0 4 2 { context := "", groups := ["/"], datasets := [], log := [], revision := 1 }
      "/x" ()).archive.find_attribute "/x" "__complex__" = none ∧
    (set_attribute (0 : Int) 4 2
      { context := "", groups := ["/"], datasets := ["/x", "/revisions/1/x"], log := [],
        revision := 1 }
      "/x/@__complex__" (AttrValue.flag true)).error = some Err.RuntimeError ∧
    (set_attribute (0 : Int) 4 2
      { context := "", groups := ["/"], datasets := ["/x", "/revisions/1/x"], log := [],
        revision := 1 }
      "/x/@__complex__" (AttrValue.flag true)).archive.find_attribute "/x" "__complex__" = none ∧
    (oarchive_serialize_typed (α := Int) (V := Unit) false (CType.complex CType.scalar)
      (fun a _ _ => ⟨a, none⟩) (fun a q _ => ⟨a.save_comitted_data q (Space.simple [2]), none⟩)
      0 4 2 { context := "", groups := ["/"], datasets := [], log := [], revision := 0 }
      "/x" ()).error = none ∧
    (oarchive_serialize_typed (α := Int) (V := Unit) false (CType.complex CType.scalar)
      (fun a _ _ => ⟨a, none⟩) (fun a q _ => ⟨a.save_comitted_data q (Space.simple [2]), none⟩)
      0 4 2 { context := "", groups := ["/"], datasets := [], log := [], revision := 0 }
      "/x" ()).archive.find_attribute "/x" "__complex__" =
      some { space := Space.scalar, type := TypeTag.int8, payload := Payload.flag true } := by
  refine ⟨by decide, by decide, rfl, by decide, rfl, by decide, rfl⟩

/-! ## Theorems: the path context during a composite transfer -/

/-- C18. The generic `serialize` behind a proxy. For a non-native (composite) value the
method `v.serialize(ar)` of the value runs on the archive whose context is
`complete_path(p)` and which is otherwise the archive before the call; when the method
returns, the transfer returns with the context the archive had before the call, whatever the
method has done to the context, and with everything else as the method left it. For a native
value the call is exactly the `serialize(p, v)` of the archive on the archive as it is: the
context is not touched. -/
theorem serialize_impl_context {V : Type}
    (archive_serialize : Archive α → String → V → Outcome α)
    (value_serialize : V → Archive α → Outcome α) (ar : Archive α) (p : String) (v : V) :
    generic_serialize false archive_serialize value_serialize ar p v =
      ((value_serialize v (ar.set_context (ar.complete_path p))).bind fun ar1 =>
        ⟨ar1.set_context ar.get_context, none⟩) ∧
    (ar.set_context (ar.complete_path p)).get_context = ar.complete_path p ∧
    ar.set_context (ar.complete_path p) = { ar with context := ar.complete_path p } ∧
    ((value_serialize v (ar.set_context (ar.complete_path p))).error = none →
      (generic_serialize false archive_serialize value_serialize ar p v).error = none ∧
      (generic_serialize false archive_serialize value_serialize ar p v).archive.get_context =
        ar.get_context ∧
      (generic_serialize false archive_serialize value_serialize ar p v).archive =
        { (value_serialize v (ar.set_context (ar.complete_path p))).archive with
          context := ar.get_context }) ∧
    generic_serialize true archive_serialize value_serialize ar p v =
      archive_serialize ar p v := by
  refine ⟨rfl, rfl, rfl, ?_, rfl⟩
  intro h
  have hg : generic_serialize false archive_serialize value_serialize ar p v =
      ⟨(value_serialize v (ar.set_context (ar.complete_path p))).archive.set_context
        ar.get_context, none⟩ := by
    simp only [generic_serialize, serialize_impl_composite, Bool.false_eq_true, if_false]
    rw [bind_of_no_error _ _ h]
  rw [hg]
  exact ⟨rfl, rfl, rfl⟩

/-- Instance of `serialize_impl_context` at a concrete input. -/
theorem serialize_impl_context_witness :
    (generic_serialize (α := Int) (V := Unit) false (fun a _ _ => ⟨a, none⟩)
      (fun _ a => ⟨a.set_context "/elsewhere", none⟩)
      { context := "/sim", groups := ["/"], datasets := [], log := [] } "obs" ()).error = none ∧
    (generic_serialize (α := Int) (V := Unit) false (fun a _ _ => ⟨a, none⟩)
      (fun _ a => ⟨a.set_context "/elsewhere", none⟩)
      { context := "/sim", groups := ["/"], datasets := [], log := [] } "obs"
      ()).archive.get_context =
      Archive.get_context (α := Int)
        { context := "/sim", groups := ["/"], datasets := [], log := [] } :=
  ⟨((serialize_impl_context (α := Int) (V := Unit) (fun a _ _ => ⟨a, none⟩)
      (fun _ a => ⟨a.set_context "/elsewhere", none⟩)
      { context := "/sim", groups := ["/"], datasets := [], log := [] } "obs" ()).2.2.2.1 rfl).1,
    ((serialize_impl_context (α := Int) (V := Unit) (fun a _ _ => ⟨a, none⟩)
      (fun _ a => ⟨a.set_context "/elsewhere", none⟩)
      { context := "/sim", groups := ["/"], datasets := [], log := [] } "obs"
      ()).2.2.2.1 rfl).2.1⟩
/-! ## Theorems: error kinds behind a proxy -/

/-- C19 (as stated, refuted). The three-level vector `[[[1, 2]], [[1]]]` is not rectangular:
written at `/x` the transfer raises RangeError at the point of detection. Streamed through a
proxy the same transfer arrives at the caller as RuntimeError. -/
theorem pvp_error_kind_counterexample :
    serialize (α := Int) (fun _ _ _ _ => .error Err.RuntimeError) 8 3
      { context := "", groups := ["/"], datasets := [], log := [] } "/x"
      ([[[1, 2]], [[1]]] : List (List (List Int))) = .error Err.RangeError ∧
    pvp_serialize (α := Int) (serialize (fun _ _ _ _ => .error Err.RuntimeError) 8 3)
      { context := "", groups := ["/"], datasets := [], log := [] } "/x"
      ([[[1, 2]], [[1]]] : List (List (List Int))) = .error Err.RuntimeError := by
  refine ⟨rfl, rfl⟩

/-- C19 (amended). A transfer streamed through a proxy (`pvp::serialize`): a transfer that
succeeds is passed on unchanged; when the transfer fails with an exception, the caller
receives RuntimeError, whatever kind was raised at the point of detection: RuntimeError
stays RuntimeError and RangeError arrives as RuntimeError. -/
theorem pvp_error_kind {V : Type} (call_serialize : Archive α → String → V → Except Err (Archive α))
    (ar : Archive α) (p : String) (v : V) :
    (∀ ar1, call_serialize ar p v = .ok ar1 → pvp_serialize call_serialize ar p v = .ok ar1) ∧
    (call_serialize ar p v = .error Err.RuntimeError →
      pvp_serialize call_serialize ar p v = .error Err.RuntimeError) ∧
    (call_serialize ar p v = .error Err.RangeError →
      pvp_serialize call_serialize ar p v = .error Err.RuntimeError) ∧
    (∀ e, e.is_exception = true → call_serialize ar p v = .error e →
      pvp_serialize call_serialize ar p v = .error Err.RuntimeError) := by
  refine ⟨?_, ?_, ?_, ?_⟩
  · intro ar1 h
    simp only [pvp_serialize, h]
  · intro h
    simp only [pvp_serialize, h, Err.is_exception, if_true]
  · intro h
    simp only [pvp_serialize, h, Err.is_exception, if_true]
  · intro e he h
    simp only [pvp_serialize, h, he, if_true]

/-- Instance of `pvp_error_kind` at a concrete input. -/
theorem pvp_error_kind_witness :
    pvp_serialize (α := Int) (serialize (fun _ _ _ _ => .error Err.RuntimeError) 8 3)
      { context := "", groups := ["/"], datasets := [], log := [] } "/x"
      ([[[1, 2]], [[1]]] : List (List (List Int))) = .error Err.RuntimeError :=
  (pvp_error_kind (α := Int) (serialize (fun _ _ _ _ => .error Err.RuntimeError) 8 3)
    { context := "", groups := ["/"], datasets := [], log := [] } "/x"
    ([[[1, 2]], [[1]]] : List (List (List Int)))).2.2.1 rfl
/-! ## Theorems: read validation -/

theorem resize_zero {β : Type} (dflt : β) (v : List β) : resize dflt 0 v = [] := by
  simp [resize]

theorem set_extent_empty (zero : α) : ∀ (d : Nat) (v : NVec α (d + 1)),
    set_extent zero (d + 1) v [0] = .ok (List.nil (α := NVec α d))
  | 0, v => by
    rw [set_extent_one]
    simp only [List.length_singleton, if_true, List.headD_cons]
    rw [resize_zero]
  | d + 1, v => by
    rw [set_extent_succ_single]
    simp

/-- C20. Read validation in `archive_base::get_helper`, built without
`ALPS_HDF5_WRITE_PYTHON_COMPATIBLE_COMPLEX`. The read fails with RuntimeError
("scalar - vector conflict") if and only if `is_scalar(p)` differs from `is_native<T>` and
not both the path is marked complex and `T` is complex-valued; otherwise it fails with
RuntimeError ("scalars cannot be null") if and only if `T` is native and `is_null(p)`;
otherwise, if `is_null(p)`, the result is `set_extent(v, [0])` alone, whatever the data
read would do, and a nested vector becomes empty; only in the remaining case the target is
sized to the stored dimensions and the data is read into it. -/
theorem get_helper_validation {V : Type} (T_is_native T_is_cplx : Bool)
    (set_extent_value : V → List Nat → Except Err V) (read : V → Except Err V)
    (q : PathInfo) (v : V) :
    (get_helper_action false T_is_native T_is_cplx q = ReadAction.conflict ↔
      (q.is_scalar ≠ T_is_native ∧ ¬ (q.is_complex = true ∧ T_is_cplx = true))) ∧
    (get_helper_action false T_is_native T_is_cplx q = ReadAction.null_scalar ↔
      (¬ (q.is_scalar ≠ T_is_native ∧ ¬ (q.is_complex = true ∧ T_is_cplx = true)) ∧
        T_is_native = true ∧ q.is_null = true)) ∧
    (get_helper_action false T_is_native T_is_cplx q = ReadAction.resize_empty ↔
      (¬ (q.is_scalar ≠ T_is_native ∧ ¬ (q.is_complex = true ∧ T_is_cplx = true)) ∧
        T_is_native = false ∧ q.is_null = true)) ∧
    (get_helper_action false T_is_native T_is_cplx q = ReadAction.transfer ↔
      (¬ (q.is_scalar ≠ T_is_native ∧ ¬ (q.is_complex = true ∧ T_is_cplx = true)) ∧
        q.is_null = false)) ∧
    (get_helper_action false T_is_native T_is_cplx q = ReadAction.conflict →
      get_helper false T_is_native T_is_cplx set_extent_value read q v =
        .error Err.RuntimeError) ∧
    (get_helper_action false T_is_native T_is_cplx q = ReadAction.null_scalar →
      get_helper false T_is_native T_is_cplx set_extent_value read q v =
        .error Err.RuntimeError) ∧
    (get_helper_action false T_is_native T_is_cplx q = ReadAction.resize_empty →
      get_helper false T_is_native T_is_cplx set_extent_value read q v =
        set_extent_value v [0]) ∧
    (get_helper_action false T_is_native T_is_cplx q = ReadAction.transfer →
      get_helper false T_is_native T_is_cplx set_extent_value read q v =
        (match set_extent_value v q.dims with
          | .error e => .error e
          | .ok v1 => read v1)) ∧
    (∀ (zero : α) (d : Nat) (w : NVec α (d + 1))
      (read_vector : NVec α (d + 1) → Except Err (NVec α (d + 1))),
      get_helper_action false (is_native (d + 1)) false q = ReadAction.resize_empty →
      get_helper false (is_native (d + 1)) false (fun x s => set_extent zero (d + 1) x s)
        read_vector q w = .ok (List.nil (α := NVec α d))) := by
  refine ⟨?_, ?_, ?_, ?_, ?_, ?_, ?_, ?_, ?_⟩
  · cases T_is_native <;> cases T_is_cplx <;> rcases q with ⟨_ | _, _ | _, _ | _, _⟩ <;>
      simp [get_helper_action]
  · cases T_is_native <;> cases T_is_cplx <;> rcases q with ⟨_ | _, _ | _, _ | _, _⟩ <;>
      simp [get_helper_action]
  · cases T_is_native <;> cases T_is_cplx <;> rcases q with ⟨_ | _, _ | _, _ | _, _⟩ <;>
      simp [get_helper_action]
  · cases T_is_native <;> cases T_is_cplx <;> rcases q with ⟨_ | _, _ | _, _ | _, _⟩ <;>
      simp [get_helper_action]
  · intro h
    simp only [get_helper, h]
  · intro h
    simp only [get_helper, h]
  · intro h
    simp only [get_helper, h]
  · intro h
    simp only [get_helper, h]
  · intro zero d w read_vector h
    simp only [get_helper, h]
    exact set_extent_empty zero d w

/-- Instance of `get_helper_validation` at a concrete input. -/
theorem get_helper_validation_witness :
    get_helper false (is_native 2) false (fun x s => set_extent (0 : Int) 2 x s)
      (fun _ => .error Err.RuntimeError)
      { is_scalar := false, is_null := true, is_complex := false, dims := [] }
      ([[1, 2], [3, 4]] : List (List Int)) = .ok [] :=
  (get_helper_validation (α := Int) (V := Unit) false false (fun x _ => .ok x) (fun x => .ok x)
    { is_scalar := false, is_null := true, is_complex := false, dims := [] } ()).2.2.2.2.2.2.2.2
    (0 : Int) 1 ([[1, 2], [3, 4]] : List (List Int)) (fun _ => .error Err.RuntimeError)
    (by decide)
/-! ## Theorems: handles, guards, wire representation, namespace test -/

/-- C21 (the code departs from the claim). Revision tracking off; the group `/a` exists and
no handle is open. Writing the non-rectangular vector `[[1, 2], [3]]` to `/a/@x` ends with
RangeError from `get_extent`, and the handle of the parent group opened before is still open
when the operation ends. A write that returns normally leaves no handle open. -/
theorem set_attribute_handle_leak :
    (set_attribute (0 : Int) 4 1
      { context := "", groups := ["/", "/a"], datasets := [], log := [] } "/a/@x"
      (AttrValue.num 2 ([[1, 2], [3]] : List (List Int)))).error = some Err.RangeError ∧
    (set_attribute (0 : Int) 4 1
      { context := "", groups := ["/", "/a"], datasets := [], log := [] } "/a/@x"
      (AttrValue.num 2 ([[1, 2], [3]] : List (List Int)))).archive.handles =
      [Handle.group "/a"] ∧
    (set_attribute (0 : Int) 4 1
      { context := "", groups := ["/", "/a"], datasets := [], log := [] } "/a/@x"
      (AttrValue.num 1 ([1, 2, 3] : List Int))).error = none ∧
    (set_attribute (0 : Int) 4 1
      { context := "", groups := ["/", "/a"], datasets := [], log := [] } "/a/@x"
      (AttrValue.num 1 ([1, 2, 3] : List Int))).archive.handles = [] := by
  refine ⟨rfl, rfl, rfl, rfl⟩

/-- C22. Handle validation. Constructing a guard from a handle, or assigning a handle to one,
throws RuntimeError if and only if the handle is negative, and otherwise the guard holds
exactly that handle. `check_error(x)` returns `x` for every `x >= 0` and throws RuntimeError
for every `x < 0`. -/
theorem resource_validation (held id x : Int) :
    (resource_construct id = .error Err.RuntimeError ↔ id < 0) ∧
    (0 ≤ id → resource_construct id = .ok id) ∧
    ((resource_assign held id).2 = some Err.RuntimeError ↔ id < 0) ∧
    (0 ≤ id → resource_assign held id = (id, none)) ∧
    (0 ≤ x → check_error x = Exit.returned x) ∧
    (x < 0 → check_error x = Exit.thrown Err.RuntimeError) := by
  refine ⟨?_, ?_, ?_, ?_, ?_, ?_⟩
  · simp only [resource_construct]
    split_ifs with h
    · simp [h]
    · simp [h]
  · intro h
    simp only [resource_construct, if_neg (not_lt.2 h)]
  · simp only [resource_assign]
    split_ifs with h
    · simp [h]
    · simp [h]
  · intro h
    simp only [resource_assign, if_neg (not_lt.2 h)]
  · intro h
    simp [check_error, check_resource, resource_construct, resource_destroy, not_lt.2 h]
  · intro h
    simp [check_error, check_resource, resource_construct, h]

/-- Instance of `resource_validation` at a concrete input. -/
theorem resource_validation_witness :
    check_error 7 = Exit.returned 7 ∧ check_error (-1) = Exit.thrown Err.RuntimeError :=
  ⟨(resource_validation 0 0 7).2.2.2.2.1 (by decide),
    (resource_validation 0 0 (-1)).2.2.2.2.2 (by decide)⟩

/-- C24 (the code departs from the claim). For the container `[true, false]` of two booleans
the pointer `get_data` returns for start `[0]` points to a buffer of one signed byte, the
byte of the first element: reading the two bytes of the bulk transfer leaves the buffer.
For a container of one boolean the buffer is the wire representation. -/
theorem get_data_bool_one_byte :
    (get_data_bool_vector [true, false] [0]).map (fun p => p.mem) = .ok [1] ∧
    ((get_data_bool_vector [true, false] [0]).bind fun p => p.read 2) =
      .error Err.OutOfBounds ∧
    ((get_data_bool_vector [true] [0]).bind fun p => p.read 1) = .ok [1] ∧
    ((get_data_bool_vector [false] [0]).bind fun p => p.read 1) = .ok [0] := by
  refine ⟨rfl, rfl, rfl, rfl⟩

/-- C25 (the code departs from the claim). Delivering chunk 1 as the one-element buffer
`[7]` with start `[1]` and count `[1]` to `set_data` for the target `["a", "b"]` reads the
buffer position `2` and writes the target position `2`, both outside: the offset `s[0]` is
applied twice. With a buffer and a target of three elements, element 2 of the target is
overwritten with the text of `u[2]` and element 1 is left as it was. Chunk 0 is stored as
claimed. -/
theorem set_data_string_offset_twice :
    set_data_string_vector (fun x : Nat => toString x) ["a", "b"] [7] [1] [1] =
      .error Err.OutOfBounds ∧
    set_data_string_vector (fun x : Nat => toString x) ["a", "b", "c"] [7, 8, 9] [1] [1] =
      .ok ["a", "b", "9"] ∧
    set_data_string_vector (fun x : Nat => toString x) ["a", "b"] [7] [0] [1] =
      .ok ["7", "b"] := by
  refine ⟨rfl, ?_, ?_⟩
  · decide
  · decide

/-- C29 (the code departs from the claim). Revision 1; the group `/revisions_old/x` is not
inside the namespace `/revisions/<n>/...`, but its path begins with the ten characters
`/revisions`. The write to its existing attribute `a` records no shadow entry: no shadow
group is created and nothing is copied. -/
theorem revision_prefix_test :
    substr "/revisions_old/x" 0 10 = "/revisions" ∧
    (set_attribute (0 : Int) 4 1
      { context := "", groups := ["/", "/revisions_old", "/revisions_old/x"], datasets := [],
        log := [], revision := 1,
        attributes := [(("/revisions_old/x", "a"),
          { space := Space.scalar, type := TypeTag.numeric, payload := Payload.values [5] })] }
      "/revisions_old/x/@a" (AttrValue.num 0 (7 : Int))).error = none ∧
    (set_attribute (0 : Int) 4 1
      { context := "", groups := ["/", "/revisions_old", "/revisions_old/x"], datasets := [],
        log := [], revision := 1,
        attributes := [(("/revisions_old/x", "a"),
          { space := Space.scalar, type := TypeTag.numeric, payload := Payload.values [5] })] }
      "/revisions_old/x/@a" (AttrValue.num 0 (7 : Int))).archive.log =
      [Event.write_attribute "/revisions_old/x" "a" (Payload.values [7])] ∧
    ((set_attribute (0 : Int) 4 1
      { context := "", groups := ["/", "/revisions_old", "/revisions_old/x"], datasets := [],
        log := [], revision := 1,
        attributes := [(("/revisions_old/x", "a"),
          { space := Space.scalar, type := TypeTag.numeric, payload := Payload.values [5] })] }
      "/revisions_old/x/@a" (AttrValue.num 0 (7 : Int))).archive.find_attribute
        "/revisions/1/revisions_old/x/@a" "a").isNone = true := by
  refine ⟨by decide, rfl, rfl, rfl⟩
/-! ## Theorems: complex numbers -/

theorem get_extent_loop_const {β : Type} (ext : β → Except Err (List Nat)) (t : List Nat)
    (h : ∀ x, ext x = .ok t) : ∀ (rest : List β), get_extent_loop ext t rest = .ok ()
  | [] => rfl
  | x :: xs => by
    simp only [get_extent_loop, h x, std_equal_self]
    exact get_extent_loop_const ext t h xs

/-- C28 (as stated, refuted). An empty container of complex numbers over a native scalar has
the extent `[0]`, not `[0, 2]`. -/
theorem complex_extent_counterexample :
    get_extent_complex_vector true ([] : List (Int × Int)) = .ok [0] ∧
    get_extent_complex_vector true ([] : List (Int × Int)) ≠ .ok [0, 2] := by
  refine ⟨rfl, by decide⟩

/-- C28 (amended). Complex numbers, built without `ALPS_HDF5_WRITE_PYTHON_COMPATIBLE_COMPLEX`.
For `std::complex<T>` over a native scalar `T`, `get_extent` and `get_offset` both return
`[2]`, and a non-empty container of `n` complex numbers has the extent `[n, 2]`. When `T` is
not a native scalar, `get_extent` and `set_extent` fail with RuntimeError. Over a native
scalar `set_extent` fails with RangeError if and only if the target shape does not have
exactly one dimension, and succeeds otherwise. -/
theorem complex_extent {γ : Type} (v : List γ) (s : List Nat) :
    get_extent_complex true = .ok [2] ∧
    get_offset_complex = [2] ∧
    (v ≠ [] → get_extent_complex_vector true v = .ok [v.length, 2]) ∧
    get_extent_complex false = .error Err.RuntimeError ∧
    set_extent_complex false s = .error Err.RuntimeError ∧
    (set_extent_complex true s = .error Err.RangeError ↔ s.length ≠ 1) ∧
    (s.length = 1 → set_extent_complex true s = .ok ()) := by
  refine ⟨rfl, rfl, ?_, rfl, rfl, ?_, ?_⟩
  · intro hne
    cases v with
    | nil => exact absurd rfl hne
    | cons x xs =>
      have h1 : get_extent_complex true = .ok [2] := rfl
      have h2 := get_extent_loop_const (fun _ : γ => get_extent_complex true) [2]
        (fun _ => h1) xs
      have h3 : ((x :: xs).length != 0) = true := by simp
      simp only [get_extent_complex_vector, h3, if_true, h1]
      rw [h1] at h2
      rw [h2]
      rfl
  · by_cases h : s.length = 1
    · simp [set_extent_complex, h]
    · simp [set_extent_complex, h]
  · intro h
    simp [set_extent_complex, h]

/-- Instance of `complex_extent` at a concrete input. -/
theorem complex_extent_witness :
    get_extent_complex_vector true [((1 : Int), (2 : Int)), (3, 4), (5, 6)] =
      .ok [[((1 : Int), (2 : Int)), (3, 4), (5, 6)].length, 2] :=
  (complex_extent [((1 : Int), (2 : Int)), (3, 4), (5, 6)] [2]).2.2.1 (by decide)
/-! ## Theorems: the self-call of the attribute write -/

theorem find_last_of_from_range (c : Char) : ∀ (l : List Char) (i found : Nat),
    find_last_of_from c l i found = found ∨
      (i ≤ find_last_of_from c l i found ∧ find_last_of_from c l i found < i + l.length)
  | [], _, _ => Or.inl rfl
  | x :: xs, i, found => by
    simp only [find_last_of_from, List.length_cons]
    rcases find_last_of_from_range c xs (i + 1) (if (x == c) = true then i else found) with
      h | ⟨h1, h2⟩
    · rw [h]
      split_ifs
      · exact Or.inr ⟨Nat.le_refl _, by omega⟩
      · exact Or.inl rfl
    · exact Or.inr ⟨by omega, by omega⟩

theorem find_last_of_from_append (c : Char) : ∀ (xs ys : List Char) (i found : Nat),
    find_last_of_from c (xs ++ ys) i found =
      find_last_of_from c ys (i + xs.length) (find_last_of_from c xs i found)
  | [], _, _, _ => rfl
  | x :: xs, ys, i, found => by
    simp only [List.cons_append, find_last_of_from, List.length_cons]
    have ih := find_last_of_from_append c xs ys (i + 1) (if (x == c) = true then i else found)
    have hi : i + 1 + xs.length = i + (xs.length + 1) := by omega
    rw [hi] at ih
    exact ih

theorem find_last_of_ge (xs ys : List Char) (c : Char) :
    xs.length ≤ find_last_of_from c (xs ++ c :: ys) 0 npos ∧
    find_last_of_from c (xs ++ c :: ys) 0 npos < (xs ++ c :: ys).length := by
  rw [find_last_of_from_append]
  simp only [find_last_of_from, beq_self_eq_true, if_true, Nat.zero_add, List.length_append,
    List.length_cons]
  rcases find_last_of_from_range c ys (xs.length + 1) xs.length with h | ⟨h1, h2⟩
  · rw [h]
    exact ⟨Nat.le_refl _, by omega⟩
  · exact ⟨by omega, by omega⟩

theorem take_parent_prefix (pre rest : List Char) (idx : Nat) (h : 11 ≤ pre.length)
    (h1 : pre.length ≤ idx) (h2 : idx < 2 ^ 64) :
    List.take 10 (List.take ((idx + 2 ^ 64 - 1) % 2 ^ 64) (pre ++ rest)) = List.take 10 pre := by
  have hmod : (idx + 2 ^ 64 - 1) % 2 ^ 64 = idx - 1 := by
    have e : idx + 2 ^ 64 - 1 = (idx - 1) + 2 ^ 64 := by omega
    rw [e, Nat.add_mod_right]
    exact Nat.mod_eq_of_lt (by omega)
  rw [hmod, List.take_take, Nat.min_eq_left (show 10 ≤ idx - 1 by omega),
    List.take_append_of_le_length (by omega)]

theorem substr_data (s : String) (pos n : Nat) :
    (substr s pos n).data = (s.data.drop pos).take n := rfl

theorem attribute_parent_data (p : String) :
    (attribute_parent p).data =
      List.take ((find_last_of_from '@' p.data 0 npos + 2 ^ 64 - 1) % 2 ^ 64) p.data := by
  unfold attribute_parent find_last_of
  rw [substr_data, List.drop_zero]

theorem marker_parent_inside (s name : String)
    (hlen : ("/revisions/" ++ s ++ "/@" ++ name).length < 2 ^ 64) :
    substr (attribute_parent ("/revisions/" ++ s ++ "/@" ++ name)) 0 10 = "/revisions" := by
  have hd : ("/revisions/" ++ s ++ "/@" ++ name).data =
      ("/revisions/".data ++ s.data ++ ['/']) ++ '@' :: name.data := by
    simp only [String.data_append, List.append_assoc]
    rfl
  obtain ⟨h1, h2⟩ := find_last_of_ge ("/revisions/".data ++ s.data ++ ['/']) name.data '@'
  have hl : (("/revisions/".data ++ s.data ++ ['/']) ++ '@' :: name.data).length < 2 ^ 64 := by
    rw [← hd]
    exact hlen
  have h11 : 11 ≤ ("/revisions/".data ++ s.data ++ ['/']).length := by
    rw [List.length_append, List.length_append]
    have e1 : "/revisions/".data.length = 11 := rfl
    omega
  have key := take_parent_prefix ("/revisions/".data ++ s.data ++ ['/']) ('@' :: name.data)
    _ h11 h1 (Nat.lt_trans h2 hl)
  have hpre : List.take 10 ("/revisions/".data ++ s.data ++ ['/']) = "/revisions".data := by
    rw [List.append_assoc]
    rfl
  rw [hpre] at key
  apply String.ext
  rw [substr_data, List.drop_zero, attribute_parent_data, hd]
  exact key

theorem set_attribute_succ (zero : α) (fuel depth : Nat) (ar : Archive α) (p : String)
    (v : AttrValue α) :
    set_attribute zero fuel (depth + 1) ar p v =
      (open_parent ar (attribute_parent p) ("/revisions/" ++ toString ar.revision ++ p)
        (ar.revision != 0 && substr (attribute_parent p) 0 10 != "/revisions")).bind fun ar1 =>
        (shadow_attribute (fun a q x => set_attribute zero fuel depth a q x) ar1
          (attribute_parent p) (attribute_name p) ("/revisions/" ++ toString ar.revision ++ p)
          (ar.revision != 0 && substr (attribute_parent p) 0 10 != "/revisions")).bind
          fun ar5 =>
          (attribute_write zero fuel ar5 (attribute_parent p) (attribute_name p) v).bind
            fun ar6 => close_parent ar6 (attribute_parent p) (attribute_name p) := rfl

theorem shadow_attribute_untracked (wm : Archive α → String → AttrValue α → Outcome α)
    (a : Archive α) (parent name rev_path : String) :
    shadow_attribute wm a parent name rev_path false = ⟨a, none⟩ := by
  simp [shadow_attribute]

theorem set_attribute_untracked (zero : α) (fuel depth : Nat) (a : Archive α) (q : String)
    (x : AttrValue α)
    (h : (a.revision != 0 && substr (attribute_parent q) 0 10 != "/revisions") = false) :
    set_attribute zero fuel (depth + 1) a q x = set_attribute zero fuel 1 a q x := by
  simp only [set_attribute, h, shadow_attribute_untracked]

theorem set_attribute_marker_depth (zero : α) (fuel depth : Nat) (a : Archive α)
    (s name : String) (x : AttrValue α)
    (hlen : ("/revisions/" ++ s ++ "/@" ++ name).length < 2 ^ 64) :
    set_attribute zero fuel (depth + 1) a ("/revisions/" ++ s ++ "/@" ++ name) x =
      set_attribute zero fuel 1 a ("/revisions/" ++ s ++ "/@" ++ name) x := by
  apply set_attribute_untracked
  rw [marker_parent_inside s name hlen]
  simp

/-- C30. The self-call of `archive_base::set_attribute` is bounded. The only self-call is
the write of the create marker at the path `/revisions/<n><p>/@<name>`; without revision
tracking for the path (`shadow_attribute` with `tracked = false`: the revision is 0 or the
parent begins with `/revisions`) nothing is written to a shadow node and the self-call is
not made, and the parent of a marker path begins with `/revisions`. Hence a nesting depth of
1 suffices when the revision is 0, when the parent begins with `/revisions`, and for every
marker path, and a nesting depth of 2 suffices for every attribute write: with any greater
bound the result is the same. -/
theorem set_attribute_recursion_bounded (zero : α) (fuel depth : Nat) (ar : Archive α)
    (p : String) (v : AttrValue α)
    (hlen : ("/revisions/" ++ (toString ar.revision ++ p) ++ "/@" ++ attribute_name p).length
      < 2 ^ 64) :
    (∀ (wm : Archive α → String → AttrValue α → Outcome α) (a : Archive α)
      (parent name rev_path : String),
      shadow_attribute wm a parent name rev_path false = ⟨a, none⟩) ∧
    (ar.revision = 0 →
      set_attribute zero fuel (depth + 1) ar p v = set_attribute zero fuel 1 ar p v) ∧
    (substr (attribute_parent p) 0 10 = "/revisions" →
      set_attribute zero fuel (depth + 1) ar p v = set_attribute zero fuel 1 ar p v) ∧
    (∀ (a : Archive α) (x : AttrValue α),
      set_attribute zero fuel (depth + 1) a
          ("/revisions/" ++ toString ar.revision ++ p ++ "/@" ++ attribute_name p) x =
        set_attribute zero fuel 1 a
          ("/revisions/" ++ toString ar.revision ++ p ++ "/@" ++ attribute_name p) x) ∧
    set_attribute zero fuel (depth + 2) ar p v = set_attribute zero fuel 2 ar p v := by
  have hassoc : "/revisions/" ++ toString ar.revision ++ p =
      "/revisions/" ++ (toString ar.revision ++ p) := String.append_assoc _ _ _
  have hinner : ∀ (k : Nat) (a : Archive α) (x : AttrValue α),
      set_attribute zero fuel (k + 1) a
          ("/revisions/" ++ toString ar.revision ++ p ++ "/@" ++ attribute_name p) x =
        set_attribute zero fuel 1 a
          ("/revisions/" ++ toString ar.revision ++ p ++ "/@" ++ attribute_name p) x := by
    intro k a x
    rw [hassoc]
    exact set_attribute_marker_depth zero fuel k a _ _ x hlen
  refine ⟨shadow_attribute_untracked, ?_, ?_, hinner depth, ?_⟩
  · intro h
    apply set_attribute_untracked
    simp [h]
  · intro h
    apply set_attribute_untracked
    simp [h]
  · have key : ∀ (a1 : Archive α) (tracked : Bool),
        shadow_attribute (fun a q x => set_attribute zero fuel (depth + 1) a q x) a1
          (attribute_parent p) (attribute_name p)
          ("/revisions/" ++ toString ar.revision ++ p) tracked =
        shadow_attribute (fun a q x => set_attribute zero fuel 1 a q x) a1
          (attribute_parent p) (attribute_name p)
          ("/revisions/" ++ toString ar.revision ++ p) tracked := by
      intro a1 tracked
      simp only [shadow_attribute, hinner depth]
    show set_attribute zero fuel (depth + 1 + 1) ar p v = set_attribute zero fuel (0 + 1 + 1) ar p v
    rw [set_attribute_succ zero fuel (depth + 1), set_attribute_succ zero fuel (0 + 1)]
    simp only [key, Nat.zero_add]


/-- Instance of `set_attribute_recursion_bounded` at a concrete input. -/
theorem set_attribute_recursion_bounded_witness :
    set_attribute (0 : Int) 4 (5 + 2)
      { context := "", groups := ["/", "/a"], datasets := [], log := [], revision := 1 }
      "/a/@y" (AttrValue.num 0 (7 : Int)) =
    set_attribute (0 : Int) 4 2
      { context := "", groups := ["/", "/a"], datasets := [], log := [], revision := 1 }
      "/a/@y" (AttrValue.num 0 (7 : Int)) :=
  (set_attribute_recursion_bounded (0 : Int) 4 5
    { context := "", groups := ["/", "/a"], datasets := [], log := [], revision := 1 }
    "/a/@y" (AttrValue.num 0 (7 : Int)) (by decide)).2.2.2.2
/-! ## Theorems: offset and extent fit together -/

/-- C31. Offset and extent fit together. For every nested `std::vector` `v` (and for a
scalar) on which `get_extent` succeeds, `get_offset(v)` succeeds and has the length of
`get_extent(v)`; each of its entries is 1 or the corresponding entry of the extent; every
axis before the last has offset 1 and the last axis has the offset of its extent. For an
empty container both are `[0]`. -/
theorem offset_extent_compatible (d : Nat) (v : NVec α d) (size : List Nat)
    (h : get_extent d v = .ok size) :
    (∃ count, get_offset d v = .ok count ∧ count.length = size.length ∧
      (∀ j, j < size.length → count.getD j 0 = 1 ∨ count.getD j 0 = size.getD j 0) ∧
      (∀ j, j + 1 < size.length → count.getD j 0 = 1) ∧
      count.getD (size.length - 1) 0 = size.getD (size.length - 1) 0) ∧
    get_extent (d + 1) (List.nil (α := NVec α d)) = .ok [0] ∧
    get_offset (d + 1) (List.nil (α := NVec α d)) = .ok [0] := by
  have hne : size ≠ [] := get_extent_ne_nil d v size h
  have hlen : 1 ≤ size.length := by
    cases size with
    | nil => exact absurd rfl hne
    | cons a t => simp
  have hfront : ∀ j, j + 1 < size.length →
      (List.replicate (size.length - 1) 1 ++ List.drop (size.length - 1) size).getD j 0
        = 1 := by
    intro j hj
    have hj2 : j < size.length - 1 := by omega
    rw [List.getD_append _ _ _ _ (by simpa using hj2)]
    simp [List.getD_eq_getElem?_getD, List.getElem?_replicate, hj2]
  have hlast : (List.replicate (size.length - 1) 1 ++ List.drop (size.length - 1) size).getD
      (size.length - 1) 0 = size.getD (size.length - 1) 0 := by
    have hl : size.length - 1 < size.length := by omega
    rw [List.getD_append_right _ _ _ _ (by simp)]
    simp [List.getD_eq_getElem?_getD, List.getElem?_eq_getElem hl]
  refine ⟨⟨_, get_offset_formula d v size h, ?_, ?_, hfront, hlast⟩, get_extent_nil d,
    get_offset_nil d⟩
  · simp only [List.length_append, List.length_replicate, List.length_drop]
    omega
  · intro j hj
    by_cases hj2 : j + 1 < size.length
    · exact Or.inl (hfront j hj2)
    · have : j = size.length - 1 := by omega
      subst this
      exact Or.inr hlast

/-- Instance of `offset_extent_compatible` at a concrete input. -/
theorem offset_extent_compatible_witness :
    ∃ count, get_offset 2 ([[1, 2, 3], [4, 5, 6]] : List (List Int)) = .ok count ∧
      count.length = [2, 3].length ∧
      (∀ j, j < [2, 3].length → count.getD j 0 = 1 ∨ count.getD j 0 = [2, 3].getD j 0) ∧
      (∀ j, j + 1 < [2, 3].length → count.getD j 0 = 1) ∧
      count.getD ([2, 3].length - 1) 0 = [2, 3].getD ([2, 3].length - 1) 0 :=
  (offset_extent_compatible (α := Int) 2 ([[1, 2, 3], [4, 5, 6]] : List (List Int)) [2, 3]
    rfl).1
/-! ## Theorems: failure inside a composite transfer -/

/-- C34. Failure inside a composite transfer. If the method `v.serialize(ar)` of the value
raises while a non-native value is streamed through a proxy, the transfer fails: the proxy
rethrows the exception as RuntimeError, and the archive is left as the method left it,
`set_context(c)` not being reached. In particular, when the method has left the context it
was given, the current path context is `complete_path(p)` after the failed call, not the
context from before the call. -/
theorem serialize_impl_failure {V : Type}
    (archive_serialize : Archive α → String → V → Outcome α)
    (value_serialize : V → Archive α → Outcome α) (ar ar1 : Archive α) (p : String) (v : V)
    (e : Err)
    (hfail : value_serialize v (ar.set_context (ar.complete_path p)) = ⟨ar1, some e⟩) :
    generic_serialize false archive_serialize value_serialize ar p v = ⟨ar1, some e⟩ ∧
    pvp_serialize_state (generic_serialize false archive_serialize value_serialize) ar p v =
      ⟨ar1, some (if e.is_exception then Err.RuntimeError else e)⟩ ∧
    (e.is_exception = true →
      (pvp_serialize_state (generic_serialize false archive_serialize value_serialize)
        ar p v).error = some Err.RuntimeError) ∧
    (ar1.get_context = ar.complete_path p →
      (pvp_serialize_state (generic_serialize false archive_serialize value_serialize)
        ar p v).archive.get_context = ar.complete_path p) ∧
    (ar1.get_context = ar.complete_path p → ar.complete_path p ≠ ar.get_context →
      (pvp_serialize_state (generic_serialize false archive_serialize value_serialize)
        ar p v).archive.get_context ≠ ar.get_context) := by
  have h1 : generic_serialize false archive_serialize value_serialize ar p v =
      ⟨ar1, some e⟩ := by
    simp [generic_serialize, serialize_impl_composite, Archive.get_context, hfail,
      Outcome.bind]
  have h2 : pvp_serialize_state (generic_serialize false archive_serialize value_serialize)
      ar p v = ⟨ar1, some (if e.is_exception then Err.RuntimeError else e)⟩ := by
    simp only [pvp_serialize_state, h1]
  refine ⟨h1, h2, ?_, ?_, ?_⟩
  · intro he
    rw [h2]
    simp [he]
  · intro hc
    rw [h2]
    exact hc
  · intro hc hne
    rw [h2]
    show ar1.get_context ≠ ar.get_context
    rw [hc]
    exact hne

/-- Instance of `serialize_impl_failure` at a concrete input. -/
theorem serialize_impl_failure_witness :
    (pvp_serialize_state (generic_serialize (α := Int) (V := Unit) false
        (fun a _ _ => ⟨a, none⟩) (fun _ a => ⟨a, some Err.RangeError⟩))
      { context := "/sim", groups := ["/"], datasets := [], log := [] } "obs" ()).error =
      some Err.RuntimeError ∧
    (pvp_serialize_state (generic_serialize (α := Int) (V := Unit) false
        (fun a _ _ => ⟨a, none⟩) (fun _ a => ⟨a, some Err.RangeError⟩))
      { context := "/sim", groups := ["/"], datasets := [], log := [] } "obs"
      ()).archive.get_context = "/sim/obs" :=
  ⟨(serialize_impl_failure (α := Int) (V := Unit) (fun a _ _ => ⟨a, none⟩)
      (fun _ a => ⟨a, some Err.RangeError⟩)
      { context := "/sim", groups := ["/"], datasets := [], log := [] }
      { context := "/sim/obs", groups := ["/"], datasets := [], log := [] } "obs" ()
      Err.RangeError rfl).2.2.1 rfl,
    (serialize_impl_failure (α := Int) (V := Unit) (fun a _ _ => ⟨a, none⟩)
      (fun _ a => ⟨a, some Err.RangeError⟩)
      { context := "/sim", groups := ["/"], datasets := [], log := [] }
      { context := "/sim/obs", groups := ["/"], datasets := [], log := [] } "obs" ()
      Err.RangeError rfl).2.2.2.1 rfl⟩
end hdf5

namespace accumulator

/-! ## Theorems: logarithmic binning -/

theorem push_all_append {α μ : Type} (add : α → α → α) (div : α → Nat → μ) (zero : α)
    (s : LogBinning α μ) (xs : List α) (x : α) :
    LogBinning.push_all add div zero s (xs ++ [x]) =
      LogBinning.push add div zero (LogBinning.push_all add div zero s xs) x := by
  simp [LogBinning.push_all, List.foldl_append]

theorem block_mean_append {α μ : Type} (add : α → α → α) (div : α → Nat → μ) (zero : α)
    (xs ys : List α) (j : Nat) (h : 2 ^ (j + 1) ≤ xs.length + 1) :
    block_mean add div zero (xs ++ ys) j = block_mean add div zero xs j := by
  have h2 : 2 ^ (j + 1) = 2 ^ j + 2 ^ j := by rw [pow_succ]; omega
  have hpos : 0 < 2 ^ j := Nat.two_pow_pos _
  simp only [block_mean]
  rw [List.drop_append_of_le_length (by omega), List.take_append_of_le_length]
  rw [List.length_drop]
  omega

theorem push_all_closed_form {α μ : Type} (add : α → α → α) (div : α → Nat → μ) (zero : α)
    (xs : List α) (hlen : xs.length + 1 < 2 ^ 64) :
    ∃ k, 2 ^ k ≤ xs.length + 1 ∧ xs.length + 1 < 2 ^ (k + 1) ∧
      LogBinning.push_all add div zero (LogBinning.construct zero) xs =
        { bin_ := (List.range k).map (block_mean add div zero xs),
          partial_ := sum_of add zero (xs.drop (2 ^ k - 1)),
          pos_in_partial_ := xs.length + 1 - 2 ^ k,
          bin_size_now_ := 2 ^ k } := by
  induction xs using List.reverseRecOn with
  | nil => exact ⟨0, by simp, by simp, rfl⟩
  | append_singleton xs x ih =>
    have hlen0 : xs.length + 1 < 2 ^ 64 := by
      rw [List.length_append, List.length_singleton] at hlen
      omega
    obtain ⟨k, hk1, hk2, hst⟩ := ih hlen0
    have hN : (xs ++ [x]).length = xs.length + 1 := by simp
    have h2 : 2 ^ (k + 1) = 2 ^ k + 2 ^ k := by rw [pow_succ]; omega
    have hpos : 0 < 2 ^ k := Nat.two_pow_pos _
    have hsum : add (sum_of add zero (xs.drop (2 ^ k - 1))) x =
        sum_of add zero ((xs ++ [x]).drop (2 ^ k - 1)) := by
      rw [List.drop_append_of_le_length (by omega)]
      simp [sum_of, List.foldl_append]
    have hbins : ∀ m, m ≤ k → (List.range m).map (block_mean add div zero (xs ++ [x])) =
        (List.range m).map (block_mean add div zero xs) := by
      intro m hm
      apply List.map_congr_left
      intro j hj
      rw [List.mem_range] at hj
      apply block_mean_append
      have : 2 ^ (j + 1) ≤ 2 ^ k := Nat.pow_le_pow_right (by decide) (by omega)
      omega
    have hmod : (xs.length + 1 - 2 ^ k + 1) % 2 ^ 64 = xs.length + 1 - 2 ^ k + 1 :=
      Nat.mod_eq_of_lt (by omega)
    rw [push_all_append, hst]
    by_cases hfull : xs.length + 2 = 2 ^ (k + 1)
    · refine ⟨k + 1, by rw [hN]; omega, ?_, ?_⟩
      · rw [hN]
        have : 2 ^ (k + 1 + 1) = 2 ^ (k + 1) + 2 ^ (k + 1) := by rw [pow_succ]; omega
        omega
      · have hpos2 : xs.length + 1 - 2 ^ k + 1 = 2 ^ k := by omega
        have hsize : (2 ^ k * 2) % 2 ^ 64 = 2 ^ (k + 1) := by
          rw [← pow_succ]
          exact Nat.mod_eq_of_lt (by rw [hN] at hlen; omega)
        have hdrop : (xs ++ [x]).drop (2 ^ (k + 1) - 1) = [] := by
          apply List.drop_eq_nil_of_le
          rw [hN]; omega
        have hblock : block_mean add div zero (xs ++ [x]) k =
            div (sum_of add zero ((xs ++ [x]).drop (2 ^ k - 1))) (2 ^ k) := by
          simp only [block_mean]
          rw [List.take_of_length_le]
          rw [List.length_drop, hN]
          omega
        have hmod2 : 2 ^ k % 2 ^ 64 = 2 ^ k := Nat.mod_eq_of_lt (by omega)
        simp only [LogBinning.push, hpos2, hmod2, beq_self_eq_true, if_true, hsize, hsum]
        rw [List.range_succ, List.map_append, hbins k (le_refl _), hdrop, hN]
        have hz : xs.length + 1 + 1 - 2 ^ (k + 1) = 0 := by
          rw [← hfull]
          omega
        rw [hz]
        simp only [List.map_cons, List.map_nil, hblock, sum_of, List.foldl_nil]
    · refine ⟨k, by rw [hN]; omega, by rw [hN]; omega, ?_⟩
      have hne : (xs.length + 1 - 2 ^ k + 1 == 2 ^ k) = false := by
        rw [beq_eq_false_iff_ne]
        omega
      simp only [LogBinning.push, hmod, hne, Bool.false_eq_true, if_false, hsum]
      have hz : xs.length + 1 + 1 - 2 ^ k = xs.length + 1 - 2 ^ k + 1 := by omega
      rw [hbins k (le_refl _), hN, hz]

theorem log_of_bounds (n k : Nat) (h1 : 2 ^ k ≤ n + 1) (h2 : n + 1 < 2 ^ (k + 1)) :
    Nat.log 2 (n + 1) = k :=
  (Nat.log_eq_iff (Or.inr ⟨by decide, by omega⟩)).2 ⟨h1, h2⟩

/-- C35. State invariant of the logarithmic binning. Starting from a freshly constructed or
a reset accumulator, after any `N` values have been pushed (the counters of type `size_type`
not wrapping: `N + 1 < 2^64`), the number of stored bins is `k = floor(log2(N + 1))`,
`bin_size_now_` is `2^k`, `pos_in_partial_` is `N - (2^k - 1)` and strictly below
`bin_size_now_`, and `partial_` is the sum of the last `pos_in_partial_` values pushed. -/
theorem log_binning_invariant {α μ : Type} (add : α → α → α) (div : α → Nat → μ) (zero : α)
    (s0 start : LogBinning α μ) (xs : List α)
    (hstart : start = LogBinning.construct zero ∨ start = LogBinning.reset zero s0)
    (hlen : xs.length + 1 < 2 ^ 64) :
    (LogBinning.push_all add div zero start xs).bin_.length = Nat.log 2 (xs.length + 1) ∧
    (LogBinning.push_all add div zero start xs).bin_size_now_ =
      2 ^ Nat.log 2 (xs.length + 1) ∧
    (LogBinning.push_all add div zero start xs).pos_in_partial_ =
      xs.length - (2 ^ Nat.log 2 (xs.length + 1) - 1) ∧
    (LogBinning.push_all add div zero start xs).pos_in_partial_ <
      (LogBinning.push_all add div zero start xs).bin_size_now_ ∧
    (LogBinning.push_all add div zero start xs).partial_ =
      sum_of add zero (xs.drop
        (xs.length - (LogBinning.push_all add div zero start xs).pos_in_partial_)) := by
  have hs : start = LogBinning.construct zero := by
    rcases hstart with h | h
    · exact h
    · exact h
  obtain ⟨k, hk1, hk2, hst⟩ := push_all_closed_form add div zero xs hlen
  have hlog := log_of_bounds xs.length k hk1 hk2
  have hpos : 0 < 2 ^ k := Nat.two_pow_pos _
  have h2 : 2 ^ (k + 1) = 2 ^ k + 2 ^ k := by rw [pow_succ]; omega
  rw [hs, hst, hlog]
  refine ⟨by simp, rfl, ?_, ?_, ?_⟩
  · show xs.length + 1 - 2 ^ k = xs.length - (2 ^ k - 1)
    omega
  · show xs.length + 1 - 2 ^ k < 2 ^ k
    omega
  · show sum_of add zero (xs.drop (2 ^ k - 1)) =
      sum_of add zero (xs.drop (xs.length - (xs.length + 1 - 2 ^ k)))
    have : xs.length - (xs.length + 1 - 2 ^ k) = 2 ^ k - 1 := by omega
    rw [this]

/-- Instance of `log_binning_invariant` at a concrete input. -/
theorem log_binning_invariant_witness :
    (LogBinning.push_all (α := Int) (μ := Int) (fun a b => a + b) (fun s n => s / n) 0
      (LogBinning.construct 0) [1, 2, 4, 5, 6]).bin_.length = Nat.log 2 (5 + 1) ∧
    (LogBinning.push_all (α := Int) (μ := Int) (fun a b => a + b) (fun s n => s / n) 0
      (LogBinning.construct 0) [1, 2, 4, 5, 6]).bin_size_now_ = 2 ^ Nat.log 2 (5 + 1) :=
  ⟨(log_binning_invariant (α := Int) (μ := Int) (fun a b => a + b) (fun s n => s / n) 0
      (LogBinning.construct 0) (LogBinning.construct 0) [1, 2, 4, 5, 6] (Or.inl rfl)
      (by decide)).1,
    (log_binning_invariant (α := Int) (μ := Int) (fun a b => a + b) (fun s n => s / n) 0
      (LogBinning.construct 0) (LogBinning.construct 0) [1, 2, 4, 5, 6] (Or.inl rfl)
      (by decide)).2.1⟩

/-- C36. Content of the logarithmic binning. After the values `x_0, ..., x_(N-1)` have been
pushed into a fresh accumulator (the counters not wrapping), bin `j`, for every `j` below the
number of bins, is the mean of the `2^j` consecutive values `x_(2^j - 1), ...,
x_(2^(j+1) - 2)`: their sum, added in the order pushed, divided by `2^j`. Pushing further
values never changes a bin already stored. -/
theorem log_binning_content {α μ : Type} (add : α → α → α) (div : α → Nat → μ) (zero : α)
    (xs ys : List α) (hlen : (xs ++ ys).length + 1 < 2 ^ 64) :
    (∀ j, j < (LogBinning.push_all add div zero (LogBinning.construct zero) xs).log_bin.length →
      (LogBinning.push_all add div zero (LogBinning.construct zero) xs).log_bin[j]? =
        some (block_mean add div zero xs j)) ∧
    (∀ j, j < (LogBinning.push_all add div zero (LogBinning.construct zero) xs).log_bin.length →
      (LogBinning.push_all add div zero (LogBinning.construct zero) (xs ++ ys)).log_bin[j]? =
        (LogBinning.push_all add div zero (LogBinning.construct zero) xs).log_bin[j]?) := by
  have hlenx : xs.length + 1 < 2 ^ 64 := by
    rw [List.length_append] at hlen
    omega
  obtain ⟨k, hk1, hk2, hst⟩ := push_all_closed_form add div zero xs hlenx
  obtain ⟨m, hm1, hm2, hst2⟩ := push_all_closed_form add div zero (xs ++ ys) hlen
  have hkm : k ≤ m := by
    have h : 2 ^ k < 2 ^ (m + 1) := by
      rw [List.length_append] at hm2
      omega
    have := (Nat.pow_lt_pow_iff_right (by decide : 1 < 2)).1 h
    omega
  have hfst : ∀ j, j < k →
      ((List.range k).map (block_mean add div zero xs))[j]? =
        some (block_mean add div zero xs j) := by
    intro j hj
    rw [List.getElem?_map, List.getElem?_range hj]
    rfl
  rw [hst, hst2]
  simp only [LogBinning.log_bin, List.length_map, List.length_range]
  refine ⟨hfst, ?_⟩
  intro j hj
  rw [hfst j hj, List.getElem?_map, List.getElem?_range (by omega)]
  simp only [Option.map_some']
  rw [block_mean_append]
  have : 2 ^ (j + 1) ≤ 2 ^ k := Nat.pow_le_pow_right (by decide) (by omega)
  omega

/-- Instance of `log_binning_content` at a concrete input. -/
theorem log_binning_content_witness :
    (LogBinning.push_all (α := Int) (μ := Int) (fun a b => a + b) (fun s n => s / n) 0
      (LogBinning.construct 0) [1, 2, 4, 5, 6]).log_bin[1]? =
      some (block_mean (α := Int) (μ := Int) (fun a b => a + b) (fun s n => s / n) 0
        [1, 2, 4, 5, 6] 1) ∧
    (LogBinning.push_all (α := Int) (μ := Int) (fun a b => a + b) (fun s n => s / n) 0
      (LogBinning.construct 0) ([1, 2, 4, 5, 6] ++ [7, 8])).log_bin[1]? =
      (LogBinning.push_all (α := Int) (μ := Int) (fun a b => a + b) (fun s n => s / n) 0
        (LogBinning.construct 0) [1, 2, 4, 5, 6]).log_bin[1]? :=
  ⟨(log_binning_content (α := Int) (μ := Int) (fun a b => a + b) (fun s n => s / n) 0
      [1, 2, 4, 5, 6] [7, 8] (by decide)).1 1 (by decide),
    (log_binning_content (α := Int) (μ := Int) (fun a b => a + b) (fun s n => s / n) 0
      [1, 2, 4, 5, 6] [7, 8] (by decide)).2 1 (by decide)⟩

/-- C37. Reset of the logarithmic binning. After `reset()` the fields are those of a freshly
constructed accumulator (no bins, running sum the value-initialised value,
`pos_in_partial_ = 0`, `bin_size_now_ = 1`), whatever state the accumulator was in; so pushing
any sequence of values after `reset()` yields the same state, and the same bins, as pushing
that sequence into a new accumulator. -/
theorem log_binning_reset {α μ : Type} (add : α → α → α) (div : α → Nat → μ) (zero : α)
    (s : LogBinning α μ) (xs : List α) :
    LogBinning.reset zero s = LogBinning.construct zero ∧
    (LogBinning.reset zero s).bin_ = [] ∧
    (LogBinning.reset zero s).partial_ = zero ∧
    (LogBinning.reset zero s).pos_in_partial_ = 0 ∧
    (LogBinning.reset zero s).bin_size_now_ = 1 ∧
    LogBinning.push_all add div zero (LogBinning.reset zero s) xs =
      LogBinning.push_all add div zero (LogBinning.construct zero) xs ∧
    (LogBinning.push_all add div zero (LogBinning.reset zero s) xs).log_bin =
      (LogBinning.push_all add div zero (LogBinning.construct zero) xs).log_bin :=
  ⟨rfl, rfl, rfl, rfl, rfl, rfl, rfl⟩

end accumulator

namespace hdf5
/-! ## Theorems: row-major linear index, the walk over a raw buffer -/

theorem linear_index_nil (size : List Nat) : linear_index size [] = 0 := by
  cases size <;> rfl

theorem row_offset_eq_linear_index : ∀ (s size : List Nat) (i : Nat),
    s.length + i ≤ size.length → row_offset size s i = linear_index (size.drop i) s
  | [], size, i, _ => by simp [row_offset, linear_index_nil]
  | a :: rest, size, i, h => by
    have hi : i < size.length := by simp only [List.length_cons] at h; omega
    have hd : size.drop i = size[i] :: size.drop (i + 1) := List.drop_eq_getElem_cons hi
    rw [hd]
    simp only [row_offset, linear_index]
    rw [row_offset_eq_linear_index rest size (i + 1) (by simp only [List.length_cons] at h; omega)]

theorem range_flatMap_block (P : Nat) : ∀ (n : Nat),
    (List.range n).flatMap (fun i => (List.range P).map (fun m => i * P + m)) =
      List.range (n * P)
  | 0 => by simp
  | n + 1 => by
    rw [List.range_succ, List.flatMap_append, range_flatMap_block P n, Nat.succ_mul,
      List.range_add]
    simp

theorem linear_index_rowMajor (tail : List Nat) : ∀ (dims : List Nat),
    (rowMajor dims).map (linear_index (dims ++ tail)) =
      (List.range dims.prod).map (fun t => t * tail.prod)
  | [] => by
    simp only [rowMajor, List.map_cons, List.map_nil, List.nil_append, linear_index_nil,
      List.prod_nil]
    show [0] = [0 * tail.prod]
    rw [Nat.zero_mul]
  | n :: ns => by
    have ih := linear_index_rowMajor tail ns
    have hinner : ∀ i : Nat, ((rowMajor ns).map (fun r => i :: r)).map
        (linear_index (n :: ns ++ tail)) =
        (List.range ns.prod).map (fun m => (i * ns.prod + m) * tail.prod) := by
      intro i
      rw [List.map_map]
      have : (linear_index (n :: ns ++ tail) ∘ fun r => i :: r) =
          (fun x => i * (ns ++ tail).prod + x) ∘ linear_index (ns ++ tail) := by
        funext r
        rfl
      rw [this, ← List.map_map, ih, List.map_map]
      apply List.map_congr_left
      intro m _
      simp only [Function.comp_apply, List.prod_append]
      ring
    simp only [rowMajor, List.map_flatMap, hinner, List.prod_cons]
    rw [← range_flatMap_block ns.prod n, List.map_flatMap]
    simp only [List.map_map, Function.comp_def]

theorem row_offset_rowMajor (dims : List Nat) :
    (rowMajor dims).map (fun r => row_offset dims r 0) = List.range dims.prod := by
  have h := linear_index_rowMajor [] dims
  simp only [List.append_nil, List.prod_nil, Nat.mul_one, List.map_id'] at h
  rw [← h]
  apply List.map_congr_left
  intro r hr
  have hlen : r.length = dims.length := ((mem_rowMajor dims r).1 hr).length_eq
  rw [row_offset_eq_linear_index r dims 0 (by omega), List.drop_zero]

theorem foldl_path (r : List Nat) : ∀ (acc : String),
    r.foldl (fun path i => path ++ ("/" ++ toString i)) acc = acc ++ index_path r := by
  induction r with
  | nil => intro acc; simp [index_path]
  | cons i r ih =>
    intro acc
    simp only [List.foldl_cons, ih, index_path, String.append_assoc]

theorem buffer_path_eq_index_path (r : List Nat) : buffer_path r = index_path r := by
  simp [buffer_path, foldl_path]

theorem run_chunks_pairs {α β : Type} (ser : Archive α → String → β → Except Err (Archive α))
    (p : String) (second : List Nat) : ∀ (L : List (List Nat)) (pre rest : List β)
    (ar : Archive α),
    L.map (fun r => row_offset second r 0) = List.range' pre.length L.length →
    L.length ≤ rest.length →
    run_chunks (pair_walk_step ser p (pre ++ rest) second) L ar =
      write_each ser ((L.zip rest).map (fun rx => (p ++ index_path rx.1, rx.2))) ar
  | [], _, _, _, _, _ => by simp [run_chunks, write_each]
  | r :: L, pre, [], _, _, h => by simp at h
  | r :: L, pre, x :: rest, ar, hoff, hlen => by
    simp only [List.map_cons, List.length_cons, List.range'_succ, List.cons.injEq] at hoff
    obtain ⟨h0, hrest⟩ := hoff
    have hget : (pre ++ x :: rest)[row_offset second r 0]? = some x := by
      rw [h0, List.getElem?_append_right (le_refl _)]
      simp
    simp only [run_chunks, pair_walk_step, hget, buffer_path_eq_index_path, List.zip_cons_cons,
      List.map_cons, write_each]
    cases hs : ser ar (p ++ index_path r) x with
    | error e => rfl
    | ok ar1 =>
      simp only
      have := run_chunks_pairs ser p second L (pre ++ [x]) rest ar1
        (by simpa using hrest) (by simpa using hlen)
      simpa using this

/-- C27. Walk over a raw buffer with the shape `(d_0, ..., d_(k-1))`, `k >= 1`, every
`d_j >= 1`, the buffer holding at least `d_0 * ... * d_(k-1)` elements. The per-element walk
terminates (with any fuel of at least the product of the shape) and is the sequence of calls
`call_serialize(ar, p/i_0/.../i_(k-1), first[t])`, one for each multi-index of the box in
row-major order, `t` counting the calls from 0: the multi-indices visited are exactly those
with `i_j < d_j`, each once, their number is the product of the shape, the buffer position
computed for the multi-index visited `t`-th is `t`, and the path suffix has one decimal
segment per dimension. -/
theorem pair_walk_decomposition {β : Type}
    (ser : Archive α → String → β → Except Err (Archive α)) (p : String) (first : List β)
    (second : List Nat) (fuel : Nat) (ar : Archive α) (hk : 1 ≤ second.length)
    (hpos : ∀ x ∈ second, 1 ≤ x) (hfirst : second.prod ≤ first.length)
    (hfuel : second.prod ≤ fuel) :
    pair_walk ser p first second fuel ar =
      write_each ser (((rowMajor second).zip first).map
        (fun rx => (p ++ index_path rx.1, rx.2))) ar ∧
    ((rowMajor second).zip first).length = second.prod ∧
    (rowMajor second).length = second.prod ∧
    (∀ r, r ∈ rowMajor second ↔ List.Forall₂ (fun i n => i < n) r second) ∧
    (rowMajor second).Pairwise (List.Lex (fun a b : Nat => a < b)) ∧
    (rowMajor second).Nodup ∧
    (rowMajor second).map (fun r => row_offset second r 0) = List.range second.prod ∧
    (∀ r, buffer_path r = index_path r) ∧
    (∀ i r, index_path (i :: r) = "/" ++ toString i ++ index_path r) := by
  have hne : second ≠ [] := by
    intro h
    rw [h] at hk
    simp at hk
  have hlen0 : (second.length == 0) = false := by
    rw [beq_eq_false_iff_ne]
    omega
  have hloop := chunk_loop_rowMajor (pair_walk_step ser p first second) second [] [] hne hpos
    fuel hfuel ar
  simp only [List.append_nil, List.map_id'] at hloop
  have hpairs := run_chunks_pairs ser p second (rowMajor second) [] first ar
    (by
      rw [row_offset_rowMajor, length_rowMajor, List.range_eq_range']
      rfl)
    (by rw [length_rowMajor]; exact hfirst)
  simp only [List.nil_append] at hpairs
  refine ⟨?_, ?_, length_rowMajor _, mem_rowMajor _, pairwise_rowMajor _,
    (pairwise_rowMajor _).imp (fun h => lex_lt_ne _ _ h), row_offset_rowMajor _,
    buffer_path_eq_index_path, fun _ _ => rfl⟩
  · simp only [pair_walk, hlen0, Bool.false_eq_true, if_false]
    rw [hloop, hpairs]
  · rw [List.length_zip, length_rowMajor]
    omega

/-- Instance of `pair_walk_decomposition` at a concrete input. -/
theorem pair_walk_decomposition_witness :
    pair_walk (σ := Archive Int) (β := Int)
        (fun a q x => .ok (a.record (Event.write_all q [x]))) "/p" [10, 11, 12, 13, 14, 15]
        [2, 3] 6 { context := "", groups := ["/"], datasets := [], log := [] } =
      write_each (α := Int) (β := Int) (fun a q x => .ok (a.record (Event.write_all q [x])))
        (((rowMajor [2, 3]).zip [10, 11, 12, 13, 14, 15]).map
          (fun rx => ("/p" ++ index_path rx.1, rx.2)))
        { context := "", groups := ["/"], datasets := [], log := [] } :=
  (pair_walk_decomposition (α := Int) (β := Int)
    (fun a q x => .ok (a.record (Event.write_all q [x]))) "/p" [10, 11, 12, 13, 14, 15]
    [2, 3] 6 { context := "", groups := ["/"], datasets := [], log := [] } (by decide)
    (by decide) (by decide) (by decide)).1
/-! ## Theorems: the chunks of a transfer -/

theorem chunk_schedule_front {σ : Type} (body : List Nat → σ → Except Err σ) (size : List Nat)
    (hd : 1 ≤ size.length) (hpos : ∀ x ∈ size.dropLast, 1 ≤ x) :
    (List.replicate (size.length - 1) 1 ++ List.drop (size.length - 1) size = size →
      ∀ st, body (List.replicate size.length 0) st =
        run_chunks body ((rowMajor size.dropLast).map (fun r => r ++ [0])) st) ∧
    (List.replicate (size.length - 1) 1 ++ List.drop (size.length - 1) size ≠ size →
      ∃ last, find_last size
          (List.replicate (size.length - 1) 1 ++ List.drop (size.length - 1) size)
          ((List.replicate (size.length - 1) 1 ++ List.drop (size.length - 1) size).length - 1)
          = .ok last ∧
        ∀ (fuel : Nat) (st : σ), size.dropLast.prod ≤ fuel →
          chunk_loop body size last fuel (List.replicate size.length 0) st =
            run_chunks body ((rowMajor size.dropLast).map (fun r => r ++ [0])) st) := by
  have hclen : size.length =
      (List.replicate (size.length - 1) 1 ++ List.drop (size.length - 1) size).length := by
    simp only [List.length_append, List.length_replicate, List.length_drop]
    omega
  have hsplit : size = size.take (size.length - 1) ++ size.drop (size.length - 1) :=
    (List.take_append_drop _ _).symm
  constructor
  · intro heq st
    have hdl : size.dropLast = List.replicate (size.length - 1) 1 := by
      rw [List.dropLast_eq_take]
      exact (List.append_cancel_right (heq.trans hsplit)).symm
    have hz : List.replicate (size.length - 1) 0 ++ [0] = List.replicate size.length 0 := by
      obtain ⟨k, hk⟩ : ∃ k, size.length = k + 1 := ⟨size.length - 1, by omega⟩
      rw [hk]
      simp [List.replicate_succ']
    rw [hdl, rowMajor_replicate_one]
    simp only [List.map_cons, List.map_nil, run_chunks_single, hz]
  · intro heq
    obtain ⟨j, hj, hjne⟩ := getD_eq_of_ne size _ hclen heq
    obtain ⟨last, h1, h2, h3, h4⟩ :=
      find_last_spec size _ hclen
        ((List.replicate (size.length - 1) 1 ++ List.drop (size.length - 1) size).length - 1)
        (by omega) ⟨j, by omega, hjne⟩
    refine ⟨last, h1, ?_⟩
    intro fuel st hfuel
    have hlastd : (List.replicate (size.length - 1) 1 ++ List.drop (size.length - 1) size).getD
        (size.length - 1) 0 = size.getD (size.length - 1) 0 := by
      have hl : size.length - 1 < size.length := by omega
      rw [List.getD_append_right _ _ _ _ (by simp)]
      simp [List.getD_eq_getElem?_getD, List.getElem?_eq_getElem hl]
    have hlt : last < size.length - 1 := by
      rcases Nat.lt_or_ge last (size.length - 1) with h | h
      · exact h
      · have : last = size.length - 1 := by omega
        subst this
        exact absurd hlastd h3
    have hones : ∀ j, last < j → j < size.length - 1 → size.getD j 0 = 1 := by
      intro j hj1 hj2
      have := h4 j hj1 (by omega)
      rw [← this, List.getD_append _ _ _ _ (by simpa using hj2)]
      simp [List.getD_eq_getElem?_getD, List.getElem?_replicate, hj2]
    have hdl := dropLast_eq_take_append_ones size last (by omega) hones
    have hdlen : (size.take (last + 1)).length = last + 1 := by
      rw [List.length_take]; omega
    have hdne : size.take (last + 1) ≠ [] := by
      intro h; rw [h] at hdlen; simp at hdlen
    have hpos1 : ∀ b ∈ size.take (last + 1), 1 ≤ b := by
      intro b hb
      apply hpos
      rw [hdl]
      exact List.mem_append_left _ hb
    have hprod : (size.take (last + 1)).prod = size.dropLast.prod := by
      rw [hdl, List.prod_append]
      simp
    have hloop := chunk_loop_rowMajor body
      (size.take (last + 1)) (size.drop (last + 1))
      (List.replicate (size.length - (last + 1)) 0) hdne hpos1 fuel (by omega) st
    rw [List.take_append_drop, hdlen, Nat.add_sub_cancel, ← List.replicate_add] at hloop
    have hsum : last + 1 + (size.length - (last + 1)) = size.length := by omega
    rw [hsum] at hloop
    rw [hloop, hdl, rowMajor_append_ones, List.map_map]
    have hz : ∀ r : List Nat, r ++ List.replicate (size.length - (last + 1)) 0 =
        (r ++ List.replicate (size.length - 1 - (last + 1)) 0) ++ [0] := by
      intro r
      have : size.length - (last + 1) = (size.length - 1 - (last + 1)) + 1 := by omega
      rw [this, List.replicate_succ', List.append_assoc]
    simp only [hz, Function.comp_def]

theorem extent_front_pos : ∀ (d : Nat) (v : NVec α (d + 1)) (size : List Nat),
    get_extent (d + 1) v = .ok size → List.length (α := NVec α d) v ≠ 0 →
    ∀ x ∈ size.dropLast, 1 ≤ x
  | 0, v, size, h, _ => by
    rw [get_extent_one] at h
    injection h with h
    subst h
    simp
  | d + 1, v, size, h, hv => by
    match v, h, hv with
    | [], _, hv => exact absurd rfl hv
    | v0 :: rest, h, _ =>
      obtain ⟨t, h0, _, rfl⟩ := get_extent_cons_ok d v0 rest size h
      have htne : t ≠ [] := get_extent_ne_nil (d + 1) v0 t h0
      have hdl : ((rest.length + 1) :: t).dropLast = (rest.length + 1) :: t.dropLast := by
        cases t with
        | nil => exact absurd rfl htne
        | cons a t => rfl
      rw [hdl]
      intro x hx
      rcases List.mem_cons.1 hx with rfl | hx
      · omega
      · by_cases hv0 : List.length (α := NVec α d) v0 = 0
        · have hnil : v0 = [] := List.length_eq_zero.1 hv0
          subst hnil
          rw [get_extent_nil] at h0
          injection h0 with h0
          subst h0
          simp at hx
        · exact extent_front_pos d v0 t h0 hv0 x hx

theorem chunk_starts_rows (size : List Nat) (hd : 1 ≤ size.length)
    (hpos : ∀ x ∈ size.dropLast, 1 ≤ x) (fuel : Nat) (hfuel : size.dropLast.prod ≤ fuel) :
    chunk_starts fuel size
        (List.replicate (size.length - 1) 1 ++ List.drop (size.length - 1) size) =
      .ok ((rowMajor size.dropLast).map (fun r => r ++ [0])) := by
  have hclen : (List.replicate (size.length - 1) 1 ++ List.drop (size.length - 1) size).length
      = size.length := by
    simp only [List.length_append, List.length_replicate, List.length_drop]
    omega
  obtain ⟨hbulk, hloop⟩ :=
    chunk_schedule_front (fun s (acc : List (List Nat)) => Except.ok (acc ++ [s])) size hd hpos
  simp only [chunk_starts, std_equal_of_length_eq _ _ hclen]
  by_cases heq : List.replicate (size.length - 1) 1 ++ List.drop (size.length - 1) size = size
  · have h := hbulk heq []
    rw [run_chunks_record] at h
    simp only [List.nil_append, Except.ok.injEq] at h
    simp only [heq, decide_True, h]
  · obtain ⟨last, hl, hrun⟩ := hloop heq
    have h := hrun fuel [] hfuel
    rw [run_chunks_record] at h
    simp only [heq, decide_False, hl, visited, h, List.nil_append]
theorem in_slab_cons (s c i : Nat) (ss cs is : List Nat) :
    in_slab (s :: ss) (c :: cs) (i :: is) =
      (decide (s ≤ i) && decide (i < s + c) && in_slab ss cs is) := rfl

theorem in_box_cons (n i : Nat) (ns is : List Nat) :
    in_box (n :: ns) (i :: is) = (decide (i < n) && in_box ns is) := rfl

theorem in_slab_row : ∀ (r idx : List Nat) (n : Nat),
    in_slab (r ++ [0]) (List.replicate r.length 1 ++ [n]) idx = true ↔
      ∃ i, i < n ∧ idx = r ++ [i]
  | [], idx, n => by
    match idx with
    | [] => simp [in_slab]
    | [i] => simp [in_slab]
    | i :: j :: rest => simp [in_slab]
  | a :: r, idx, n => by
    match idx with
    | [] => simp [in_slab]
    | i0 :: idx1 =>
      have ih := in_slab_row r idx1 n
      show in_slab (a :: (r ++ [0])) (1 :: (List.replicate r.length 1 ++ [n])) (i0 :: idx1)
        = true ↔ ∃ i, i < n ∧ i0 :: idx1 = a :: (r ++ [i])
      rw [in_slab_cons]
      simp only [Bool.and_eq_true, decide_eq_true_eq, ih, List.cons.injEq]
      constructor
      · rintro ⟨⟨h1, h2⟩, i, hi, rfl⟩
        exact ⟨i, hi, by omega, rfl⟩
      · rintro ⟨i, hi, rfl, rfl⟩
        exact ⟨⟨le_refl _, by omega⟩, i, hi, rfl⟩

theorem in_box_snoc : ∀ (dims idx : List Nat) (n : Nat),
    in_box (dims ++ [n]) idx = true ↔ ∃ r i, r ∈ rowMajor dims ∧ i < n ∧ idx = r ++ [i]
  | [], idx, n => by
    match idx with
    | [] => simp [in_box, rowMajor]
    | [i] => simp [in_box, rowMajor]
    | i :: j :: rest => simp [in_box, rowMajor]
  | m :: ds, idx, n => by
    match idx with
    | [] => simp [in_box]
    | i0 :: idx1 =>
      have ih := in_box_snoc ds idx1 n
      show in_box (m :: (ds ++ [n])) (i0 :: idx1) = true ↔
        ∃ r i, r ∈ rowMajor (m :: ds) ∧ i < n ∧ i0 :: idx1 = r ++ [i]
      rw [in_box_cons]
      simp only [Bool.and_eq_true, decide_eq_true_eq, ih, rowMajor, List.mem_flatMap,
        List.mem_range, List.mem_map]
      constructor
      · rintro ⟨h0, r, i, hr, hi, rfl⟩
        exact ⟨i0 :: r, i, ⟨i0, h0, r, hr, rfl⟩, hi, rfl⟩
      · rintro ⟨_, i, ⟨a, ha, r, hr, rfl⟩, hi, heq⟩
        simp only [List.cons_append, List.cons.injEq] at heq
        obtain ⟨rfl, rfl⟩ := heq
        exact ⟨ha, r, i, hr, hi, rfl⟩

theorem length_of_mem_rowMajor (dims r : List Nat) (h : r ∈ rowMajor dims) :
    r.length = dims.length :=
  ((mem_rowMajor dims r).1 h).length_eq

theorem nodup_rows (dims : List Nat) :
    ((rowMajor dims).map (fun r => r ++ [0])).Nodup := by
  apply List.Nodup.map_on
  · intro x _ y _ hxy
    exact (List.append_inj' hxy rfl).1
  · exact (pairwise_rowMajor dims).imp (fun h => lex_lt_ne _ _ h)

theorem extent_snoc (size : List Nat) (hne : size ≠ []) :
    ∃ dims n, size = dims ++ [n] :=
  ⟨size.dropLast, size.getLast hne, (List.dropLast_append_getLast hne).symm⟩

/-- C23. Chunks tile the object. For every non-empty nested `std::vector` `v` on which
`get_extent` succeeds, with `size = get_extent(v)` and `count = get_offset(v)`, the transfer
of `archive_base::set_data` has (with any fuel of at least the product of all extents but
the last) a list of start offsets, the single start `(0, ..., 0)` when `count = size`, in
which no start occurs twice; every hyperslab `[start, start + count)` lies inside the box of
extents `size`, no multi-index lies in the hyperslabs of two different starts, and every
multi-index of the box lies in the hyperslab of exactly one start. -/
theorem chunks_tile (d : Nat) (v : NVec α (d + 1)) (size count : List Nat)
    (hv : List.length (α := NVec α d) v ≠ 0) (hs : get_extent (d + 1) v = .ok size)
    (hc : get_offset (d + 1) v = .ok count) :
    ∃ starts, (∀ fuel, size.dropLast.prod ≤ fuel → chunk_starts fuel size count = .ok starts) ∧
      (count = size → starts = [List.replicate size.length 0]) ∧
      starts.Nodup ∧
      (∀ s ∈ starts, ∀ idx, in_slab s count idx = true → in_box size idx = true) ∧
      starts.Pairwise
        (fun s t => ∀ idx, ¬(in_slab s count idx = true ∧ in_slab t count idx = true)) ∧
      (∀ idx, in_box size idx = true →
        ∃ s ∈ starts, in_slab s count idx = true ∧
          ∀ t ∈ starts, in_slab t count idx = true → t = s) := by
  have hne : size ≠ [] := get_extent_ne_nil (d + 1) v size hs
  have hfront := extent_front_pos d v size hs hv
  rw [get_offset_formula (d + 1) v size hs] at hc
  injection hc with hc
  obtain ⟨dims, n, rfl⟩ := extent_snoc size hne
  have hlen : (dims ++ [n]).length - 1 = dims.length := by simp
  have hdrop : List.drop dims.length (dims ++ [n]) = [n] := by simp
  have hdl : (dims ++ [n]).dropLast = dims := by simp
  have hstarts := chunk_starts_rows (dims ++ [n]) (by simp) hfront
  rw [hlen, hdrop] at hc hstarts
  rw [hdl] at hstarts hfront
  subst hc
  have hslab : ∀ r ∈ rowMajor dims, ∀ idx,
      in_slab (r ++ [0]) (List.replicate dims.length 1 ++ [n]) idx = true ↔
        ∃ i, i < n ∧ idx = r ++ [i] := by
    intro r hr idx
    rw [← length_of_mem_rowMajor dims r hr]
    exact in_slab_row r idx n
  refine ⟨(rowMajor dims).map (fun r => r ++ [0]), ?_, ?_, nodup_rows dims, ?_, ?_, ?_⟩
  · intro fuel hfuel
    rw [hdl] at hfuel
    exact hstarts fuel hfuel
  · intro heq
    have h1 := hstarts dims.prod (le_refl _)
    simp only [chunk_starts, heq, std_equal_self] at h1
    injection h1 with h1
    exact h1.symm
  · intro s hsm idx hin
    obtain ⟨r, hr, rfl⟩ := List.mem_map.1 hsm
    obtain ⟨i, hi, rfl⟩ := (hslab r hr idx).1 hin
    exact (in_box_snoc dims _ n).2 ⟨r, i, hr, hi, rfl⟩
  · apply (nodup_rows dims).imp_of_mem
    intro s t hsm htm hst idx hboth
    obtain ⟨r, hr, rfl⟩ := List.mem_map.1 hsm
    obtain ⟨r2, hr2, rfl⟩ := List.mem_map.1 htm
    obtain ⟨i, _, hi⟩ := (hslab r hr idx).1 hboth.1
    obtain ⟨i2, _, hi2⟩ := (hslab r2 hr2 idx).1 hboth.2
    rw [hi] at hi2
    have := (List.append_inj' hi2 rfl).1
    subst this
    exact hst rfl
  · intro idx hbox
    obtain ⟨r, i, hr, hi, rfl⟩ := (in_box_snoc dims idx n).1 hbox
    refine ⟨r ++ [0], List.mem_map.2 ⟨r, hr, rfl⟩, (hslab r hr _).2 ⟨i, hi, rfl⟩, ?_⟩
    intro t htm hin
    obtain ⟨r2, hr2, rfl⟩ := List.mem_map.1 htm
    obtain ⟨i2, _, hi2⟩ := (hslab r2 hr2 _).1 hin
    have := (List.append_inj' hi2 rfl).1
    subst this
    rfl

/-- Instance of `chunks_tile` at a concrete input. -/
theorem chunks_tile_witness :
    ∃ starts, (∀ fuel, [2, 3].dropLast.prod ≤ fuel →
        chunk_starts fuel [2, 3] [1, 3] = .ok starts) ∧
      ([1, 3] = [2, 3] → starts = [List.replicate [2, 3].length 0]) ∧
      starts.Nodup ∧
      (∀ s ∈ starts, ∀ idx, in_slab s [1, 3] idx = true → in_box [2, 3] idx = true) ∧
      starts.Pairwise
        (fun s t => ∀ idx, ¬(in_slab s [1, 3] idx = true ∧ in_slab t [1, 3] idx = true)) ∧
      (∀ idx, in_box [2, 3] idx = true →
        ∃ s ∈ starts, in_slab s [1, 3] idx = true ∧
          ∀ t ∈ starts, in_slab t [1, 3] idx = true → t = s) :=
  chunks_tile (α := Int) 1 ([[1, 2, 3], [4, 5, 6]] : List (List Int)) [2, 3] [1, 3]
    (by decide) rfl rfl
/-! ## Theorems: rows of a nested vector and its row-major flattening -/

theorem flatten_one (v : NVec α 1) : flatten 1 v = v := by
  show List.flatMap (α := α) v (fun x => [x]) = v
  exact List.flatMap_singleton' _

theorem flatten_succ (d : Nat) (v : NVec α (d + 1 + 1)) :
    flatten (d + 1 + 1) v = List.flatMap (α := NVec α (d + 1)) v (flatten (d + 1)) := rfl

theorem length_flatten : ∀ (d : Nat) (v : NVec α (d + 1)) (size : List Nat),
    get_extent (d + 1) v = .ok size → (flatten (d + 1) v).length = size.prod
  | 0, v, size, h => by
    rw [get_extent_one] at h
    injection h with h
    subst h
    rw [flatten_one]
    simp
  | d + 1, v, size, h => by
    match v, h with
    | [], h =>
      rw [get_extent_nil] at h
      injection h with h
      subst h
      rfl
    | v0 :: rest, h =>
      obtain ⟨t, h0, hall, rfl⟩ := get_extent_cons_ok d v0 rest size h
      rw [flatten_succ, length_flatMap_const (flatten (d + 1)) t.prod]
      · simp
      · intro x hx
        rcases List.mem_cons.1 hx with rfl | hx
        · exact length_flatten d _ t h0
        · exact length_flatten d x t (hall x hx)

theorem linear_index_cons (n i : Nat) (ns is : List Nat) :
    linear_index (n :: ns) (i :: is) = i * ns.prod + linear_index ns is := rfl

theorem linear_index_append_zero : ∀ (dims r : List Nat), r.length = dims.length →
    ∀ (tail : List Nat), linear_index (dims ++ tail) (r ++ [0]) = linear_index (dims ++ tail) r
  | [], [], _, tail => by
    cases tail with
    | nil => rfl
    | cons t ts => simp [linear_index_cons, linear_index_nil]
  | [], _ :: _, h, _ => by simp at h
  | _ :: _, [], h, _ => by simp at h
  | m :: ds, i :: r, h, tail => by
    have ih := linear_index_append_zero ds r (by simpa using h) tail
    show linear_index (m :: (ds ++ tail)) (i :: (r ++ [0])) =
      linear_index (m :: (ds ++ tail)) (i :: r)
    rw [linear_index_cons, linear_index_cons, ih]

theorem get_data_succ (d : Nat) (v : List (NVec α (d + 1))) (i : Nat) (s : List Nat)
    (x : NVec α (d + 1)) (hx : v.get? i = some x) :
    get_data (α := α) (d + 1) v (i :: s) = get_data d x s := by
  simp only [get_data, hx]

theorem row_slice_step (d : Nat) (v : List (NVec α (d + 1))) (dims : List Nat) (n : Nat)
    (ih : ∀ (x : NVec α (d + 1)) (ds : List Nat) (n : Nat),
      get_extent (d + 1) x = .ok (ds ++ [n]) → (∀ y ∈ ds, 1 ≤ y) → 1 ≤ n →
      ∀ r ∈ rowMajor ds, ∃ ptr, get_data d x (r ++ [0]) = .ok ptr ∧
        ptr.read n = .ok (((flatten (d + 1) x).drop
          (linear_index (ds ++ [n]) (r ++ [0]))).take n) ∧
        linear_index (ds ++ [n]) (r ++ [0]) + n ≤ (flatten (d + 1) x).length)
    (h : get_extent (α := α) (d + 1 + 1) v = .ok (dims ++ [n])) (hdims : ∀ x ∈ dims, 1 ≤ x)
    (hn : 1 ≤ n) (r : List Nat) (hr : r ∈ rowMajor dims) :
    ∃ ptr, get_data (α := α) (d + 1) v (r ++ [0]) = .ok ptr ∧
      ptr.read n = .ok (((flatten (α := α) (d + 1 + 1) v).drop
        (linear_index (dims ++ [n]) (r ++ [0]))).take n) ∧
      linear_index (dims ++ [n]) (r ++ [0]) + n ≤ (flatten (α := α) (d + 1 + 1) v).length := by
  have hpos : ∀ x ∈ dims ++ [n], 1 ≤ x := by
    intro x hx
    rcases List.mem_append.1 hx with hx | hx
    · exact hdims x hx
    · simp only [List.mem_singleton] at hx
      omega
  obtain ⟨t, hsize, hvlen, hvall⟩ := get_extent_succ_ok d v (dims ++ [n]) h hpos
  match dims, hsize, hdims, hr with
  | [], hsize, _, _ =>
    simp only [List.nil_append, List.cons.injEq] at hsize
    have hvne : ∃ x, x ∈ v := by
      cases hv : v with
      | nil => rw [hv] at hvlen; simp at hvlen
      | cons x _ => exact ⟨x, List.mem_cons_self _ _⟩
    obtain ⟨x, hx⟩ := hvne
    exact absurd hsize.2.symm (get_extent_ne_nil (d + 1) x t (hvall x hx))
  | m :: ds, hsize, hdims, hr =>
    simp only [List.cons_append, List.cons.injEq] at hsize
    obtain ⟨hm, ht⟩ := hsize
    subst ht
    simp only [rowMajor, List.mem_flatMap, List.mem_range, List.mem_map] at hr
    obtain ⟨i, hi, r1, hr1, rfl⟩ := hr
    have hiv : i < v.length := by omega
    have hx : v.get? i = some v[i] := by
      rw [List.get?_eq_getElem?, List.getElem?_eq_getElem hiv]
    have hxm : v[i] ∈ v := List.getElem_mem hiv
    obtain ⟨ptr, hget, hread, hbound⟩ := ih v[i] ds n (hvall _ hxm)
      (fun x hx => hdims x (List.mem_cons_of_mem _ hx)) hn r1 hr1
    have hsplit : v = List.take i v ++ v[i] :: List.drop (i + 1) v := by
      rw [← List.drop_eq_getElem_cons hiv, List.take_append_drop]
    have hA : (List.flatMap (List.take i v) (flatten (d + 1))).length
        = i * (ds ++ [n]).prod := by
      rw [length_flatMap_const (flatten (d + 1)) (ds ++ [n]).prod]
      · rw [List.length_take, Nat.min_eq_left (by omega)]
      · intro x hx
        exact length_flatten d x _ (hvall x (List.mem_of_mem_take hx))
    have hB : (flatten (d + 1) v[i]).length = (ds ++ [n]).prod :=
      length_flatten d _ _ (hvall _ hxm)
    have hflat : flatten (α := α) (d + 1 + 1) v =
        List.flatMap (List.take i v) (flatten (d + 1)) ++
          (flatten (d + 1) v[i] ++ List.flatMap (List.drop (i + 1) v) (flatten (d + 1))) := by
      rw [flatten_succ]
      nth_rewrite 1 [hsplit]
      rw [List.flatMap_append, List.flatMap_cons]
    have hidx : linear_index (m :: ds ++ [n]) ((i :: r1) ++ [0]) =
        i * (ds ++ [n]).prod + linear_index (ds ++ [n]) (r1 ++ [0]) := rfl
    refine ⟨ptr, ?_, ?_, ?_⟩
    · rw [List.cons_append, get_data_succ d v i _ _ hx]
      exact hget
    · rw [hread, hidx, hflat, ← hA, List.drop_append,
        List.drop_append_of_le_length (by omega), List.take_append_of_le_length]
      rw [List.length_drop]
      omega
    · rw [hidx, hflat, List.length_append, List.length_append, hA, hB]
      rw [hB] at hbound
      omega

theorem row_slice : ∀ (d : Nat) (v : NVec α (d + 1)) (dims : List Nat) (n : Nat),
    get_extent (d + 1) v = .ok (dims ++ [n]) → (∀ x ∈ dims, 1 ≤ x) → 1 ≤ n →
    ∀ r ∈ rowMajor dims, ∃ ptr, get_data d v (r ++ [0]) = .ok ptr ∧
      ptr.read n = .ok (((flatten (d + 1) v).drop
        (linear_index (dims ++ [n]) (r ++ [0]))).take n) ∧
      linear_index (dims ++ [n]) (r ++ [0]) + n ≤ (flatten (d + 1) v).length
  | 0, v, dims, n, h, _, hn, r, hr => by
    rw [get_extent_one] at h
    injection h with h
    match dims, h, hr with
    | [], h, hr =>
      simp only [List.nil_append, List.cons.injEq, and_true] at h
      simp only [rowMajor, List.mem_singleton] at hr
      subst hr
      have hlen : 0 < List.length (α := α) v := by omega
      refine ⟨⟨v, 0⟩, ?_, ?_, ?_⟩
      · simp only [List.nil_append, get_data, hlen, if_true]
      · rw [flatten_one]
        simp only [Ptr.read, List.nil_append, linear_index_cons, linear_index_nil,
          Nat.zero_mul, Nat.zero_add, List.drop_zero]
        rw [if_pos (by omega)]
      · rw [flatten_one]
        simp only [List.nil_append, linear_index_cons, linear_index_nil, Nat.zero_mul,
          Nat.zero_add]
        omega
    | a :: ds, h, _ =>
      simp at h
  | d + 1, v, dims, n, h, hdims, hn, r, hr =>
    row_slice_step d v dims n (row_slice d) h hdims hn r hr
/-! ## Theorems: the indices applied by `get_data` -/

theorem get_data_ok_iff : ∀ (d : Nat) (v : NVec α (d + 1)) (s : List Nat),
    (∃ ptr, get_data d v s = .ok ptr) ↔ index_safe d v s = true
  | 0, v, [] => by simp [get_data, index_safe]
  | 0, v, s0 :: _ => by
    simp only [get_data, index_safe, decide_eq_true_eq]
    by_cases h : s0 < List.length (α := α) v
    · simp [h]
    · simp [h]
  | d + 1, v, [] => by simp [get_data, index_safe]
  | d + 1, v, s0 :: rest => by
    simp only [get_data, index_safe]
    cases h : List.get? (α := NVec α (d + 1)) v s0 with
    | none => simp
    | some x => exact get_data_ok_iff d x rest

theorem read_ok_bound (ptr : Ptr α) (n : Nat) (l : List α) (h : ptr.read n = .ok l) :
    ptr.pos + n ≤ ptr.mem.length := by
  by_contra hc
  simp [Ptr.read, hc] at h

/-- C32 (the code departs from the claim). The vector `{{}, {}}` is non-empty and
`get_extent` succeeds on it with `[2, 0]`; its offset is `[1, 0]`. The entries of the extent
do not sum to zero, so `archive_base::set_data` does not take the null branch (line 798) and
the transfer visits the starts `[0, 0]` and `[1, 0]`. For the start `[0, 0]` `get_data`
applies the index 0 to the empty inner vector `v[0]` (lines 431, 436): an index that is not
smaller than the size of the vector. -/
theorem get_data_index_empty_rows :
    get_extent 2 ([[], []] : List (List Int)) = .ok [2, 0] ∧
    get_offset 2 ([[], []] : List (List Int)) = .ok [1, 0] ∧
    chunk_starts 2 [2, 0] [1, 0] = .ok [[0, 0], [1, 0]] ∧
    index_safe 1 ([[], []] : List (List Int)) [0, 0] = false ∧
    get_data 1 ([[], []] : List (List Int)) [0, 0] = .error Err.OutOfBounds := by
  refine ⟨rfl, rfl, rfl, rfl, rfl⟩

/-- Indexing safety of `get_data` away from empty rows. For every nested `std::vector` `v`
on which `get_extent` succeeds with every extent at least 1, `size = get_extent(v)` and
`count = get_offset(v)`, and every start offset of the transfer (the single start
`(0, ..., 0)` when `count = size`, every position of the chunk odometer otherwise), every
index `get_data` applies to a vector at any nesting level is smaller than the size of that
vector: `get_data` returns a pointer, and the `count[0] * count[1] * ...` elements of the
chunk lie inside the vector pointed into. `get_data` returns a pointer exactly when all the
indices it applies are in range. -/
theorem get_data_index_safe (d : Nat) (v : NVec α (d + 1)) (size count : List Nat)
    (hs : get_extent (d + 1) v = .ok size) (hpos : ∀ x ∈ size, 1 ≤ x)
    (hc : get_offset (d + 1) v = .ok count) :
    (∃ starts,
      (∀ fuel, size.dropLast.prod ≤ fuel → chunk_starts fuel size count = .ok starts) ∧
      (count = size → starts = [List.replicate size.length 0]) ∧
      ∀ s ∈ starts, index_safe d v s = true ∧
        ∃ ptr, get_data d v s = .ok ptr ∧ ptr.pos + count.prod ≤ ptr.mem.length) ∧
    (∀ s, (∃ ptr, get_data d v s = .ok ptr) ↔ index_safe d v s = true) := by
  refine ⟨?_, get_data_ok_iff d v⟩
  have hne : size ≠ [] := get_extent_ne_nil (d + 1) v size hs
  rw [get_offset_formula (d + 1) v size hs] at hc
  injection hc with hc
  obtain ⟨dims, n, rfl⟩ := extent_snoc size hne
  have hlen : (dims ++ [n]).length - 1 = dims.length := by simp
  have hdrop : List.drop dims.length (dims ++ [n]) = [n] := by simp
  have hdl : (dims ++ [n]).dropLast = dims := by simp
  have hdims : ∀ x ∈ dims, 1 ≤ x := fun x hx => hpos x (List.mem_append_left _ hx)
  have hn : 1 ≤ n := hpos n (by simp)
  have hstarts := chunk_starts_rows (dims ++ [n]) (by simp) (by rw [hdl]; exact hdims)
  rw [hlen, hdrop] at hc hstarts
  rw [hdl] at hstarts
  subst hc
  have hprod : (List.replicate dims.length 1 ++ [n]).prod = n := by simp
  refine ⟨(rowMajor dims).map (fun r => r ++ [0]), ?_, ?_, ?_⟩
  · intro fuel hfuel
    rw [hdl] at hfuel
    exact hstarts fuel hfuel
  · intro heq
    have h1 := hstarts dims.prod (le_refl _)
    simp only [chunk_starts, heq, std_equal_self] at h1
    injection h1 with h1
    exact h1.symm
  · intro s hsm
    obtain ⟨r, hr, rfl⟩ := List.mem_map.1 hsm
    obtain ⟨ptr, hget, hread, _⟩ := row_slice d v dims n hs hdims hn r hr
    refine ⟨(get_data_ok_iff d v _).1 ⟨ptr, hget⟩, ptr, hget, ?_⟩
    rw [hprod]
    exact read_ok_bound ptr n _ hread

/-- Instance of `get_data_index_safe` at a concrete input. -/
theorem get_data_index_safe_witness :
    ∃ starts,
      (∀ fuel, [2, 3].dropLast.prod ≤ fuel → chunk_starts fuel [2, 3] [1, 3] = .ok starts) ∧
      ([1, 3] = [2, 3] → starts = [List.replicate [2, 3].length 0]) ∧
      ∀ s ∈ starts, index_safe 1 ([[1, 2, 3], [4, 5, 6]] : List (List Int)) s = true ∧
        ∃ ptr, get_data 1 ([[1, 2, 3], [4, 5, 6]] : List (List Int)) s = .ok ptr ∧
          ptr.pos + [1, 3].prod ≤ ptr.mem.length :=
  (get_data_index_safe (α := Int) 1 ([[1, 2, 3], [4, 5, 6]] : List (List Int)) [2, 3] [1, 3]
    rfl (by decide) rfl).1
/-! ## Theorems: the chunked attribute transfer -/

theorem run_chunks_congr {σ : Type} (f g : List Nat → σ → Except Err σ) :
    ∀ (L : List (List Nat)) (st : σ), (∀ s ∈ L, ∀ st, f s st = g s st) →
    run_chunks f L st = run_chunks g L st
  | [], _, _ => rfl
  | s :: L, st, h => by
    simp only [run_chunks, h s (List.mem_cons_self _ _)]
    cases g s st with
    | error e => rfl
    | ok st1 =>
      exact run_chunks_congr f g L st1 (fun t ht => h t (List.mem_cons_of_mem _ ht))

theorem run_splice (F : List α) (n : Nat) (off : List Nat → Nat)
    (body : List Nat → List α → Except Err (List α)) :
    ∀ (L : List (List Nat)) (k : Nat) (Z : List α),
    L.map off = (List.range' k L.length).map (fun t => t * n) →
    (∀ s ∈ L, ∀ b : List α, b.length = F.length →
      body s b = .ok (b.take (off s) ++ (F.drop (off s)).take n ++ b.drop (off s + n))) →
    (k + L.length) * n ≤ F.length → Z.length = F.length - k * n →
    run_chunks body L (F.take (k * n) ++ Z) =
      .ok (F.take ((k + L.length) * n) ++ Z.drop (L.length * n))
  | [], k, Z, _, _, _, _ => by simp [run_chunks]
  | s :: L, k, Z, hoff, hbody, hbound, hZ => by
    simp only [List.map_cons, List.length_cons, List.range'_succ, List.cons.injEq] at hoff
    obtain ⟨h0, hrest⟩ := hoff
    simp only [List.length_cons] at hbound
    have hkn : k * n + n ≤ F.length := by
      have : (k + 1) * n ≤ (k + (L.length + 1)) * n := Nat.mul_le_mul_right _ (by omega)
      have h2 : (k + 1) * n = k * n + n := by ring
      omega
    have htake : (F.take (k * n)).length = k * n := by
      rw [List.length_take]; omega
    have hblen : (F.take (k * n) ++ Z).length = F.length := by
      rw [List.length_append, htake, hZ]; omega
    have hstep := hbody s (List.mem_cons_self _ _) (F.take (k * n) ++ Z) hblen
    rw [h0] at hstep
    have h1 : List.take (k * n) (F.take (k * n) ++ Z) = F.take (k * n) := by
      rw [List.take_append_of_le_length (by omega), List.take_take, Nat.min_self]
    have h2 : List.drop (k * n + n) (F.take (k * n) ++ Z) = Z.drop n := by
      have := @List.drop_append α (F.take (k * n)) Z n
      rw [htake] at this
      exact this
    have h3 : F.take (k * n) ++ (F.drop (k * n)).take n = F.take ((k + 1) * n) := by
      have : (k + 1) * n = k * n + n := by ring
      rw [this, List.take_add]
    rw [h1, h2, h3] at hstep
    simp only [run_chunks, hstep]
    have ih := run_splice F n off body L (k + 1) (Z.drop n) hrest
      (fun t ht => hbody t (List.mem_cons_of_mem _ ht))
      (by
        have : k + 1 + L.length = k + (L.length + 1) := by omega
        rw [this]; exact hbound)
      (by
        rw [List.length_drop, hZ]
        have : (k + 1) * n = k * n + n := by ring
        omega)
    rw [ih, List.drop_drop]
    have e1 : k + 1 + L.length = k + (L.length + 1) := by omega
    have e2 : n + L.length * n = (L.length + 1) * n := by ring
    rw [e1, e2]
    rfl

theorem rows_offsets (dims : List Nat) (n : Nat) :
    ((rowMajor dims).map (fun r => r ++ [0])).map (linear_index (dims ++ [n])) =
      (List.range' 0 ((rowMajor dims).map (fun r => r ++ [0])).length).map
        (fun t => t * n) := by
  rw [List.map_map, List.length_map, length_rowMajor, ← List.range_eq_range']
  have h := linear_index_rowMajor [n] dims
  simp only [List.prod_cons, List.prod_nil, Nat.mul_one] at h
  rw [← h]
  apply List.map_congr_left
  intro r hr
  exact linear_index_append_zero dims r (length_of_mem_rowMajor dims r hr) [n]

theorem attr_copy_chunk_row (d : Nat) (v : NVec α (d + 1)) (dims : List Nat) (n : Nat)
    (hs : get_extent (d + 1) v = .ok (dims ++ [n])) (hdims : ∀ x ∈ dims, 1 ≤ x) (hn : 1 ≤ n)
    (s : List Nat) (hsm : s ∈ (rowMajor dims).map (fun r => r ++ [0])) (b : List α)
    (hb : b.length = (flatten (d + 1) v).length) :
    attr_copy_chunk d v (dims ++ [n]) (List.replicate dims.length 1 ++ [n]) s b =
      .ok (b.take (linear_index (dims ++ [n]) s) ++
        ((flatten (d + 1) v).drop (linear_index (dims ++ [n]) s)).take n ++
        b.drop (linear_index (dims ++ [n]) s + n)) := by
  obtain ⟨r, hr, rfl⟩ := List.mem_map.1 hsm
  obtain ⟨ptr, hget, hread, hbound⟩ := row_slice d v dims n hs hdims hn r hr
  have hprod : (List.replicate dims.length 1 ++ [n]).prod = n := by simp
  have hoff : row_offset (dims ++ [n]) (r ++ [0]) 0 = linear_index (dims ++ [n]) (r ++ [0]) := by
    rw [row_offset_eq_linear_index _ _ 0, List.drop_zero]
    rw [List.length_append, List.length_append, length_of_mem_rowMajor dims r hr]
    simp
  have hclen : (((flatten (d + 1) v).drop (linear_index (dims ++ [n]) (r ++ [0]))).take
      n).length = n := by
    rw [List.length_take, List.length_drop]
    omega
  simp only [attr_copy_chunk, hget, hprod, hread, hoff, hclen]
  rw [if_pos (by omega)]

theorem attr_read_chunk_eq {β : Type} (size count s : List Nat) (data : List β)
    (hlen : s.length = size.length)
    (hbound : linear_index size s + count.prod ≤ data.length) :
    attr_read_chunk size count s data =
      .ok ((data.drop (linear_index size s)).take count.prod) := by
  have hoff : row_offset size s 0 = linear_index size s := by
    rw [row_offset_eq_linear_index _ _ 0 (by omega), List.drop_zero]
  simp only [attr_read_chunk, hoff]
  rw [if_pos hbound]

theorem attr_read_step_row (d : Nat) (v : NVec α (d + 1)) (dims : List Nat) (n : Nat)
    (hs : get_extent (d + 1) v = .ok (dims ++ [n])) (hdims : ∀ x ∈ dims, 1 ≤ x) (hn : 1 ≤ n)
    (s : List Nat) (hsm : s ∈ (rowMajor dims).map (fun r => r ++ [0])) (w : NVec α (d + 1)) :
    attr_read_step d (dims ++ [n]) (List.replicate dims.length 1 ++ [n]) (flatten (d + 1) v)
        s w =
      transfer_step d v (List.replicate dims.length 1 ++ [n]) s w := by
  obtain ⟨r, hr, rfl⟩ := List.mem_map.1 hsm
  obtain ⟨ptr, hget, hread, hbound⟩ := row_slice d v dims n hs hdims hn r hr
  have hprod : (List.replicate dims.length 1 ++ [n]).prod = n := by simp
  have hchunk := attr_read_chunk_eq (dims ++ [n]) (List.replicate dims.length 1 ++ [n])
    (r ++ [0]) (flatten (d + 1) v)
    (by
      rw [List.length_append, List.length_append, length_of_mem_rowMajor dims r hr]
      rfl)
    (by rw [hprod]; exact hbound)
  rw [hprod] at hchunk
  simp only [attr_read_step, hchunk, transfer_step, hget, hprod, hread]

/-- C26. The chunked attribute transfer is the whole-object transfer. For every rectangular
nested `std::vector` `v` of native numeric scalars with every extent at least 1,
`size = get_extent(v)` and `count = get_offset(v)`: when `count = size` the buffer handed to
`H5Awrite` is the row-major flattening of `v`; otherwise the chunk loop of the attribute
write terminates (with any fuel of at least the product of all extents but the last) and the
buffer `continous` it assembles chunk by chunk is the row-major flattening of `v`. The chunk
the attribute read cuts out for a start offset `s` is the slice of the flat stored data that
begins at the row-major linear index of `s` and is `count[0] * count[1] * ...` elements long;
and reading the flattening of `v` back chunk by chunk into a target of the same extent yields
`v`. -/
theorem attribute_chunks_flatten (zero : α) (d : Nat) (v : NVec α (d + 1))
    (size count : List Nat) (hs : get_extent (d + 1) v = .ok size)
    (hpos : ∀ x ∈ size, 1 ≤ x) (hc : get_offset (d + 1) v = .ok count) :
    (count = size → ∃ ptr, get_data d v (List.replicate size.length 0) = .ok ptr ∧
      ptr.read size.prod = .ok (flatten (d + 1) v)) ∧
    (count ≠ size → ∃ last, find_last size count (count.length - 1) = .ok last ∧
      ∀ fuel, size.dropLast.prod ≤ fuel →
        chunk_loop (attr_copy_chunk d v size count) size last fuel
          (List.replicate size.length 0) (List.replicate size.prod zero) =
            .ok (flatten (d + 1) v)) ∧
    (∀ (s : List Nat) (data : List α), s.length = size.length →
      linear_index size s + count.prod ≤ data.length →
      attr_read_chunk size count s data =
        .ok ((data.drop (linear_index size s)).take count.prod)) ∧
    (∀ w : NVec α (d + 1), get_extent (d + 1) w = .ok size → count ≠ size →
      ∃ last, find_last size count (count.length - 1) = .ok last ∧
        ∀ fuel, size.dropLast.prod ≤ fuel →
          chunk_loop (attr_read_step d size count (flatten (d + 1) v)) size last fuel
            (List.replicate size.length 0) w = .ok v) := by
  have hne : size ≠ [] := get_extent_ne_nil (d + 1) v size hs
  have hc0 := hc
  rw [get_offset_formula (d + 1) v size hs] at hc
  injection hc with hc
  obtain ⟨dims, n, rfl⟩ := extent_snoc size hne
  have hlen : (dims ++ [n]).length - 1 = dims.length := by simp
  have hdrop : List.drop dims.length (dims ++ [n]) = [n] := by simp
  have hdl : (dims ++ [n]).dropLast = dims := by simp
  have hdims : ∀ x ∈ dims, 1 ≤ x := fun x hx => hpos x (List.mem_append_left _ hx)
  have hn : 1 ≤ n := hpos n (by simp)
  have hF : (flatten (d + 1) v).length = dims.prod * n := by
    rw [length_flatten d v _ hs]
    simp
  have hsched : ∀ {σ : Type} (body : List Nat → σ → Except Err σ),
      List.replicate dims.length 1 ++ [n] ≠ dims ++ [n] →
      ∃ last, find_last (dims ++ [n]) (List.replicate dims.length 1 ++ [n])
          ((List.replicate dims.length 1 ++ [n]).length - 1) = .ok last ∧
        ∀ (fuel : Nat) (st : σ), dims.prod ≤ fuel →
          chunk_loop body (dims ++ [n]) last fuel (List.replicate (dims ++ [n]).length 0) st =
            run_chunks body ((rowMajor dims).map (fun r => r ++ [0])) st := by
    intro σ body hneq
    have h := (chunk_schedule_front body (dims ++ [n]) (by simp)
      (by rw [hdl]; exact hdims)).2
    rw [hlen, hdrop, hdl] at h
    exact h hneq
  rw [hlen, hdrop] at hc
  subst hc
  rw [hdl]
  refine ⟨?_, ?_, ?_, ?_⟩
  · intro heq
    have hd1 : dims = List.replicate dims.length 1 :=
      (List.append_cancel_right heq).symm
    have hr : List.replicate dims.length 0 ∈ rowMajor dims := by
      rw [hd1, rowMajor_replicate_one, List.length_replicate]
      exact List.mem_singleton_self _
    obtain ⟨ptr, hget, hread, _⟩ := row_slice d v dims n hs hdims hn _ hr
    have hz : List.replicate dims.length 0 ++ [0] = List.replicate (dims ++ [n]).length 0 := by
      rw [List.length_append, List.length_singleton, List.replicate_succ']
    have hone : dims.prod = 1 := by
      rw [hd1]
      simp
    have hoff : linear_index (dims ++ [n]) (List.replicate dims.length 0 ++ [0]) = 0 := by
      have h := rows_offsets dims n
      rw [hd1, rowMajor_replicate_one] at h
      simp only [List.map_cons, List.map_nil, List.length_singleton, List.range'_one,
        Nat.zero_mul, List.cons.injEq, and_true] at h
      rw [← hd1] at h
      exact h
    refine ⟨ptr, by rw [← hz]; exact hget, ?_⟩
    have hp : (dims ++ [n]).prod = n := by
      rw [List.prod_append, hone]
      simp
    rw [hp, hread, hoff, List.drop_zero, List.take_of_length_le]
    rw [hF, hone]
    omega
  · intro hneq
    obtain ⟨last, hl, hrun⟩ := hsched (attr_copy_chunk d v (dims ++ [n])
      (List.replicate dims.length 1 ++ [n])) hneq
    refine ⟨last, hl, ?_⟩
    intro fuel hfuel
    rw [hrun fuel _ hfuel]
    have hsp := run_splice (flatten (d + 1) v) n (linear_index (dims ++ [n]))
      (attr_copy_chunk d v (dims ++ [n]) (List.replicate dims.length 1 ++ [n]))
      ((rowMajor dims).map (fun r => r ++ [0])) 0
      (List.replicate (dims ++ [n]).prod zero) (rows_offsets dims n)
      (fun s hsm b hb => attr_copy_chunk_row d v dims n hs hdims hn s hsm b hb)
      (by rw [List.length_map, length_rowMajor, hF, Nat.zero_add])
      (by rw [List.length_replicate, length_flatten d v _ hs]; omega)
    simp only [Nat.zero_mul, List.take_zero, List.nil_append, Nat.zero_add, List.length_map,
      length_rowMajor] at hsp
    rw [hsp, List.take_of_length_le (by rw [hF]), List.drop_eq_nil_of_le, List.append_nil]
    rw [List.length_replicate, List.prod_append]
    simp
  · intro s data hslen hbound
    exact attr_read_chunk_eq _ _ s data hslen hbound
  · intro w hw hneq
    obtain ⟨last, hl, hrun⟩ := hsched (attr_read_step d (dims ++ [n])
      (List.replicate dims.length 1 ++ [n]) (flatten (d + 1) v)) hneq
    refine ⟨last, hl, ?_⟩
    intro fuel hfuel
    rw [hrun fuel _ hfuel]
    rw [run_chunks_congr _ (transfer_step d v (List.replicate dims.length 1 ++ [n])) _ w
      (fun s hsm st => attr_read_step_row d v dims n hs hdims hn s hsm st)]
    have := transfer_rows d v w (dims ++ [n]) _ hs hw hpos hc0
    rw [hdl] at this
    exact this

/-- Instance of `attribute_chunks_flatten` at a concrete input. -/
theorem attribute_chunks_flatten_witness :
    ∃ last, find_last [2, 3] [1, 3] ([1, 3].length - 1) = .ok last ∧
      ∀ fuel, [2, 3].dropLast.prod ≤ fuel →
        chunk_loop (attr_copy_chunk 1 ([[1, 2, 3], [4, 5, 6]] : List (List Int)) [2, 3] [1, 3])
          [2, 3] last fuel (List.replicate [2, 3].length 0)
          (List.replicate [2, 3].prod (0 : Int)) =
            .ok (flatten 2 ([[1, 2, 3], [4, 5, 6]] : List (List Int))) :=
  (attribute_chunks_flatten (0 : Int) 1 ([[1, 2, 3], [4, 5, 6]] : List (List Int)) [2, 3]
    [1, 3] rfl (by decide) rfl).2.1 (by decide)
/-! ## Theorems: reading back a decomposed container -/

theorem digitChar_value (m : Nat) (h : m < 10) :
    (Nat.digitChar m).toNat - '0'.toNat = m ∧ (Nat.digitChar m).isDigit = true := by
  interval_cases m <;> exact ⟨rfl, rfl⟩

theorem toDigitsCore_value : ∀ (fuel n : Nat) (ds : List Char), n < fuel →
    (Nat.toDigitsCore 10 fuel n ds).foldl (fun n c => n * 10 + (c.toNat - '0'.toNat)) 0 =
      ds.foldl (fun n c => n * 10 + (c.toNat - '0'.toNat)) n
  | 0, _, _, h => by omega
  | fuel + 1, n, ds, h => by
    have hd := (digitChar_value (n % 10) (Nat.mod_lt _ (by decide))).1
    simp only [Nat.toDigitsCore]
    split
    · rename_i h0
      simp only [List.foldl_cons, Nat.zero_mul, Nat.zero_add, hd]
      have : n % 10 = n := by
        have := Nat.div_add_mod n 10
        omega
      rw [this]
    · rename_i h0
      rw [toDigitsCore_value fuel (n / 10) _ (by omega)]
      simp only [List.foldl_cons, hd]
      have : n / 10 * 10 + n % 10 = n := by
        have := Nat.div_add_mod n 10
        omega
      rw [this]

theorem toDigitsCore_digits : ∀ (fuel n : Nat) (ds : List Char),
    (∀ c ∈ ds, c.isDigit = true) → ∀ c ∈ Nat.toDigitsCore 10 fuel n ds, c.isDigit = true
  | 0, _, ds, h => by simpa [Nat.toDigitsCore] using h
  | fuel + 1, n, ds, h => by
    have hd : ∀ c ∈ Nat.digitChar (n % 10) :: ds, c.isDigit = true := by
      intro c hc
      rcases List.mem_cons.1 hc with rfl | hc
      · exact (digitChar_value (n % 10) (Nat.mod_lt _ (by decide))).2
      · exact h c hc
    simp only [Nat.toDigitsCore]
    split
    · exact hd
    · exact toDigitsCore_digits fuel _ _ hd

theorem toDigitsCore_ne_nil : ∀ (fuel n : Nat) (ds : List Char), ds ≠ [] →
    Nat.toDigitsCore 10 fuel n ds ≠ []
  | 0, _, ds, h => by simpa [Nat.toDigitsCore] using h
  | fuel + 1, n, ds, _ => by
    simp only [Nat.toDigitsCore]
    split
    · simp
    · exact toDigitsCore_ne_nil fuel _ _ (by simp)

theorem toDigits_ne_nil (n : Nat) : Nat.toDigits 10 n ≠ [] := by
  simp only [Nat.toDigits, Nat.toDigitsCore]
  split
  · simp
  · exact toDigitsCore_ne_nil _ _ _ (by simp)

theorem convert_roundtrip (i : Nat) (h : i < 2 ^ 64) :
    convert_size_t (toString i) = some i := by
  have hdata : (toString i).data = Nat.toDigits 10 i := rfl
  have h1 : (toString i).data ≠ [] := by
    rw [hdata]
    exact toDigits_ne_nil i
  have h2 : (toString i).data.all Char.isDigit = true := by
    rw [hdata, List.all_eq_true]
    exact toDigitsCore_digits _ _ _ (by simp)
  have h3 : (toString i).data.foldl (fun n c => n * 10 + (c.toNat - '0'.toNat)) 0 = i := by
    rw [hdata]
    exact toDigitsCore_value (i + 1) i [] (by omega)
  simp only [convert_size_t, h3]
  rw [if_pos ⟨h1, h2⟩, if_pos h]

theorem getD_set_ne {β : Type} (l : List β) (c i : Nat) (y dflt : β) (h : i ≠ c) :
    (l.set c y).getD i dflt = l.getD i dflt := by
  simp only [List.getD_eq_getElem?_getD]
  rw [List.getElem?_set_ne (Ne.symm h)]

theorem getD_set_self {β : Type} (l : List β) (c : Nat) (y dflt : β) (h : c < l.length) :
    (l.set c y).getD c dflt = y := by
  simp only [List.getD_eq_getElem?_getD]
  rw [List.getElem?_set_self h]
  rfl

theorem read_children_indices {β : Type} (rd : String → β → Except ReadErr β) (p : String)
    (dflt : β) (n : Nat) (hn : n < 2 ^ 64) (w0 : List β) (out : Nat → β)
    (hrd : ∀ i, i < n → rd (p ++ "/" ++ toString i) (w0.getD i dflt) = .ok (out i)) :
    ∀ (cs : List Nat) (w : List β), cs.Nodup → (∀ i ∈ cs, i < n) → w.length = n →
    (∀ i ∈ cs, w.getD i dflt = w0.getD i dflt) →
    ∃ w1, read_children rd p (cs.map (fun i => toString i)) w = .ok w1 ∧ w1.length = n ∧
      (∀ i ∈ cs, w1.getD i dflt = out i) ∧ (∀ i, i ∉ cs → w1.getD i dflt = w.getD i dflt)
  | [], w, _, _, hw, _ => ⟨w, rfl, hw, by simp, fun _ _ => rfl⟩
  | c :: cs, w, hnd, hlt, hw, hkeep => by
    have hc : c < n := hlt c (List.mem_cons_self _ _)
    have hcw : c < w.length := by omega
    have hconv := convert_roundtrip c (by omega)
    have hget : w[c]? = some (w.getD c dflt) := by
      rw [List.getD_eq_getElem?_getD, List.getElem?_eq_getElem hcw]
      rfl
    have hval : rd (p ++ "/" ++ toString c) (w.getD c dflt) = .ok (out c) := by
      rw [hkeep c (List.mem_cons_self _ _)]
      exact hrd c hc
    have hnd2 := List.nodup_cons.1 hnd
    obtain ⟨w1, hrun, hlen, hin, hout⟩ := read_children_indices rd p dflt n hn w0 out hrd cs
      (w.set c (out c)) hnd2.2 (fun i hi => hlt i (List.mem_cons_of_mem _ hi))
      (by rw [List.length_set]; exact hw)
      (fun i hi => by
        have hne : i ≠ c := fun e => hnd2.1 (e ▸ hi)
        rw [getD_set_ne _ _ _ _ _ hne]
        exact hkeep i (List.mem_cons_of_mem _ hi))
    refine ⟨w1, ?_, hlen, ?_, ?_⟩
    · simp only [List.map_cons, read_children, hconv, hget, hval]
      exact hrun
    · intro i hi
      rcases List.mem_cons.1 hi with rfl | hi
      · rw [hout _ hnd2.1]
        exact getD_set_self _ _ _ _ hcw
      · exact hin i hi
    · intro i hi
      have hne : i ≠ c := fun e => hi (e ▸ List.mem_cons_self _ _)
      have hi2 : i ∉ cs := fun e => hi (List.mem_cons_of_mem _ e)
      rw [hout i hi2, getD_set_ne _ _ _ _ _ hne]

/-- C33. Reading back a decomposed container. `convert<size_t>(convert<string>(i)) = i` for
every index `i` below `2^64`. For a group whose children are exactly the names `"0"`, ...,
`"n-1"`, listed in any order, the reading `serialize` for `std::vector` resizes the target to
`n` elements and reads the child named `i` from the path `p/i` into element `i`: when every
element read succeeds, the result is the vector of length `n` whose element `i` is what was
read from `p/i`, and every child name denotes an index below `n`. -/
theorem vector_read_decomposed {β : Type} (dflt : β) (rd : String → β → Except ReadErr β)
    (read_data : List β → Except ReadErr (List β)) (p : String) (v : List β) (n : Nat)
    (l : List Nat) (out : Nat → β) (hn : n < 2 ^ 64) (hl : l.Perm (List.range n))
    (hrd : ∀ i, i < n →
      rd (p ++ "/" ++ toString i) ((resize dflt n v).getD i dflt) = .ok (out i)) :
    iarchive_serialize_vector dflt true (l.map (fun i => toString i)) rd read_data p v =
      .ok ((List.range n).map out) ∧
    ((List.range n).map out).length = n ∧
    (∀ c ∈ l.map (fun i => toString i), ∃ i, i < n ∧ convert_size_t c = some i) ∧
    (∀ i, i < 2 ^ 64 → convert_size_t (toString i) = some i) ∧
    (l.map (fun i => p ++ "/" ++ toString i)).Perm (child_paths p n) := by
  have hnd : l.Nodup := hl.nodup_iff.2 (List.nodup_range n)
  have hlt : ∀ i ∈ l, i < n := fun i hi => List.mem_range.1 (hl.mem_iff.1 hi)
  have hlen : l.length = n := by rw [hl.length_eq, List.length_range]
  obtain ⟨w1, hrun, hw1, hin, _⟩ := read_children_indices rd p dflt n hn (resize dflt n v) out
    hrd l (resize dflt n v) hnd hlt (length_resize dflt n v) (fun _ _ => rfl)
  have hres : w1 = (List.range n).map out := by
    apply List.ext_getElem
    · rw [hw1, List.length_map, List.length_range]
    · intro i h1 h2
      have hi : i < n := by omega
      have := hin i (hl.mem_iff.2 (List.mem_range.2 hi))
      rw [List.getD_eq_getElem?_getD, List.getElem?_eq_getElem h1] at this
      simp only [Option.getD_some] at this
      rw [this, List.getElem_map, List.getElem_range]
  refine ⟨?_, by simp, ?_, convert_roundtrip, ?_⟩
  · simp only [iarchive_serialize_vector, if_true, List.length_map, hlen]
    rw [hrun, hres]
  · intro c hc
    obtain ⟨i, hi, rfl⟩ := List.mem_map.1 hc
    exact ⟨i, hlt i hi, convert_roundtrip i (by have := hlt i hi; omega)⟩
  · exact hl.map _

/-- Instance of `vector_read_decomposed` at a concrete input. -/
theorem vector_read_decomposed_witness :
    iarchive_serialize_vector (0 : Int) true ([1, 0, 2].map (fun i => toString i))
        (fun q _ => .ok (Int.ofNat q.length)) (fun v => .ok v) "/p" [5] =
      .ok ((List.range 3).map (fun i => Int.ofNat ("/p" ++ "/" ++ toString i).length)) :=
  (vector_read_decomposed (0 : Int) (fun q _ => .ok (Int.ofNat q.length)) (fun v => .ok v)
    "/p" [5] 3 [1, 0, 2] (fun i => Int.ofNat ("/p" ++ "/" ++ toString i).length) (by decide)
    (by decide) (fun _ _ => rfl)).1
end hdf5
end ALPS
